import Mathlib

/-!
# Spreadsheet recalculation core: cells, dependency graph, sparse grid

A shallow embedding of `src/spreadsheet/cell.cpp` (class `Cell`) and
`src/spreadsheet/main.cpp` (class `Sheet`).

* A `Cell*` is an index into `Sheet.heap`, the list of every `Cell` object that
  was ever allocated; `nullptr` is `none`.  The heap only grows: an address is
  never given out twice.
* `Sheet::ClearCell` calls `unique_ptr::release()`, which drops the pointer
  without destroying the object: a released object stays alive and unowned.
  Its trimming loop calls `pop_back()`, which destroys the object owned by the
  removed slot when that slot is not null.  `Cell::~Cell()` detaches nothing,
  so the `childs_` and `parents_` sets of other cells keep the address of a
  destroyed object.  `Sheet.freed` is the list of the destroyed objects; their
  last contents stay in `Sheet.heap` only so that addresses do not shift.
* A pointer taken from the grid `cells_` is an owning `unique_ptr` and so the
  address of a live object (`Reachable.owned`, `cellAt_not_freed`).  The
  pointers that may be stale are the members of `childs_` and `parents_`: a
  method that reads or writes an object of `Sheet.freed` through one of them
  has no defined result, `Run.fault .useAfterFree`.  The definitions on a bare
  heap (`VisitCell`, `IsCyclic`, `InvalidateCache`, `detach`, `link`) say what
  the methods compute on the objects as stored; `CreateFormulaImpl` and
  `UpdateDependencies` decide whether one of the objects they touch was
  destroyed.
* A `std::unordered_set<Cell*>` is a list read as the set of its members;
  insertion and erasure are `setInsert` and `setErase`.
* A `std::string` is a `String`, one `Char` per byte.
* The formula parser, the constants of `common.h` and the evaluator are not in
  the repository sources; they are the fields of `Env` and the `evaluated`
  argument of `Cell.GetValue`.
* A C++ exception is the result `Run.threw`, which carries the state the
  exception leaves behind; a read outside a vector, a null dereference, an
  access to a destroyed object or an exhausted recursion bound is `Run.fault`.
-/

namespace Spreadsheet

/-! ## Data model -/

/-- Position of `common.h`: a pair of `int` coordinates. -/
structure Position where
  row : Int
  col : Int
deriving DecidableEq, Repr

/-- Size of `common.h`: the printable area, a pair of `int`. -/
structure Size where
  rows : Int
  cols : Int
deriving DecidableEq, Repr

/-- The part of `FormulaInterface` the sheet uses: `GetExpression()` and
`GetReferencedCells()`. -/
structure FormulaInterface where
  expression : String
  referenced : List Position
deriving DecidableEq, Repr

/-- The result of evaluating a formula, `FormulaInterface::Value`: a number or
an evaluation error.  The sheet stores it and never inspects it. -/
inductive FormulaValue where
  | number (x : Int)
  | error (category : Nat)
deriving DecidableEq, Repr

/-- The value of a cell, `CellInterface::Value`: a string or a formula result. -/
inductive Value where
  | str (s : String)
  | formula (v : FormulaValue)
deriving DecidableEq, Repr

/-- What the sources take from outside: the bounds of `Position::IsValid` and
the formula parser `ParseFormula`, which yields `none` when it throws
`FormulaException`. -/
structure Env where
  MAX_ROWS : Int
  MAX_COLS : Int
  ParseFormula : String → Option FormulaInterface

/-- The exceptions the sheet raises. -/
inductive Exception where
  | InvalidPositionException
  | FormulaException
  | CircularDependencyException
deriving DecidableEq, Repr

/-- Executions with no defined result: a vector read outside its range, a null
pointer dereference, a recursion that did not finish within the model bound,
an access to a destroyed `Cell` through a stale pointer. -/
inductive Fault where
  | outOfRange
  | nullPointer
  | outOfFuel
  | useAfterFree
deriving DecidableEq, Repr

/-- The three content variants, `Cell::EmptyImpl`, `Cell::TextImpl` and
`Cell::FormulaImpl` (with its `cache_`). -/
inductive Impl where
  | EmptyImpl
  | TextImpl (text_ : String)
  | FormulaImpl (formula_ : FormulaInterface) (cache_ : Option FormulaValue)
deriving DecidableEq, Repr

/-- A `Cell` object: `impl_`, `childs_`, `parents_`. -/
structure Cell where
  impl_ : Impl
  childs_ : List Nat
  parents_ : List Nat
deriving DecidableEq, Repr

/-- A `Sheet` object: the allocated cells, the grid `cells_` of owning pointers
and the printable size `size_`; `freed` lists the addresses of the cells that
were destroyed. -/
structure Sheet where
  heap : List Cell
  cells_ : List (List (Option Nat))
  size_ : Size
  freed : List Nat
deriving DecidableEq, Repr

/-- Result of running a method. -/
inductive Run (α : Type) where
  | returned (value : α)
  | threw (e : Exception) (left : Sheet)
  | fault (f : Fault)
deriving DecidableEq, Repr

/-- The sheet a call leaves behind, when it has a defined result. -/
def Run.state? : Run Sheet → Option Sheet
  | .returned s => some s
  | .threw _ s => some s
  | .fault _ => none

/-- FORMULA_SIGN of `common.h`. -/
def FORMULA_SIGN : Char := '='

/-- ESCAPE_SIGN of `common.h`, the apostrophe. -/
def ESCAPE_SIGN : Char := Char.ofNat 39

/-- Modelled from the spec: `Position::IsValid` of `common.h`, the coordinate
space is `[0, MAX_ROWS) × [0, MAX_COLS)`. -/
def Position.IsValid (env : Env) (pos : Position) : Prop :=
  0 ≤ pos.row ∧ 0 ≤ pos.col ∧ pos.row < env.MAX_ROWS ∧ pos.col < env.MAX_COLS

instance (env : Env) (pos : Position) : Decidable (pos.IsValid env) :=
  inferInstanceAs (Decidable (_ ∧ _))

/-- The sheet `CreateSheet()` returns. -/
def Sheet.empty : Sheet := ⟨[], [], ⟨0, 0⟩, []⟩

/-! ## Containers -/

/-- Insertion `unordered_set::insert`. -/
def setInsert (x : Nat) (l : List Nat) : List Nat :=
  if x ∈ l then l else l ++ [x]

/-- Erasure `unordered_set::erase`. -/
def setErase (x : Nat) (l : List Nat) : List Nat :=
  l.filter (fun y => decide (y ≠ x))

/-- Resizing `vector::resize(n)`: truncate, or pad with value-initialised
elements. -/
def resize {α : Type} (l : List α) (n : Nat) (d : α) : List α :=
  l.take n ++ List.replicate (n - l.length) d

/-- Decrement of a `size_t`: zero wraps to `2^64 - 1`. -/
def decSizeT (i : Nat) : Nat :=
  if i = 0 then 2 ^ 64 - 1 else i - 1

/-- Apply `f` to the object at address `id`. -/
def modifyCell (heap : List Cell) (id : Nat) (f : Cell → Cell) : List Cell :=
  match heap[id]? with
  | some c => heap.set id (f c)
  | none => heap

/-- The set `parents_` of the object at `id`. -/
def parentsOf (heap : List Cell) (id : Nat) : List Nat :=
  match heap[id]? with
  | some c => c.parents_
  | none => []

/-- The set `childs_` of the object at `id`. -/
def childsOf (heap : List Cell) (id : Nat) : List Nat :=
  match heap[id]? with
  | some c => c.childs_
  | none => []

/-! ## Cell: content -/

/-- Text `substr(1)` of a string. -/
def substr1 (text : String) : String :=
  String.mk (text.data.drop 1)

/-- Method `Impl::GetText`. -/
def Impl.GetText : Impl → String
  | .EmptyImpl => ""
  | .TextImpl text_ => text_
  | .FormulaImpl formula_ _ => String.mk [FORMULA_SIGN] ++ formula_.expression

/-- Method `Impl::GetReferencedCells`. -/
def Impl.GetReferencedCells : Impl → List Position
  | .FormulaImpl formula_ _ => formula_.referenced
  | _ => []

/-- Method `Impl::InvalidateCache`: `cache_.reset()` for a formula, nothing
otherwise. -/
def Impl.InvalidateCache : Impl → Impl
  | .FormulaImpl formula_ _ => .FormulaImpl formula_ none
  | i => i

/-- Method `Impl::GetValue`; `evaluated` is what `formula_->Evaluate(sheet_)`
yields, used only when the cache is empty.  Returns the value and the
implementation with its cache filled. -/
def Impl.GetValue (evaluated : FormulaValue) : Impl → Value × Impl
  | .EmptyImpl => (.str "", .EmptyImpl)
  | .TextImpl text_ =>
    (if text_.data.head? = some ESCAPE_SIGN then .str (substr1 text_) else .str text_,
      .TextImpl text_)
  | .FormulaImpl formula_ none => (.formula evaluated, .FormulaImpl formula_ (some evaluated))
  | .FormulaImpl formula_ (some v) => (.formula v, .FormulaImpl formula_ (some v))

/-- Method `Cell::IsFormula`. -/
def IsFormula (text : String) : Bool :=
  decide (text.data.length > 1) && decide (text.data.head? = some FORMULA_SIGN)

/-- The object `CreateCell` allocates: empty content, no edges. -/
def Cell.blank : Cell := ⟨.EmptyImpl, [], []⟩

/-- Assignment to `impl_` of the object at `this`. -/
def setImpl (s : Sheet) (this : Nat) (impl : Impl) : Sheet :=
  { s with heap := modifyCell s.heap this (fun c => { c with impl_ := impl }) }

/-- Method `Cell::GetText` of the object at `this`. -/
def Cell.GetText (s : Sheet) (this : Nat) : Option String :=
  s.heap[this]?.map (fun c => c.impl_.GetText)

/-- Method `Cell::GetValue` of the object at `this`: the value, and the sheet
with the cache of that cell filled. -/
def Cell.GetValue (s : Sheet) (this : Nat) (evaluated : FormulaValue) : Option Value × Sheet :=
  match s.heap[this]? with
  | some c => (some (c.impl_.GetValue evaluated).1, setImpl s this (c.impl_.GetValue evaluated).2)
  | none => (none, s)

/-- Method `Cell::IsReferenced`. -/
def Cell.IsReferenced (s : Sheet) (this : Nat) : Bool :=
  !(parentsOf s.heap this).isEmpty

/-! ## Sheet: the grid -/

/-- Method `Sheet::IsCellExists`: the position is inside the vectors.  A
negative `int` cast to `size_t` exceeds every vector size, so the test fails
for it. -/
def IsCellExists (s : Sheet) (pos : Position) : Prop :=
  0 ≤ pos.row ∧ pos.row.toNat < s.cells_.length ∧
    0 ≤ pos.col ∧ pos.col.toNat < (s.cells_.getD pos.row.toNat []).length

instance (s : Sheet) (pos : Position) : Decidable (IsCellExists s pos) :=
  inferInstanceAs (Decidable (_ ∧ _))

/-- The pointer stored in `cells[r][c]`; `none` is the null pointer, also
taken outside the vectors. -/
def slot (cells : List (List (Option Nat))) (r c : Nat) : Option Nat :=
  (cells.getD r []).getD c none

/-- The pointer `GetCell` returns for a valid position: `nullptr` outside the
vectors, else `cells_[pos.row][pos.col].get()`. -/
def cellAt (s : Sheet) (pos : Position) : Option Nat :=
  if IsCellExists s pos then slot s.cells_ pos.row.toNat pos.col.toNat else none

/-- Method `Sheet::GetCell`. -/
def GetCell (env : Env) (s : Sheet) (pos : Position) : Run (Option Nat) :=
  if pos.IsValid env then .returned (cellAt s pos)
  else .threw .InvalidPositionException s

/-- Method `Sheet::ResizeTable`. -/
def ResizeTable (s : Sheet) (pos : Position) : Sheet :=
  let cells1 :=
    if pos.row ≥ (s.cells_.length : Int) then resize s.cells_ (pos.row + 1).toNat [] else s.cells_
  let cells2 :=
    if pos.col ≥ ((cells1.getD pos.row.toNat []).length : Int) then
      cells1.set pos.row.toNat (resize (cells1.getD pos.row.toNat []) (pos.col + 1).toNat none)
    else cells1
  { s with
    cells_ := cells2
    size_ := ⟨max s.size_.rows (pos.row + 1), max s.size_.cols (pos.col + 1)⟩ }

/-- The first lines of `Sheet::SetCell` after the validity check:
`ResizeTable(pos)`, then `cell = CreateCell(*this)` when the slot is null.
Returns the sheet and the `Cell*` now stored at `pos`. -/
def locate (s : Sheet) (pos : Position) : Sheet × Nat :=
  let s1 := ResizeTable s pos
  match slot s1.cells_ pos.row.toNat pos.col.toNat with
  | some id => (s1, id)
  | none =>
    ({ s1 with
        heap := s1.heap ++ [Cell.blank]
        cells_ := s1.cells_.set pos.row.toNat
          ((s1.cells_.getD pos.row.toNat []).set pos.col.toNat (some s1.heap.length)) },
      s1.heap.length)

/-! ## Cell: cycle check -/

/-- Body of the `for` loop of `Cell::VisitCell`, `visit` being the recursive
call: nothing is done once a call has returned `true` (the early `return`), and
an `incoming` cell already in `visited_cells` is skipped. -/
def visitIncoming (visit : Nat → List Nat → Option (Bool × List Nat))
    (acc : Option (Bool × List Nat)) (incoming : Nat) : Option (Bool × List Nat) :=
  match acc with
  | some (false, visited_cells) =>
    if incoming ∈ visited_cells then some (false, visited_cells)
    else visit incoming visited_cells
  | other => other

/-- Method `Cell::VisitCell`: depth-first search along `parents_` from
`current`; returns the answer and the visited set.  The first argument bounds
the recursion depth; `none` means the bound was reached. -/
def VisitCell (heap : List Cell) (referenced_cells : List (Option Nat)) :
    Nat → Nat → List Nat → Option (Bool × List Nat)
  | 0, _, _ => none
  | fuel + 1, current, visited_cells =>
    if some current ∈ referenced_cells then some (true, setInsert current visited_cells)
    else
      (parentsOf heap current).foldl (visitIncoming (VisitCell heap referenced_cells fuel))
        (some (false, setInsert current visited_cells))

/-- The loop of `Cell::IsCyclic` that resolves the referenced positions with
`sheet_.GetCell(pos)`. -/
def resolveAll (env : Env) (s : Sheet) : List Position → Run (List (Option Nat))
  | [] => .returned []
  | pos :: rest =>
    match GetCell env s pos with
    | .returned c =>
      match resolveAll env s rest with
      | .returned cs => .returned (c :: cs)
      | .threw e l => .threw e l
      | .fault f => .fault f
    | .threw e l => .threw e l
    | .fault f => .fault f

/-- Method `Cell::IsCyclic` of the object at `this`, for the candidate `impl`:
the answer computed on the objects as stored in the heap.  The objects it
reads are `searched`. -/
def IsCyclic (env : Env) (s : Sheet) (this : Nat) (impl : Impl) : Run Bool :=
  if impl.GetReferencedCells = [] then .returned false
  else
    match resolveAll env s impl.GetReferencedCells with
    | .returned referenced_cells =>
      match VisitCell s.heap referenced_cells s.heap.length this [] with
      | some (found, _) => .returned found
      | none => .fault .outOfFuel
    | .threw e l => .threw e l
    | .fault f => .fault f

/-- The objects a search `VisitCell` from `this` reads: a call inserts
`current` into `visited_cells` and then either returns at once, when `current`
is referenced, or reads `current->parents_`; so the objects read are the
visited cells that are not referenced. -/
def readBySearch (heap : List Cell) (referenced_cells : List (Option Nat)) (this : Nat) :
    List Nat :=
  match VisitCell heap referenced_cells heap.length this [] with
  | some (_, visited_cells) => visited_cells.filter (fun x => decide (some x ∉ referenced_cells))
  | none => []

/-- The objects `Cell::IsCyclic` of the object at `this` reads through
`parents_` pointers for the candidate `impl`: none when nothing is referenced
or resolving a position throws, since the search is not started then. -/
def searched (env : Env) (s : Sheet) (this : Nat) (impl : Impl) : List Nat :=
  if impl.GetReferencedCells = [] then []
  else
    match resolveAll env s impl.GetReferencedCells with
    | .returned referenced_cells => readBySearch s.heap referenced_cells this
    | _ => []

/-- Method `Cell::CreateFormulaImpl` of the object at `this`.  The cycle check
has no defined result when its search reads a destroyed object. -/
def CreateFormulaImpl (env : Env) (s : Sheet) (this : Nat) (formula : String) : Run Impl :=
  match env.ParseFormula formula with
  | none => .threw .FormulaException s
  | some formula_ =>
    if ∃ x ∈ searched env s this (.FormulaImpl formula_ none), x ∈ s.freed then
      .fault .useAfterFree
    else
    match IsCyclic env s this (.FormulaImpl formula_ none) with
    | .returned true => .threw .CircularDependencyException s
    | .returned false => .returned (.FormulaImpl formula_ none)
    | .threw e l => .threw e l
    | .fault f => .fault f

/-! ## Cell: edges and caches -/

/-- Body of the `for` loop of `Cell::InvalidateCache`, `invalidate` being the
recursive call `in_ref->InvalidateCache()`. -/
def invalidateParent (invalidate : List Cell → Nat → Option (List Cell))
    (acc : Option (List Cell)) (in_ref : Nat) : Option (List Cell) :=
  match acc with
  | some heap => invalidate heap in_ref
  | none => none

/-- Method `Cell::InvalidateCache` of the object at `this`: reset the own
cache, then recurse into every member of `parents_`.  The first argument bounds
the recursion depth; `none` means the bound was reached. -/
def InvalidateCache : Nat → List Cell → Nat → Option (List Cell)
  | 0, _, _ => none
  | fuel + 1, heap, this =>
    (parentsOf heap this).foldl (invalidateParent (InvalidateCache fuel))
      (some (modifyCell heap this (fun c => { c with impl_ := c.impl_.InvalidateCache })))

/-- Body of the `for_each` of `Cell::UpdateDependencies`:
`outgoing->parents_.erase(this)`. -/
def detach (this : Nat) (heap : List Cell) (outgoing : Nat) : List Cell :=
  modifyCell heap outgoing (fun c => { c with parents_ := setErase this c.parents_ })

/-- Body of the second loop of `Cell::UpdateDependencies`:
`childs_.insert(outgoing)` and `outgoing->parents_.insert(this)`. -/
def link (this : Nat) (heap : List Cell) (outgoing : Nat) : List Cell :=
  modifyCell
    (modifyCell heap this (fun c => { c with childs_ := setInsert outgoing c.childs_ }))
    outgoing (fun c => { c with parents_ := setInsert this c.parents_ })

/-- The second loop of `Cell::UpdateDependencies`: every referenced position
is resolved with `sheet_.GetCell(pos)` and linked. -/
def attach (env : Env) (this : Nat) : Sheet → List Position → Run Sheet
  | s, [] => .returned s
  | s, pos :: rest =>
    match GetCell env s pos with
    | .returned (some outgoing) =>
      attach env this { s with heap := link this s.heap outgoing } rest
    | .returned none => .fault .nullPointer
    | .threw e l => .threw e l
    | .fault f => .fault f

/-- The content `impl_` of the object at `id`. -/
def implOf (heap : List Cell) (id : Nat) : Impl :=
  match heap[id]? with
  | some c => c.impl_
  | none => .EmptyImpl

/-- Statement `childs_.clear()` of `Cell::UpdateDependencies`. -/
def clearChilds (heap : List Cell) (this : Nat) : List Cell :=
  modifyCell heap this (fun c => { c with childs_ := [] })

/-- The first two statements of `Cell::UpdateDependencies`: the `for_each`
over `childs_`, then `childs_.clear()`. -/
def detachAll (heap : List Cell) (this : Nat) : List Cell :=
  clearChilds ((childsOf heap this).foldl (detach this) heap) this

/-- The objects the call `InvalidateCache()` of `Cell::UpdateDependencies` is
run on: `this` and every cell reached from it along `parents_`, which are the
cells a search `VisitCell` visits when nothing is referenced. -/
def invalidated (heap : List Cell) (this : Nat) : List Nat :=
  readBySearch heap [] this

/-- Method `Cell::UpdateDependencies` of the object at `this`.  The `for_each`
writes `outgoing->parents_` of every member of `childs_`, and
`InvalidateCache()` runs on every cell reached along `parents_`: there is no
defined result when one of these objects was destroyed.  The second loop takes
`outgoing` from the grid. -/
def UpdateDependencies (env : Env) (s : Sheet) (this : Nat) : Run Sheet :=
  if ∃ outgoing ∈ childsOf s.heap this, outgoing ∈ s.freed then .fault .useAfterFree
  else
  match attach env this { s with heap := detachAll s.heap this }
      (implOf (detachAll s.heap this) this).GetReferencedCells with
  | .returned s3 =>
    if ∃ in_ref ∈ invalidated s3.heap this, in_ref ∈ s3.freed then .fault .useAfterFree
    else
    match InvalidateCache s3.heap.length s3.heap this with
    | some heap4 => .returned { s3 with heap := heap4 }
    | none => .fault .outOfFuel
  | .threw e l => .threw e l
  | .fault f => .fault f

/-! ## Cell::Set and Sheet::SetCell -/

/-- The call `sheet_.SetCell(cell, {})` of `Cell::Set`: `Sheet::SetCell` with
the empty text, for which `Cell::Set` takes its first branch. -/
def SetCellEmpty (env : Env) (s : Sheet) (pos : Position) : Run Sheet :=
  if pos.IsValid env then
    .returned (setImpl (locate s pos).1 (locate s pos).2 .EmptyImpl)
  else .threw .InvalidPositionException s

/-- The loop of `Cell::Set` over the referenced positions: a position whose
`GetCell` is null gets an empty cell. -/
def createReferenced (env : Env) : Sheet → List Position → Run Sheet
  | s, [] => .returned s
  | s, cell :: rest =>
    match GetCell env s cell with
    | .returned none =>
      match SetCellEmpty env s cell with
      | .returned s1 => createReferenced env s1 rest
      | .threw e l => .threw e l
      | .fault f => .fault f
    | .returned (some _) => createReferenced env s rest
    | .threw e l => .threw e l
    | .fault f => .fault f

/-- Method `Cell::Set` of the object at `this`. -/
def Cell.Set (env : Env) (s : Sheet) (this : Nat) (text : String) : Run Sheet :=
  if text.data = [] then .returned (setImpl s this .EmptyImpl)
  else if IsFormula text then
    match CreateFormulaImpl env s this (substr1 text) with
    | .returned impl =>
      match createReferenced env (setImpl s this impl) impl.GetReferencedCells with
      | .returned s2 => UpdateDependencies env s2 this
      | .threw e l => .threw e l
      | .fault f => .fault f
    | .threw e l => .threw e l
    | .fault f => .fault f
  else .returned (setImpl s this (.TextImpl text))

/-- Method `Sheet::SetCell`. -/
def SetCell (env : Env) (s : Sheet) (pos : Position) (text : String) : Run Sheet :=
  if pos.IsValid env then Cell.Set env (locate s pos).1 (locate s pos).2 text
  else .threw .InvalidPositionException s

/-! ## Sheet::ClearCell -/

/-- The two `while` loops of `Sheet::ClearCell`:
`while (v.size() > 0 && p(v[index])) { v.pop_back(); --index; }`.
The first argument bounds the number of iterations. -/
def popBackWhile {α : Type} (p : α → Bool) : Nat → List α → Nat → Run (List α)
  | 0, v, _ => if v.length > 0 then .fault .outOfFuel else .returned v
  | fuel + 1, v, index =>
    if v.length > 0 then
      match v[index]? with
      | none => .fault .outOfRange
      | some x => if p x then popBackWhile p fuel v.dropLast (decSizeT index) else .returned v
    else .returned v

/-- The last loop of `Sheet::ClearCell`: the largest row size. -/
def maxColSize (cells : List (List (Option Nat))) : Nat :=
  cells.foldl (fun max_col_size r => if r.length > max_col_size then r.length else max_col_size) 0

/-- The objects `pop_back()` destroyed while a row shrank from `v` to its
initial part `v1`: the non-null pointers among the removed slots. -/
def destroyed (v v1 : List (Option Nat)) : List Nat :=
  (v.drop v1.length).reduceOption

/-- Method `Sheet::ClearCell`.  The slot of `pos` is made null by `release()`,
which destroys nothing; the first loop then shortens the row with
`pop_back()`, and the objects owned by the slots it removes are destroyed.
The second loop removes empty rows only. -/
def ClearCell (env : Env) (s : Sheet) (pos : Position) : Run Sheet :=
  if pos.IsValid env then
    if IsCellExists s pos then
      match popBackWhile (fun c => c.isNone)
          (s.cells_.getD pos.row.toNat []).length
          ((s.cells_.getD pos.row.toNat []).set pos.col.toNat none) pos.col.toNat with
      | .returned row1 =>
        match popBackWhile (fun r => r.isEmpty) s.cells_.length
            (s.cells_.set pos.row.toNat row1)
            (if s.cells_.length > 0 then s.cells_.length - 1 else 0) with
        | .returned cells2 =>
          .returned { s with
            cells_ := cells2
            size_ := ⟨cells2.length, maxColSize cells2⟩
            freed := s.freed ++
              destroyed ((s.cells_.getD pos.row.toNat []).set pos.col.toNat none) row1 }
        | .threw e l => .threw e l
        | .fault f => .fault f
      | .threw e l => .threw e l
      | .fault f => .fault f
    else .returned s
  else .threw .InvalidPositionException s

/-- Method `Sheet::GetPrintableSize`. -/
def GetPrintableSize (s : Sheet) : Size := s.size_

/-! ## Printing -/

/-- The inner loop of `Sheet::PrintTexts` and `Sheet::PrintValues`: a tab
before every cell but the first, then the field of the cell. -/
def printCells (field : Nat → String) : Bool → List (Option Nat) → String
  | _, [] => ""
  | first, c :: rest =>
    (if first then "" else "\t") ++
      (match c with
        | some id => field id
        | none => "") ++ printCells field false rest

/-- The number of iterations of `for (size_t i = 1; i < (size_.cols - r.size()); ++i)`,
the subtraction being unsigned. -/
def padCount (cols : Int) (n : Nat) : Nat :=
  ((cols - (n : Int)) % (2 ^ 64 : Int)).toNat - 1

/-- One iteration of the outer loop of the two print methods. -/
def printRow (field : Nat → String) (cols : Int) (r : List (Option Nat)) : String :=
  printCells field true r ++ String.mk (List.replicate (padCount cols r.length) (Char.ofNat 9))
    ++ "\n"

/-- Method `Sheet::PrintTexts`: everything written to `output`. -/
def PrintTexts (s : Sheet) : String :=
  (s.cells_.map (printRow (fun id => (Cell.GetText s id).getD "") s.size_.cols)).foldl
    (fun out line => out ++ line) ""

/-! ## Reachable states -/

/-- States a client can reach from `CreateSheet()` with `SetCell` (returning
or throwing), `ClearCell` and reads of cell values. -/
inductive Reachable (env : Env) : Sheet → Prop where
  | init : Reachable env Sheet.empty
  | set {s s1 : Sheet} (pos : Position) (text : String) :
      Reachable env s → (SetCell env s pos text).state? = some s1 → Reachable env s1
  | clear {s s1 : Sheet} (pos : Position) :
      Reachable env s → (ClearCell env s pos).state? = some s1 → Reachable env s1
  | read {s : Sheet} (this : Nat) (evaluated : FormulaValue) :
      Reachable env s → Reachable env (Cell.GetValue s this evaluated).2

/-- States a client can reach from `CreateSheet()` with `SetCell` (returning
or throwing) and reads of cell values, without `ClearCell`. -/
inductive ReachableBySet (env : Env) : Sheet → Prop where
  | init : ReachableBySet env Sheet.empty
  | set {s s1 : Sheet} (pos : Position) (text : String) :
      ReachableBySet env s → (SetCell env s pos text).state? = some s1 → ReachableBySet env s1
  | read {s : Sheet} (this : Nat) (evaluated : FormulaValue) :
      ReachableBySet env s → ReachableBySet env (Cell.GetValue s this evaluated).2

/-! ## The cycle check: what a negative answer means -/

/-- What the search has established when it answers `false` having grown the
visited set from `before` to `after`: nothing was lost, and every newly
visited cell is not referenced and has all its parents visited. -/
def SearchedClean (heap : List Cell) (referenced_cells : List (Option Nat))
    (before after : List Nat) : Prop :=
  (∀ x, x ∈ before → x ∈ after) ∧
    ∀ x, x ∈ after → x ∉ before →
      some x ∉ referenced_cells ∧ ∀ y, y ∈ parentsOf heap x → y ∈ after

/-! ## The dependency graph -/

/-- Edge `a → b` of the stored graph: `b` is in `a.childs_`. -/
def childEdge (heap : List Cell) (a b : Nat) : Prop := b ∈ childsOf heap a

/-- Edge along `parents_`: `b` is in `a.parents_`. -/
def parentEdge (heap : List Cell) (a b : Nat) : Prop := b ∈ parentsOf heap a

/-- The two edge sets mirror each other. -/
def Mirror (heap : List Cell) : Prop :=
  ∀ a b, b ∈ childsOf heap a ↔ a ∈ parentsOf heap b

/-- No non-empty chain of `childs_` edges leads from a cell back to itself. -/
def Acyclic (heap : List Cell) : Prop :=
  ∀ a, ¬ Relation.TransGen (childEdge heap) a a

/-- Every pointer stored in the grid is the address of an allocated cell. -/
def GridValid (s : Sheet) : Prop :=
  ∀ r c id, slot s.cells_ r c = some id → id < s.heap.length

/-- The invariant of the reachable states used below. -/
structure Inv (s : Sheet) : Prop where
  mirror : Mirror s.heap
  acyclic : Acyclic s.heap
  grid : GridValid s

/-! ## Cache invalidation touches caches only -/

/-- From `heap` to `heap1` nothing changed but caches, which may have been
reset. -/
def CacheOnly (heap heap1 : List Cell) : Prop :=
  heap1.length = heap.length ∧
    ∀ x, childsOf heap1 x = childsOf heap x ∧ parentsOf heap1 x = parentsOf heap x ∧
      (implOf heap1 x = implOf heap x ∨ implOf heap1 x = (implOf heap x).InvalidateCache)

/-! ## The grid: resizing and locating a cell -/

/-- The outer vector after the first `if` of `ResizeTable`. -/
def grownRows (s : Sheet) (pos : Position) : List (List (Option Nat)) :=
  if pos.row ≥ (s.cells_.length : Int) then resize s.cells_ (pos.row + 1).toNat [] else s.cells_

/-! ## The shape of the grid without `ClearCell` -/

/-- The size of `cells[r]`, zero outside the outer vector. -/
def rowLen (cells : List (List (Option Nat))) (r : Nat) : Nat :=
  (cells.getD r []).length

/-- The shape of a grid that was never cleared: every non-empty row ends with
a present cell, the last row is not empty, the recorded size is the number of
rows and the largest row size, and every row lies inside the coordinate
space. -/
structure Trim (env : Env) (s : Sheet) : Prop where
  rowEnd : ∀ r, rowLen s.cells_ r = 0 ∨
    ∃ id, slot s.cells_ r (rowLen s.cells_ r - 1) = some id
  lastRow : s.cells_.length = 0 ∨ rowLen s.cells_ (s.cells_.length - 1) ≠ 0
  rows : s.size_.rows = s.cells_.length
  colsBound : ∀ r, (rowLen s.cells_ r : Int) ≤ s.size_.cols
  colsAttained : s.size_.cols = 0 ∨ ∃ r, (rowLen s.cells_ r : Int) = s.size_.cols
  inside : ∀ r, rowLen s.cells_ r ≠ 0 →
    (r : Int) < env.MAX_ROWS ∧ (rowLen s.cells_ r : Int) ≤ env.MAX_COLS

/-! ## Clearing the last cell of a row -/

/-- The size `sz` is the exact bounding box of the present cells of `s`: one
more than the largest row index and one more than the largest column index
over the positions holding a cell, and zero where no cell is present. -/
def IsBoundingBox (s : Sheet) (sz : Size) : Prop :=
  (∀ q id, cellAt s q = some id → q.row < sz.rows ∧ q.col < sz.cols) ∧
    (sz.rows = 0 ∨ ∃ q id, cellAt s q = some id ∧ q.row + 1 = sz.rows) ∧
    (sz.cols = 0 ∨ ∃ q id, cellAt s q = some id ∧ q.col + 1 = sz.cols)

/-! ## The recursion bounds are never reached -/

/-- The number of addresses below `n` that are not in `vis`. -/
def unvisited (n : Nat) (vis : List Nat) : Nat :=
  ((Finset.range n).filter (fun x => x ∉ vis)).card

/-- The cells that read `x` directly or through other cells: what is reached
from `x` by one or more `parents_` edges. -/
def dependents (heap : List Cell) (x : Nat) : Set Nat :=
  { y | Relation.TransGen (parentEdge heap) x y }

/-! ## Examples -/

/-- A stand-in for the external parser on the formulas of the examples: the
cell references `A1`, `B1`, `B5` and the sum `A1+1`; every other text is a
parse error. -/
def sampleParse (text : String) : Option FormulaInterface :=
  if text = "A1" then some ⟨"A1", [⟨0, 0⟩]⟩
  else if text = "B1" then some ⟨"B1", [⟨0, 1⟩]⟩
  else if text = "B5" then some ⟨"B5", [⟨4, 1⟩]⟩
  else if text = "A1+1" then some ⟨"A1+1", [⟨0, 0⟩]⟩
  else none

/-- The environment of the examples. -/
def sampleEnv : Env := ⟨16384, 16384, sampleParse⟩

/-- Position `A1`: row 0, column 0. -/
def A1 : Position := ⟨0, 0⟩

/-- Position `B1`: row 0, column 1. -/
def B1 : Position := ⟨0, 1⟩

/-- Position `C1`: row 0, column 2. -/
def C1 : Position := ⟨0, 2⟩

/-- Position `B2`: row 1, column 1. -/
def B2 : Position := ⟨1, 1⟩

/-- Position `B5`: row 4, column 1. -/
def B5 : Position := ⟨4, 1⟩

/-- The sheet after `SetCell(A1, "=B1")` on the empty sheet. -/
def sheetA1readsB1 : Sheet :=
  ⟨[⟨.FormulaImpl ⟨"B1", [B1]⟩ none, [1], []⟩, ⟨.EmptyImpl, [], [0]⟩], [[some 0, some 1]], ⟨1, 2⟩, []⟩

/-- The sheet `sheetA1readsB1` after `ClearCell(B1)`. -/
def sheetB1cleared : Sheet :=
  ⟨[⟨.FormulaImpl ⟨"B1", [B1]⟩ none, [1], []⟩, ⟨.EmptyImpl, [], [0]⟩], [[some 0]], ⟨1, 1⟩, []⟩

/-- The sheet `sheetB1cleared` after `SetCell(B1, "=A1")`: `A1` reads `B1` and
`B1` reads `A1`. -/
def sheetCycle : Sheet :=
  ⟨[⟨.FormulaImpl ⟨"B1", [B1]⟩ none, [1], [2]⟩, ⟨.EmptyImpl, [], [0]⟩,
      ⟨.FormulaImpl ⟨"A1", [A1]⟩ none, [0], []⟩], [[some 0, some 2]], ⟨1, 2⟩, []⟩

/-- The sheet after `SetCell(A1, "1")` and `SetCell(B1, "=A1+1")`. -/
def sheetChain : Sheet :=
  ⟨[⟨.TextImpl "1", [], [1]⟩, ⟨.FormulaImpl ⟨"A1+1", [A1]⟩ none, [0], []⟩],
    [[some 0, some 1]], ⟨1, 2⟩, []⟩

/-- The sheet `sheetChain` after `B1` was read and cached the value 2. -/
def sheetChainRead : Sheet :=
  ⟨[⟨.TextImpl "1", [], [1]⟩, ⟨.FormulaImpl ⟨"A1+1", [A1]⟩ (some (.number 2)), [0], []⟩],
    [[some 0, some 1]], ⟨1, 2⟩, []⟩

/-- The sheet `sheetChainRead` after `SetCell(A1, "2")`. -/
def sheetChainEdited : Sheet :=
  ⟨[⟨.TextImpl "2", [], [1]⟩, ⟨.FormulaImpl ⟨"A1+1", [A1]⟩ (some (.number 2)), [0], []⟩],
    [[some 0, some 1]], ⟨1, 2⟩, []⟩

/-- The sheet after `SetCell(A1, "a")`. -/
def sheetA : Sheet := ⟨[⟨.TextImpl "a", [], []⟩], [[some 0]], ⟨1, 1⟩, []⟩

/-- The sheet after `SetCell(A1, "a")` and `SetCell(B1, "b")`. -/
def sheetAB : Sheet :=
  ⟨[⟨.TextImpl "a", [], []⟩, ⟨.TextImpl "b", [], []⟩], [[some 0, some 1]], ⟨1, 2⟩, []⟩

/-- The sheet after `SetCell(A1, "a")`, `SetCell(B1, "b")` and
`SetCell(C1, "c")`. -/
def sheetABC : Sheet :=
  ⟨[⟨.TextImpl "a", [], []⟩, ⟨.TextImpl "b", [], []⟩, ⟨.TextImpl "c", [], []⟩],
    [[some 0, some 1, some 2]], ⟨1, 3⟩, []⟩

/-- The sheet `sheetABC` after `ClearCell(B1)`: the slot of `C1` was removed
and its object, address 2, destroyed. -/
def sheetABCcleared : Sheet :=
  ⟨[⟨.TextImpl "a", [], []⟩, ⟨.TextImpl "b", [], []⟩, ⟨.TextImpl "c", [], []⟩],
    [[some 0, none]], ⟨1, 2⟩, [2]⟩

/-- The sheet after `SetCell(A1, "x")` and `SetCell(B2, "=A1")`. -/
def sheetPrint : Sheet :=
  ⟨[⟨.TextImpl "x", [], [1]⟩, ⟨.FormulaImpl ⟨"A1", [A1]⟩ none, [0], []⟩],
    [[some 0], [none, some 1]], ⟨2, 2⟩, []⟩

/-- The sheet after `SetCell(A1, "=B5")` on the empty sheet. -/
def sheetA1readsB5 : Sheet :=
  ⟨[⟨.FormulaImpl ⟨"B5", [B5]⟩ none, [1], []⟩, ⟨.EmptyImpl, [], [0]⟩],
    [[some 0], [], [], [], [none, some 1]], ⟨5, 2⟩, []⟩

/-- The text of the round-trip example: the escape sign followed by `123`. -/
def escaped123 : String := String.mk [ESCAPE_SIGN, '1', '2', '3']

/-! ## Examples for the edge and safety claims -/

/-- The sheet after `SetCell(A1, "=B1")` and `SetCell(A1, "x")`: the content of
`A1` is the text `x`, its `childs_` still holds the cell of `B1`. -/
def sheetStale : Sheet :=
  ⟨[⟨.TextImpl "x", [1], []⟩, ⟨.EmptyImpl, [], [0]⟩], [[some 0, some 1]], ⟨1, 2⟩, []⟩

/-- A position outside the coordinate space: row -1. -/
def outside : Position := ⟨-1, 0⟩

/-! ## Examples with a destroyed cell -/

/-- The sheet `sheetA1readsB1` after `SetCell(A1, "=B5")`: `A1` reads `B5` and
no longer reads `B1`. -/
def sheetA1rereadsB5 : Sheet :=
  ⟨[⟨.FormulaImpl ⟨"B5", [B5]⟩ none, [2], []⟩, ⟨.EmptyImpl, [], []⟩, ⟨.EmptyImpl, [], [0]⟩],
    [[some 0, some 1], [], [], [], [none, some 2]], ⟨5, 2⟩, []⟩

/-- The sheet after `SetCell(C1, "=A1")` on the empty sheet: the object of `C1`
has address 0, the object of `A1` address 1. -/
def sheetC1readsA1 : Sheet :=
  ⟨[⟨.FormulaImpl ⟨"A1", [A1]⟩ none, [1], []⟩, ⟨.EmptyImpl, [], [0]⟩],
    [[some 1, none, some 0]], ⟨1, 3⟩, []⟩

/-- The sheet `sheetC1readsA1` after `SetCell(B1, "b")`. -/
def sheetC1readsA1withB1 : Sheet :=
  ⟨[⟨.FormulaImpl ⟨"A1", [A1]⟩ none, [1], []⟩, ⟨.EmptyImpl, [], [0]⟩, ⟨.TextImpl "b", [], []⟩],
    [[some 1, some 2, some 0]], ⟨1, 3⟩, []⟩

/-- The sheet `sheetC1readsA1withB1` after `ClearCell(B1)`: the loop removed the
slot of `C1` and so destroyed the object at address 0, which the `parents_` of
the cell of `A1` still holds. -/
def sheetDangling : Sheet :=
  ⟨[⟨.FormulaImpl ⟨"A1", [A1]⟩ none, [1], []⟩, ⟨.EmptyImpl, [], [0]⟩, ⟨.TextImpl "b", [], []⟩],
    [[some 1, none]], ⟨1, 2⟩, [0]⟩

/-- A stand-in for the external parser on the formulas of the examples with a
destroyed cell: the references `A1`, `B1`, `C1` and the constant `1`, which
references nothing; every other text is a parse error. -/
def sampleParseRow (text : String) : Option FormulaInterface :=
  if text = "A1" then some ⟨"A1", [⟨0, 0⟩]⟩
  else if text = "B1" then some ⟨"B1", [⟨0, 1⟩]⟩
  else if text = "C1" then some ⟨"C1", [⟨0, 2⟩]⟩
  else if text = "1" then some ⟨"1", []⟩
  else none

/-- The environment of the examples with a destroyed cell. -/
def sampleEnvRow : Env := ⟨16384, 16384, sampleParseRow⟩

/-- The sheet after `SetCell(A1, "=C1")` on the empty sheet. -/
def sheetA1readsC1 : Sheet :=
  ⟨[⟨.FormulaImpl ⟨"C1", [C1]⟩ none, [1], []⟩, ⟨.EmptyImpl, [], [0]⟩],
    [[some 0, none, some 1]], ⟨1, 3⟩, []⟩

/-- The sheet `sheetA1readsC1` after `SetCell(B1, "b")`. -/
def sheetA1readsC1withB1 : Sheet :=
  ⟨[⟨.FormulaImpl ⟨"C1", [C1]⟩ none, [1], []⟩, ⟨.EmptyImpl, [], [0]⟩, ⟨.TextImpl "b", [], []⟩],
    [[some 0, some 2, some 1]], ⟨1, 3⟩, []⟩

/-- The sheet `sheetA1readsC1withB1` after `ClearCell(B1)`: the object of `C1`,
address 1, was destroyed, and the `childs_` of the cell of `A1` still holds
it. -/
def sheetChildDestroyed : Sheet :=
  ⟨[⟨.FormulaImpl ⟨"C1", [C1]⟩ none, [1], []⟩, ⟨.EmptyImpl, [], [0]⟩, ⟨.TextImpl "b", [], []⟩],
    [[some 0, none]], ⟨1, 2⟩, [1]⟩

/-- Every pointer in a `parents_` set is the address of an allocated cell. -/
def ParentsValid (heap : List Cell) : Prop :=
  ∀ a b, b ∈ parentsOf heap a → b < heap.length

/-- The member `cache_` of a `FormulaImpl`; the other contents have no cache. -/
def Impl.cached : Impl → Option FormulaValue
  | .FormulaImpl _ cache_ => cache_
  | _ => none

/-- From `h` to `h1` the caches of the cells satisfying `P` were reset, and the
content of every other cell is untouched. -/
def ResetOn (P : Nat → Prop) (h h1 : List Cell) : Prop :=
  ∀ x, (P x → implOf h1 x = (implOf h x).InvalidateCache) ∧ (¬ P x → implOf h1 x = implOf h x)

/-! ## Ownership -/

/-- The grid owns the objects it points to: no pointer stored in the grid is
the address of a destroyed object, no address is stored in two slots, and only
allocated objects were destroyed. -/
structure Owned (s : Sheet) : Prop where
  live : ∀ r c id, slot s.cells_ r c = some id → id ∉ s.freed
  single : ∀ r c r1 c1 id, slot s.cells_ r c = some id → slot s.cells_ r1 c1 = some id →
    r = r1 ∧ c = c1
  allocated : ∀ id, id ∈ s.freed → id < s.heap.length

/-! ## Containers: basic facts -/

theorem mem_setInsert {x y : Nat} {l : List Nat} : y ∈ setInsert x l ↔ y = x ∨ y ∈ l := by
  unfold setInsert
  by_cases h : x ∈ l
  · simp only [h, if_true]
    constructor
    · intro hy; exact Or.inr hy
    · rintro (rfl | hy)
      · exact h
      · exact hy
  · simp only [h, if_false, List.mem_append, List.mem_singleton]
    tauto

theorem mem_setErase {x y : Nat} {l : List Nat} : y ∈ setErase x l ↔ y ∈ l ∧ y ≠ x := by
  unfold setErase
  simp [List.mem_filter]

theorem modifyCell_length (heap : List Cell) (id : Nat) (f : Cell → Cell) :
    (modifyCell heap id f).length = heap.length := by
  unfold modifyCell
  split <;> simp

theorem modifyCell_getElem? (heap : List Cell) (id : Nat) (f : Cell → Cell) (j : Nat) :
    (modifyCell heap id f)[j]? = if j = id then heap[j]?.map f else heap[j]? := by
  unfold modifyCell
  split
  · next c hc =>
    by_cases hj : j = id
    · subst hj
      have hlt : j < heap.length := by
        by_contra hge
        rw [List.getElem?_eq_none (by omega)] at hc
        cases hc
      simp [hc, List.getElem?_set_self, hlt]
    · simp [hj, List.getElem?_set_ne (Ne.symm hj)]
  · next hc =>
    by_cases hj : j = id
    · subst hj
      simp [hc]
    · simp [hj]

theorem childsOf_modifyCell (heap : List Cell) (id : Nat) (f : Cell → Cell)
    (hf : ∀ c, (f c).childs_ = c.childs_) (j : Nat) :
    childsOf (modifyCell heap id f) j = childsOf heap j := by
  unfold childsOf
  rw [modifyCell_getElem?]
  by_cases hj : j = id
  · simp only [hj, if_true]
    cases heap[id]? <;> simp [hf]
  · simp [hj]

theorem parentsOf_modifyCell (heap : List Cell) (id : Nat) (f : Cell → Cell)
    (hf : ∀ c, (f c).parents_ = c.parents_) (j : Nat) :
    parentsOf (modifyCell heap id f) j = parentsOf heap j := by
  unfold parentsOf
  rw [modifyCell_getElem?]
  by_cases hj : j = id
  · simp only [hj, if_true]
    cases heap[id]? <;> simp [hf]
  · simp [hj]

theorem implOf_modifyCell (heap : List Cell) (id : Nat) (f : Cell → Cell)
    (hf : ∀ c, (f c).impl_ = c.impl_) (j : Nat) :
    implOf (modifyCell heap id f) j = implOf heap j := by
  unfold implOf
  rw [modifyCell_getElem?]
  by_cases hj : j = id
  · simp only [hj, if_true]
    cases heap[id]? <;> simp [hf]
  · simp [hj]

theorem implOf_modifyCell_ne (heap : List Cell) (id : Nat) (f : Cell → Cell) (j : Nat)
    (hj : j ≠ id) : implOf (modifyCell heap id f) j = implOf heap j := by
  unfold implOf
  rw [modifyCell_getElem?]
  simp [hj]

theorem implOf_modifyCell_self (heap : List Cell) (id : Nat) (g : Impl → Impl)
    (hid : id < heap.length) :
    implOf (modifyCell heap id (fun c => { c with impl_ := g c.impl_ })) id
      = g (implOf heap id) := by
  unfold implOf
  rw [modifyCell_getElem?]
  simp [List.getElem?_eq_getElem hid]

theorem parentsOf_modifyCell_parents (heap : List Cell) (id : Nat) (g : List Nat → List Nat)
    (hg : id < heap.length ∨ g [] = []) (j : Nat) :
    parentsOf (modifyCell heap id (fun c => { c with parents_ := g c.parents_ })) j
      = if j = id then g (parentsOf heap j) else parentsOf heap j := by
  unfold parentsOf
  rw [modifyCell_getElem?]
  by_cases hj : j = id
  · subst hj
    simp only [if_true]
    cases h : heap[j]? with
    | some c => simp
    | none =>
      rcases hg with hlt | hg
      · rw [List.getElem?_eq_getElem hlt] at h
        cases h
      · simp [hg]
  · simp [hj]

theorem childsOf_modifyCell_childs (heap : List Cell) (id : Nat) (g : List Nat → List Nat)
    (hg : id < heap.length ∨ g [] = []) (j : Nat) :
    childsOf (modifyCell heap id (fun c => { c with childs_ := g c.childs_ })) j
      = if j = id then g (childsOf heap j) else childsOf heap j := by
  unfold childsOf
  rw [modifyCell_getElem?]
  by_cases hj : j = id
  · subst hj
    simp only [if_true]
    cases h : heap[j]? with
    | some c => simp
    | none =>
      rcases hg with hlt | hg
      · rw [List.getElem?_eq_getElem hlt] at h
        cases h
      · simp [hg]
  · simp [hj]

theorem childsOf_append_blank (heap : List Cell) (j : Nat) :
    childsOf (heap ++ [Cell.blank]) j = childsOf heap j := by
  unfold childsOf
  rcases Nat.lt_trichotomy j heap.length with h | h | h
  · rw [List.getElem?_append_left h]
  · subst h
    simp [Cell.blank]
  · rw [List.getElem?_eq_none (by simp; omega), List.getElem?_eq_none (by omega)]

theorem parentsOf_append_blank (heap : List Cell) (j : Nat) :
    parentsOf (heap ++ [Cell.blank]) j = parentsOf heap j := by
  unfold parentsOf
  rcases Nat.lt_trichotomy j heap.length with h | h | h
  · rw [List.getElem?_append_left h]
  · subst h
    simp [Cell.blank]
  · rw [List.getElem?_eq_none (by simp; omega), List.getElem?_eq_none (by omega)]

theorem implOf_append_blank (heap : List Cell) (j : Nat) :
    implOf (heap ++ [Cell.blank]) j = implOf heap j := by
  unfold implOf
  rcases Nat.lt_trichotomy j heap.length with h | h | h
  · rw [List.getElem?_append_left h]
  · subst h
    simp [Cell.blank]
  · rw [List.getElem?_eq_none (by simp; omega), List.getElem?_eq_none (by omega)]

theorem lt_of_mem_parentsOf {heap : List Cell} {a b : Nat} (h : a ∈ parentsOf heap b) :
    b < heap.length := by
  unfold parentsOf at h
  by_contra hge
  rw [List.getElem?_eq_none (by omega)] at h
  simp at h

theorem lt_of_mem_childsOf {heap : List Cell} {a b : Nat} (h : b ∈ childsOf heap a) :
    a < heap.length := by
  unfold childsOf at h
  by_contra hge
  rw [List.getElem?_eq_none (by omega)] at h
  simp at h

/-! ## The cycle check: what a negative answer means -/

theorem SearchedClean.chain {heap : List Cell} {R : List (Option Nat)} {u v w : List Nat}
    (h1 : SearchedClean heap R u v) (h2 : SearchedClean heap R v w) :
    SearchedClean heap R u w := by
  refine ⟨fun x hx => h2.1 x (h1.1 x hx), ?_⟩
  intro x hxw hxu
  by_cases hxv : x ∈ v
  · obtain ⟨hr, hp⟩ := h1.2 x hxv hxu
    exact ⟨hr, fun y hy => h2.1 y (hp y hy)⟩
  · exact h2.2 x hxw hxv

theorem foldl_visitIncoming_none (visit : Nat → List Nat → Option (Bool × List Nat))
    (l : List Nat) : l.foldl (visitIncoming visit) none = none := by
  induction l with
  | nil => rfl
  | cons y l ih => simpa [List.foldl_cons, visitIncoming] using ih

theorem foldl_visitIncoming_true (visit : Nat → List Nat → Option (Bool × List Nat))
    (l : List Nat) (w : List Nat) :
    l.foldl (visitIncoming visit) (some (true, w)) = some (true, w) := by
  induction l with
  | nil => rfl
  | cons y l ih => simpa [List.foldl_cons, visitIncoming] using ih

theorem foldl_visitIncoming_clean {heap : List Cell} {R : List (Option Nat)}
    (visit : Nat → List Nat → Option (Bool × List Nat))
    (hvisit : ∀ cur vis vis1, visit cur vis = some (false, vis1) →
      cur ∈ vis1 ∧ SearchedClean heap R vis vis1)
    (l : List Nat) :
    ∀ v v1, l.foldl (visitIncoming visit) (some (false, v)) = some (false, v1) →
      (∀ y, y ∈ l → y ∈ v1) ∧ SearchedClean heap R v v1 := by
  induction l with
  | nil =>
    intro v v1 h
    simp only [List.foldl_nil, Option.some.injEq, Prod.mk.injEq, true_and] at h
    subst h
    exact ⟨fun y hy => (by cases hy), ⟨fun x hx => hx, fun x hx hn => absurd hx hn⟩⟩
  | cons y l ih =>
    intro v v1 h
    rw [List.foldl_cons] at h
    by_cases hy : y ∈ v
    · have hstep : visitIncoming visit (some (false, v)) y = some (false, v) := by
        simp [visitIncoming, hy]
      rw [hstep] at h
      obtain ⟨hl, hc⟩ := ih v v1 h
      refine ⟨?_, hc⟩
      intro z hz
      rcases List.mem_cons.mp hz with rfl | hz
      · exact hc.1 _ hy
      · exact hl z hz
    · have hstep : visitIncoming visit (some (false, v)) y = visit y v := by
        simp [visitIncoming, hy]
      rw [hstep] at h
      cases hr : visit y v with
      | none =>
        rw [hr, foldl_visitIncoming_none] at h
        cases h
      | some r =>
        obtain ⟨b, v2⟩ := r
        cases b with
        | true =>
          rw [hr, foldl_visitIncoming_true] at h
          cases h
        | false =>
          rw [hr] at h
          obtain ⟨hyv2, hc1⟩ := hvisit y v v2 hr
          obtain ⟨hl, hc2⟩ := ih v2 v1 h
          refine ⟨?_, hc1.chain hc2⟩
          intro z hz
          rcases List.mem_cons.mp hz with rfl | hz
          · exact hc2.1 _ hyv2
          · exact hl z hz

theorem VisitCell_clean (heap : List Cell) (R : List (Option Nat)) :
    ∀ fuel cur vis vis1, VisitCell heap R fuel cur vis = some (false, vis1) →
      cur ∈ vis1 ∧ SearchedClean heap R vis vis1 := by
  intro fuel
  induction fuel with
  | zero =>
    intro cur vis vis1 h
    simp [VisitCell] at h
  | succ fuel ih =>
    intro cur vis vis1 h
    rw [VisitCell] at h
    by_cases hc : some cur ∈ R
    · simp [hc] at h
    · simp only [hc, if_false] at h
      obtain ⟨hl, hcl⟩ := foldl_visitIncoming_clean (VisitCell heap R fuel) ih _ _ _ h
      have hcur : cur ∈ vis1 := hcl.1 _ (mem_setInsert.mpr (Or.inl rfl))
      refine ⟨hcur, fun x hx => hcl.1 _ (mem_setInsert.mpr (Or.inr hx)), ?_⟩
      intro x hx hnx
      by_cases hxc : x = cur
      · subst hxc
        exact ⟨hc, hl⟩
      · exact hcl.2 x hx (fun hmem => by
          rcases mem_setInsert.mp hmem with h1 | h1
          · exact hxc h1
          · exact hnx h1)

/-- A negative answer of the search from `this` with an empty visited set: no
cell that can be reached from `this` along `parents_` is referenced. -/
theorem VisitCell_false_sound {heap : List Cell} {R : List (Option Nat)} {fuel this : Nat}
    {vis1 : List Nat} (h : VisitCell heap R fuel this [] = some (false, vis1)) (x : Nat)
    (hx : Relation.ReflTransGen (fun a b => b ∈ parentsOf heap a) this x) :
    some x ∉ R := by
  obtain ⟨hthis, hcl⟩ := VisitCell_clean heap R fuel this [] vis1 h
  have hmem : x ∈ vis1 := by
    induction hx with
    | refl => exact hthis
    | tail _ hbc ih => exact (hcl.2 _ ih (by simp)).2 _ hbc
  exact (hcl.2 x hmem (by simp)).1

/-! ## The dependency graph -/

theorem reach_parents_of_reach_childs {heap : List Cell} (hm : Mirror heap) {a b : Nat}
    (h : Relation.ReflTransGen (childEdge heap) a b) :
    Relation.ReflTransGen (parentEdge heap) b a := by
  induction h with
  | refl => exact Relation.ReflTransGen.refl
  | tail _ hbc ih => exact Relation.ReflTransGen.head ((hm _ _).mp hbc) ih

theorem reach_to_this_of_rewired {E E1 : Nat → Nat → Prop} {this : Nat}
    (hE1 : ∀ a b, E1 a b → a ≠ this → E a b) {x : Nat}
    (h : Relation.ReflTransGen E1 x this) : Relation.ReflTransGen E x this := by
  induction h using Relation.ReflTransGen.head_induction_on with
  | refl => exact Relation.ReflTransGen.refl
  | @head a b hab _ ih =>
    by_cases ha : a = this
    · subst ha
      exact Relation.ReflTransGen.refl
    · exact Relation.ReflTransGen.head (hE1 _ _ hab ha) ih

theorem through_this_of_rewired {E E1 : Nat → Nat → Prop} {this : Nat}
    (hE1 : ∀ a b, E1 a b → a ≠ this → E a b) {a b : Nat}
    (h : Relation.TransGen E1 a b) :
    Relation.TransGen E a b ∨
      (Relation.ReflTransGen E1 a this ∧ Relation.TransGen E1 this b) := by
  induction h with
  | single hab =>
    rename_i b
    by_cases ha : a = this
    · subst ha
      exact Or.inr ⟨Relation.ReflTransGen.refl, Relation.TransGen.single hab⟩
    · exact Or.inl (Relation.TransGen.single (hE1 _ _ hab ha))
  | tail hab hbc ih =>
    rename_i b c
    rcases ih with ih | ⟨h1, h2⟩
    · by_cases hb : b = this
      · subst hb
        exact Or.inr ⟨hab.to_reflTransGen, Relation.TransGen.single hbc⟩
      · exact Or.inl (Relation.TransGen.tail ih (hE1 _ _ hbc hb))
    · exact Or.inr ⟨h1, Relation.TransGen.tail h2 hbc⟩

/-- Replacing the outgoing edges of `this` by edges to cells that do not reach
`this` keeps an acyclic graph acyclic. -/
theorem acyclic_of_rewired {E E1 : Nat → Nat → Prop} {this : Nat}
    (hE1 : ∀ a b, E1 a b → a ≠ this → E a b)
    (hacyclic : ∀ a, ¬ Relation.TransGen E a a)
    (hnew : ∀ c, E1 this c → ¬ Relation.ReflTransGen E c this) :
    ∀ a, ¬ Relation.TransGen E1 a a := by
  have hthis : ¬ Relation.TransGen E1 this this := by
    intro h
    obtain ⟨c, hc, hrest⟩ := Relation.TransGen.head'_iff.mp h
    exact hnew c hc (reach_to_this_of_rewired hE1 hrest)
  intro a h
  rcases through_this_of_rewired hE1 h with h1 | ⟨h1, h2⟩
  · exact hacyclic a h1
  · exact hthis (Relation.TransGen.trans_left h2 h1)

/-! ## Cache invalidation touches caches only -/

theorem Impl.InvalidateCache_idem (i : Impl) :
    i.InvalidateCache.InvalidateCache = i.InvalidateCache := by
  cases i <;> rfl

theorem CacheOnly.refl (heap : List Cell) : CacheOnly heap heap :=
  ⟨rfl, fun _ => ⟨rfl, rfl, Or.inl rfl⟩⟩

theorem CacheOnly.andThen {h0 h1 h2 : List Cell} (a : CacheOnly h0 h1) (b : CacheOnly h1 h2) :
    CacheOnly h0 h2 := by
  refine ⟨b.1.trans a.1, fun x => ?_⟩
  obtain ⟨a1, a2, a3⟩ := a.2 x
  obtain ⟨b1, b2, b3⟩ := b.2 x
  refine ⟨b1.trans a1, b2.trans a2, ?_⟩
  rcases a3 with a3 | a3 <;> rcases b3 with b3 | b3
  · exact Or.inl (b3.trans a3)
  · exact Or.inr (by rw [b3, a3])
  · exact Or.inr (b3.trans a3)
  · exact Or.inr (by rw [b3, a3, Impl.InvalidateCache_idem])

theorem CacheOnly_reset (heap : List Cell) (this : Nat) :
    CacheOnly heap (modifyCell heap this (fun c => { c with impl_ := c.impl_.InvalidateCache })) := by
  refine ⟨modifyCell_length _ _ _, fun x => ⟨?_, ?_, ?_⟩⟩
  · apply childsOf_modifyCell
    intro _
    rfl
  · apply parentsOf_modifyCell
    intro _
    rfl
  · by_cases hx : x = this
    · subst hx
      by_cases hlt : x < heap.length
      · exact Or.inr (implOf_modifyCell_self heap x Impl.InvalidateCache hlt)
      · left
        unfold modifyCell
        rw [List.getElem?_eq_none (by omega)]
    · exact Or.inl (implOf_modifyCell_ne _ _ _ _ hx)

theorem foldl_invalidateParent_none (invalidate : List Cell → Nat → Option (List Cell))
    (l : List Nat) : l.foldl (invalidateParent invalidate) none = none := by
  induction l with
  | nil => rfl
  | cons y l ih => simpa [List.foldl_cons, invalidateParent] using ih

theorem foldl_invalidateParent_cacheOnly (invalidate : List Cell → Nat → Option (List Cell))
    (hinv : ∀ h x h1, invalidate h x = some h1 → CacheOnly h h1) (l : List Nat) :
    ∀ h h1, l.foldl (invalidateParent invalidate) (some h) = some h1 → CacheOnly h h1 := by
  induction l with
  | nil =>
    intro h h1 e
    simp only [List.foldl_nil, Option.some.injEq] at e
    subst e
    exact CacheOnly.refl h
  | cons y l ih =>
    intro h h1 e
    rw [List.foldl_cons] at e
    have hstep : invalidateParent invalidate (some h) y = invalidate h y := rfl
    rw [hstep] at e
    cases hr : invalidate h y with
    | none =>
      rw [hr, foldl_invalidateParent_none] at e
      cases e
    | some h2 =>
      rw [hr] at e
      exact (hinv h y h2 hr).andThen (ih h2 h1 e)

theorem InvalidateCache_cacheOnly :
    ∀ fuel heap this heap1, InvalidateCache fuel heap this = some heap1 → CacheOnly heap heap1 := by
  intro fuel
  induction fuel with
  | zero =>
    intro heap this heap1 h
    simp [InvalidateCache] at h
  | succ fuel ih =>
    intro heap this heap1 h
    rw [InvalidateCache] at h
    exact (CacheOnly_reset heap this).andThen
      (foldl_invalidateParent_cacheOnly (InvalidateCache fuel) ih _ _ _ h)

/-! ## Rewiring the edges -/

theorem foldl_detach_spec (this : Nat) (l : List Nat) :
    ∀ heap, (l.foldl (detach this) heap).length = heap.length ∧
      (∀ x, childsOf (l.foldl (detach this) heap) x = childsOf heap x) ∧
      (∀ x, implOf (l.foldl (detach this) heap) x = implOf heap x) ∧
      (∀ a x, a ∈ parentsOf (l.foldl (detach this) heap) x ↔
        a ∈ parentsOf heap x ∧ (x ∈ l → a ≠ this)) := by
  induction l with
  | nil =>
    intro heap
    simp
  | cons o l ih =>
    intro heap
    rw [List.foldl_cons]
    obtain ⟨h1, h2, h3, h4⟩ := ih (detach this heap o)
    refine ⟨?_, ?_, ?_, ?_⟩
    · rw [h1]
      exact modifyCell_length _ _ _
    · intro x
      rw [h2]
      unfold detach
      apply childsOf_modifyCell
      intro _
      rfl
    · intro x
      rw [h3]
      unfold detach
      apply implOf_modifyCell
      intro _
      rfl
    · intro a x
      rw [h4]
      unfold detach
      rw [parentsOf_modifyCell_parents heap o (setErase this) (Or.inr rfl)]
      by_cases hx : x = o
      · subst hx
        simp only [if_true, mem_setErase, List.mem_cons, true_or, forall_const]
        tauto
      · simp only [hx, if_false, List.mem_cons, false_or]

/-! ## The grid: resizing and locating a cell -/

theorem resize_length {α : Type} (l : List α) (n : Nat) (d : α) : (resize l n d).length = n := by
  unfold resize
  simp only [List.length_append, List.length_take, List.length_replicate]
  omega

theorem getD_resize {α : Type} (l : List α) (n : Nat) (d : α) (hn : l.length ≤ n) (i : Nat) :
    (resize l n d).getD i d = l.getD i d := by
  unfold resize
  rw [List.take_of_length_le hn]
  simp only [List.getD_eq_getElem?_getD]
  by_cases hi : i < l.length
  · rw [List.getElem?_append_left hi]
  · rw [List.getElem?_append_right (by omega), List.getElem?_eq_none (l := l) (by omega)]
    by_cases h2 : i - l.length < n - l.length
    · rw [List.getElem?_replicate_of_lt h2]
      rfl
    · rw [List.getElem?_eq_none (by simp; omega)]

theorem getD_set {α : Type} (l : List α) (i : Nat) (a d : α) (j : Nat) :
    (l.set i a).getD j d = if i = j ∧ i < l.length then a else l.getD j d := by
  simp only [List.getD_eq_getElem?_getD, List.getElem?_set]
  by_cases hij : i = j
  · subst hij
    by_cases hlt : i < l.length
    · simp [hlt]
    · simp [hlt, List.getElem?_eq_none (Nat.le_of_not_lt hlt)]
  · simp [hij]

theorem slot_lt {cells : List (List (Option Nat))} {r c id : Nat}
    (h : slot cells r c = some id) : r < cells.length ∧ c < (cells.getD r []).length := by
  unfold slot at h
  have hc : c < (cells.getD r []).length := by
    by_contra hge
    rw [List.getD_eq_getElem?_getD, List.getElem?_eq_none (by omega)] at h
    cases h
  refine ⟨?_, hc⟩
  by_contra hge
  rw [List.getD_eq_getElem?_getD, List.getElem?_eq_none (by omega)] at hc
  simp at hc

theorem slot_set (cells : List (List (Option Nat))) (r c : Nat) (v : Option Nat)
    (hr : r < cells.length) (hc : c < (cells.getD r []).length) (r1 c1 : Nat) :
    slot (cells.set r ((cells.getD r []).set c v)) r1 c1
      = if r1 = r ∧ c1 = c then v else slot cells r1 c1 := by
  unfold slot
  rw [getD_set]
  by_cases hr1 : r = r1
  · subst hr1
    rw [if_pos ⟨rfl, hr⟩, getD_set]
    by_cases hc1 : c = c1
    · subst hc1
      rw [if_pos ⟨rfl, hc⟩, if_pos ⟨rfl, rfl⟩]
    · rw [if_neg (fun h => hc1 h.1), if_neg (fun h => hc1 h.2.symm)]
  · rw [if_neg (fun h => hr1 h.1), if_neg (fun h => hr1 h.1.symm)]

/-- The rows of the grid after `ResizeTable`. -/
theorem ResizeTable_cells (s : Sheet) (pos : Position) :
    (ResizeTable s pos).cells_ =
      (if pos.col ≥ (((if pos.row ≥ (s.cells_.length : Int) then
            resize s.cells_ (pos.row + 1).toNat [] else s.cells_).getD pos.row.toNat []).length : Int)
        then
          (if pos.row ≥ (s.cells_.length : Int) then
            resize s.cells_ (pos.row + 1).toNat [] else s.cells_).set pos.row.toNat
            (resize ((if pos.row ≥ (s.cells_.length : Int) then
              resize s.cells_ (pos.row + 1).toNat [] else s.cells_).getD pos.row.toNat [])
              (pos.col + 1).toNat none)
        else (if pos.row ≥ (s.cells_.length : Int) then
            resize s.cells_ (pos.row + 1).toNat [] else s.cells_)) := rfl

theorem ResizeTable_heap (s : Sheet) (pos : Position) : (ResizeTable s pos).heap = s.heap := rfl

theorem ResizeTable_size (s : Sheet) (pos : Position) :
    (ResizeTable s pos).size_ = ⟨max s.size_.rows (pos.row + 1), max s.size_.cols (pos.col + 1)⟩ :=
  rfl

theorem grownRows_getD (s : Sheet) (pos : Position) (r : Nat) :
    (grownRows s pos).getD r [] = s.cells_.getD r [] := by
  unfold grownRows
  split
  · apply getD_resize
    omega
  · rfl

theorem grownRows_length (s : Sheet) (pos : Position) (hr : 0 ≤ pos.row) :
    pos.row.toNat < (grownRows s pos).length := by
  unfold grownRows
  split
  · rw [resize_length]
    omega
  · omega

theorem ResizeTable_cells_eq (s : Sheet) (pos : Position) :
    (ResizeTable s pos).cells_ =
      if pos.col ≥ ((s.cells_.getD pos.row.toNat []).length : Int) then
        (grownRows s pos).set pos.row.toNat
          (resize (s.cells_.getD pos.row.toNat []) (pos.col + 1).toNat none)
      else grownRows s pos := by
  rw [ResizeTable_cells]
  change (if pos.col ≥ (((grownRows s pos).getD pos.row.toNat []).length : Int) then
      (grownRows s pos).set pos.row.toNat
        (resize ((grownRows s pos).getD pos.row.toNat []) (pos.col + 1).toNat none)
    else grownRows s pos) = _
  rw [grownRows_getD]

theorem ResizeTable_getD (s : Sheet) (pos : Position) (hr : 0 ≤ pos.row) (r : Nat) :
    (ResizeTable s pos).cells_.getD r [] =
      if r = pos.row.toNat ∧ pos.col ≥ ((s.cells_.getD pos.row.toNat []).length : Int) then
        resize (s.cells_.getD pos.row.toNat []) (pos.col + 1).toNat none
      else s.cells_.getD r [] := by
  rw [ResizeTable_cells_eq]
  by_cases hc : pos.col ≥ ((s.cells_.getD pos.row.toNat []).length : Int)
  · simp only [hc, if_true, and_true]
    rw [getD_set, grownRows_getD]
    have := grownRows_length s pos hr
    by_cases hrr : pos.row.toNat = r
    · rw [if_pos ⟨hrr, this⟩, if_pos hrr.symm, hrr]
    · rw [if_neg (fun h => hrr h.1), if_neg (fun h => hrr h.symm)]
  · simp only [hc, if_false, and_false]
    exact grownRows_getD s pos r

theorem ResizeTable_length (s : Sheet) (pos : Position) :
    (ResizeTable s pos).cells_.length = (grownRows s pos).length := by
  rw [ResizeTable_cells_eq]
  split <;> simp

theorem slot_ResizeTable (s : Sheet) (pos : Position) (hr : 0 ≤ pos.row) (r c : Nat) :
    slot (ResizeTable s pos).cells_ r c = slot s.cells_ r c := by
  unfold slot
  rw [ResizeTable_getD s pos hr]
  split
  · next h =>
    rw [h.1]
    apply getD_resize
    omega
  · rfl

theorem ResizeTable_inside (s : Sheet) (pos : Position) (hr : 0 ≤ pos.row) (hc : 0 ≤ pos.col) :
    pos.row.toNat < (ResizeTable s pos).cells_.length ∧
      pos.col.toNat < ((ResizeTable s pos).cells_.getD pos.row.toNat []).length := by
  refine ⟨by rw [ResizeTable_length]; exact grownRows_length s pos hr, ?_⟩
  rw [ResizeTable_getD s pos hr]
  by_cases h : pos.col ≥ ((s.cells_.getD pos.row.toNat []).length : Int)
  · simp only [h, and_self, if_true]
    rw [resize_length]
    omega
  · simp only [h, and_false, if_false]
    omega

/-- What `locate` does: the slot of `pos` now holds the returned pointer, every
other slot is as before; either the pointer was there already and the heap is
unchanged, or the slot was null and a blank cell was allocated for it. -/
theorem locate_spec (s : Sheet) (pos : Position) (hr : 0 ≤ pos.row) (hc : 0 ≤ pos.col) :
    (∀ r c, slot (locate s pos).1.cells_ r c =
        if r = pos.row.toNat ∧ c = pos.col.toNat then some (locate s pos).2
        else slot s.cells_ r c) ∧
      ((slot s.cells_ pos.row.toNat pos.col.toNat = some (locate s pos).2 ∧
          (locate s pos).1.heap = s.heap) ∨
        (slot s.cells_ pos.row.toNat pos.col.toNat = none ∧
          (locate s pos).1.heap = s.heap ++ [Cell.blank] ∧ (locate s pos).2 = s.heap.length)) ∧
      (locate s pos).1.size_ =
        ⟨max s.size_.rows (pos.row + 1), max s.size_.cols (pos.col + 1)⟩ := by
  have hslot := slot_ResizeTable s pos hr
  have hin := ResizeTable_inside s pos hr hc
  unfold locate
  simp only
  cases hcase : slot (ResizeTable s pos).cells_ pos.row.toNat pos.col.toNat with
  | some id =>
    simp only
    refine ⟨?_, Or.inl ⟨by rw [← hslot, hcase], rfl⟩, rfl⟩
    intro r c
    rw [hslot]
    split
    · next h => rw [h.1, h.2, ← hslot, hcase]
    · rfl
  | none =>
    simp only
    refine ⟨?_, Or.inr ⟨by rw [← hslot, hcase], rfl, rfl⟩, rfl⟩
    intro r c
    rw [slot_set _ _ _ _ hin.1 hin.2, hslot]

theorem cellAt_eq_slot (s : Sheet) (pos : Position) (hr : 0 ≤ pos.row) (hc : 0 ≤ pos.col) :
    cellAt s pos = slot s.cells_ pos.row.toNat pos.col.toNat := by
  unfold cellAt
  split
  · rfl
  · next h =>
    cases hs : slot s.cells_ pos.row.toNat pos.col.toNat with
    | none => rfl
    | some id =>
      exact absurd ⟨hr, (slot_lt hs).1, hc, (slot_lt hs).2⟩ h

theorem cellAt_lt {s : Sheet} (hg : GridValid s) {pos : Position} {id : Nat}
    (h : cellAt s pos = some id) : id < s.heap.length := by
  unfold cellAt at h
  split at h
  · exact hg _ _ _ h
  · cases h

theorem cellAt_nonneg {s : Sheet} {pos : Position} {id : Nat}
    (h : cellAt s pos = some id) : 0 ≤ pos.row ∧ 0 ≤ pos.col := by
  unfold cellAt at h
  split at h
  · next hex => exact ⟨hex.1, hex.2.2.1⟩
  · cases h

/-- A position is looked up through the slots only, so sheets with the same
slots resolve every position alike. -/
theorem cellAt_congr {s t : Sheet} (h : ∀ r c, slot t.cells_ r c = slot s.cells_ r c)
    (pos : Position) : cellAt t pos = cellAt s pos := by
  by_cases hn : 0 ≤ pos.row ∧ 0 ≤ pos.col
  · rw [cellAt_eq_slot t pos hn.1 hn.2, cellAt_eq_slot s pos hn.1 hn.2, h]
  · have h1 : cellAt t pos = none := by
      cases h1 : cellAt t pos with
      | none => rfl
      | some id => exact absurd (cellAt_nonneg h1) hn
    have h2 : cellAt s pos = none := by
      cases h2 : cellAt s pos with
      | none => rfl
      | some id => exact absurd (cellAt_nonneg h2) hn
    rw [h1, h2]

theorem link_length (this : Nat) (heap : List Cell) (o : Nat) :
    (link this heap o).length = heap.length := by
  unfold link
  rw [modifyCell_length, modifyCell_length]

theorem implOf_link (this : Nat) (heap : List Cell) (o x : Nat) :
    implOf (link this heap o) x = implOf heap x := by
  unfold link
  rw [implOf_modifyCell, implOf_modifyCell]
  · intro c
    rfl
  · intro c
    rfl

theorem childsOf_link (this : Nat) (heap : List Cell) (o : Nat) (hthis : this < heap.length)
    (a : Nat) :
    childsOf (link this heap o) a
      = if a = this then setInsert o (childsOf heap a) else childsOf heap a := by
  unfold link
  rw [childsOf_modifyCell, childsOf_modifyCell_childs heap this (setInsert o) (Or.inl hthis)]
  intro c
  rfl

theorem parentsOf_link (this : Nat) (heap : List Cell) (o : Nat) (ho : o < heap.length)
    (b : Nat) :
    parentsOf (link this heap o) b
      = if b = o then setInsert this (parentsOf heap b) else parentsOf heap b := by
  unfold link
  rw [parentsOf_modifyCell_parents _ o (setInsert this)
    (Or.inl (by rw [modifyCell_length]; exact ho)), parentsOf_modifyCell]
  intro c
  rfl

theorem attach_spec (env : Env) (this : Nat) :
    ∀ refs s s3, attach env this s refs = .returned s3 → this < s.heap.length → GridValid s →
      s3.cells_ = s.cells_ ∧ s3.size_ = s.size_ ∧ s3.heap.length = s.heap.length ∧
      (∀ x, implOf s3.heap x = implOf s.heap x) ∧
      (∀ a b, b ∈ childsOf s3.heap a ↔
        (a = this ∧ ∃ pos, pos ∈ refs ∧ cellAt s pos = some b) ∨ b ∈ childsOf s.heap a) ∧
      (∀ a b, a ∈ parentsOf s3.heap b ↔
        (a = this ∧ ∃ pos, pos ∈ refs ∧ cellAt s pos = some b) ∨ a ∈ parentsOf s.heap b) := by
  intro refs
  induction refs with
  | nil =>
    intro s s3 h _ _
    simp only [attach, Run.returned.injEq] at h
    subst h
    simp
  | cons pos rest ih =>
    intro s s3 h hthis hgrid
    by_cases hv : pos.IsValid env
    · cases hcell : cellAt s pos with
      | none => simp [attach, GetCell, hv, hcell] at h
      | some o =>
        simp only [attach, GetCell, hv, if_true, hcell] at h
        have ho : o < s.heap.length := cellAt_lt hgrid hcell
        have hlen := link_length this s.heap o
        have hsame : ∀ p, cellAt { s with heap := link this s.heap o } p = cellAt s p :=
          fun _ => rfl
        obtain ⟨h1, h2, h3, h4, h5, h6⟩ := ih _ s3 h (by rw [hlen]; exact hthis)
          (fun r c id hs => by rw [hlen]; exact hgrid r c id hs)
        refine ⟨h1, h2, h3.trans hlen, ?_, ?_, ?_⟩
        · intro x
          rw [h4]
          exact implOf_link this s.heap o x
        · intro a b
          rw [h5]
          simp only [hsame, List.mem_cons]
          rw [childsOf_link this s.heap o hthis]
          by_cases ha : a = this
          · subst ha
            simp only [if_true, mem_setInsert, true_and]
            constructor
            · rintro (⟨p, hp, hpb⟩ | rfl | hb)
              · exact Or.inl ⟨p, Or.inr hp, hpb⟩
              · exact Or.inl ⟨pos, Or.inl rfl, hcell⟩
              · exact Or.inr hb
            · rintro (⟨p, rfl | hp, hpb⟩ | hb)
              · rw [hcell] at hpb
                exact Or.inr (Or.inl (Option.some.inj hpb).symm)
              · exact Or.inl ⟨p, hp, hpb⟩
              · exact Or.inr (Or.inr hb)
          · simp only [ha, if_false, false_and, false_or]
        · intro a b
          rw [h6]
          simp only [hsame, List.mem_cons]
          rw [parentsOf_link this s.heap o ho]
          by_cases hb : b = o
          · subst hb
            simp only [if_true, mem_setInsert]
            constructor
            · rintro (⟨ha, p, hp, hpb⟩ | ha | ha)
              · exact Or.inl ⟨ha, p, Or.inr hp, hpb⟩
              · exact Or.inl ⟨ha, pos, Or.inl rfl, hcell⟩
              · exact Or.inr ha
            · rintro (⟨ha, p, rfl | hp, hpb⟩ | ha)
              · exact Or.inr (Or.inl ha)
              · exact Or.inl ⟨ha, p, hp, hpb⟩
              · exact Or.inr (Or.inr ha)
          · simp only [hb, if_false]
            constructor
            · rintro (⟨ha, p, hp, hpb⟩ | ha)
              · exact Or.inl ⟨ha, p, Or.inr hp, hpb⟩
              · exact Or.inr ha
            · rintro (⟨ha, p, rfl | hp, hpb⟩ | ha)
              · rw [hcell] at hpb
                exact absurd (Option.some.inj hpb).symm hb
              · exact Or.inl ⟨ha, p, hp, hpb⟩
              · exact Or.inr ha
    · simp [attach, GetCell, hv] at h

theorem clearChilds_length (heap : List Cell) (this : Nat) :
    (clearChilds heap this).length = heap.length :=
  modifyCell_length _ _ _

theorem implOf_clearChilds (heap : List Cell) (this x : Nat) :
    implOf (clearChilds heap this) x = implOf heap x := by
  unfold clearChilds
  rw [implOf_modifyCell]
  intro c
  rfl

theorem parentsOf_clearChilds (heap : List Cell) (this x : Nat) :
    parentsOf (clearChilds heap this) x = parentsOf heap x := by
  unfold clearChilds
  rw [parentsOf_modifyCell]
  intro c
  rfl

theorem childsOf_clearChilds (heap : List Cell) (this x : Nat) :
    childsOf (clearChilds heap this) x = if x = this then [] else childsOf heap x := by
  have h := childsOf_modifyCell_childs heap this (fun _ => []) (Or.inr rfl) x
  exact h

theorem implOf_detachAll (heap : List Cell) (this x : Nat) :
    implOf (detachAll heap this) x = implOf heap x := by
  unfold detachAll
  rw [implOf_clearChilds, (foldl_detach_spec this _ heap).2.2.1]

theorem attach_no_throw (env : Env) (this : Nat) :
    ∀ refs s e l, attach env this s refs = .threw e l → ¬ ∀ pos, pos ∈ refs → pos.IsValid env := by
  intro refs
  induction refs with
  | nil =>
    intro s e l h
    simp [attach] at h
  | cons pos rest ih =>
    intro s e l h hall
    have hv : pos.IsValid env := hall pos (List.mem_cons_self _ _)
    cases hcell : cellAt s pos with
    | none => simp [attach, GetCell, hv, hcell] at h
    | some o =>
      simp only [attach, GetCell, hv, if_true, hcell] at h
      exact ih _ e l h (fun p hp => hall p (List.mem_cons_of_mem _ hp))

/-- What the two loops of `UpdateDependencies` do to a sheet whose edge sets
mirror each other: the grid and the contents are untouched, the children of
`this` become the cells at the referenced positions, the children of every
other cell stay, and the edge sets mirror each other again. -/
theorem rewire_spec (env : Env) (s : Sheet) (this : Nat) (s3 : Sheet)
    (hatt : attach env this { s with heap := detachAll s.heap this }
      (implOf s.heap this).GetReferencedCells = .returned s3)
    (hthis : this < s.heap.length) (hgrid : GridValid s) (hm : Mirror s.heap) :
    s3.cells_ = s.cells_ ∧ s3.size_ = s.size_ ∧ s3.heap.length = s.heap.length ∧
      (∀ x, implOf s3.heap x = implOf s.heap x) ∧
      (∀ a b, b ∈ childsOf s3.heap a ↔
        if a = this then
          ∃ pos, pos ∈ (implOf s.heap this).GetReferencedCells ∧ cellAt s pos = some b
        else b ∈ childsOf s.heap a) ∧
      Mirror s3.heap := by
  obtain ⟨d1, d2, d3, d4⟩ := foldl_detach_spec this (childsOf s.heap this) s.heap
  have hlen2 : (detachAll s.heap this).length = s.heap.length := by
    unfold detachAll
    rw [clearChilds_length, d1]
  obtain ⟨a1, a2, a3, a4, a5, a6⟩ := attach_spec env this _ _ s3 hatt
    (by show this < (detachAll _ this).length; rw [hlen2]; exact hthis)
    (fun r c id hs => by
      show id < (detachAll _ this).length
      rw [hlen2]
      exact hgrid r c id hs)
  have hsame : ∀ p, cellAt { s with heap := detachAll s.heap this } p = cellAt s p :=
    fun _ => rfl
  simp only [hsame] at a5 a6
  have hch : ∀ a b, b ∈ childsOf s3.heap a ↔
      if a = this then
        ∃ pos, pos ∈ (implOf s.heap this).GetReferencedCells ∧ cellAt s pos = some b
      else b ∈ childsOf s.heap a := by
    intro a b
    rw [a5]
    show _ ∨ b ∈ childsOf (detachAll _ this) a ↔ _
    unfold detachAll
    rw [childsOf_clearChilds, d2]
    by_cases ha : a = this
    · simp [ha]
    · simp [ha]
  refine ⟨a1, a2, a3.trans hlen2, ?_, hch, ?_⟩
  · intro x
    rw [a4]
    exact implOf_detachAll s.heap this x
  · intro a b
    rw [hch, a6]
    show _ ↔ _ ∨ a ∈ parentsOf (detachAll _ this) b
    unfold detachAll
    rw [parentsOf_clearChilds, d4]
    by_cases ha : a = this
    · subst ha
      simp only [if_true, true_and, ne_eq, not_true_eq_false, imp_false]
      constructor
      · intro hx
        exact Or.inl hx
      · rintro (hx | ⟨hx, hn⟩)
        · exact hx
        · exact absurd ((hm _ _).mpr hx) hn
    · simp only [ha, if_false, false_and, false_or, ne_eq, not_false_eq_true, implies_true,
        and_true]
      exact hm a b

/-- The two halves of a returning `UpdateDependencies`: the loops, then the
cache invalidation. -/
theorem UpdateDependencies_returned {env : Env} {s : Sheet} {this : Nat} {s4 : Sheet}
    (h : UpdateDependencies env s this = .returned s4) :
    ∃ s3 heap4, attach env this { s with heap := detachAll s.heap this }
        (implOf s.heap this).GetReferencedCells = .returned s3 ∧
      InvalidateCache s3.heap.length s3.heap this = some heap4 ∧
      s4 = { s3 with heap := heap4 } := by
  unfold UpdateDependencies at h
  rw [implOf_detachAll] at h
  split at h
  · cases h
  · cases hatt : attach env this { s with heap := detachAll s.heap this }
        (implOf s.heap this).GetReferencedCells with
    | threw e l => rw [hatt] at h; cases h
    | fault f => rw [hatt] at h; cases h
    | returned s3 =>
      rw [hatt] at h
      simp only at h
      split at h
      · cases h
      · cases hinv : InvalidateCache s3.heap.length s3.heap this with
        | none => rw [hinv] at h; cases h
        | some heap4 =>
          rw [hinv] at h
          simp only [Run.returned.injEq] at h
          exact ⟨s3, heap4, rfl, hinv, h.symm⟩

/-- What a returning `UpdateDependencies` does to a sheet whose edge sets
mirror each other: the grid is untouched, contents change by cache resets at
most, the children of `this` become the cells at the referenced positions, the
children of every other cell stay, and the edge sets mirror each other again. -/
theorem UpdateDependencies_spec (env : Env) (s : Sheet) (this : Nat) (s4 : Sheet)
    (h : UpdateDependencies env s this = .returned s4)
    (hthis : this < s.heap.length) (hgrid : GridValid s) (hm : Mirror s.heap) :
    s4.cells_ = s.cells_ ∧ s4.size_ = s.size_ ∧ s4.heap.length = s.heap.length ∧
      (∀ x, implOf s4.heap x = implOf s.heap x ∨
        implOf s4.heap x = (implOf s.heap x).InvalidateCache) ∧
      (∀ a b, b ∈ childsOf s4.heap a ↔
        if a = this then
          ∃ pos, pos ∈ (implOf s.heap this).GetReferencedCells ∧ cellAt s pos = some b
        else b ∈ childsOf s.heap a) ∧
      Mirror s4.heap := by
  obtain ⟨s3, heap4, hatt, hinv, hs4⟩ := UpdateDependencies_returned h
  subst hs4
  obtain ⟨r1, r2, r3, r4, r5, r6⟩ := rewire_spec env s this s3 hatt hthis hgrid hm
  obtain ⟨c1, c2⟩ := InvalidateCache_cacheOnly _ _ _ _ hinv
  refine ⟨r1, r2, ?_, ?_, ?_, ?_⟩
  · show heap4.length = s.heap.length
    rw [c1, r3]
  · intro x
    show implOf heap4 x = _ ∨ implOf heap4 x = _
    rw [← r4]
    exact (c2 x).2.2
  · intro a b
    show b ∈ childsOf heap4 a ↔ _
    rw [(c2 a).1]
    exact r5 a b
  · intro a b
    show b ∈ childsOf heap4 a ↔ a ∈ parentsOf heap4 b
    rw [(c2 a).1, (c2 b).2.1]
    exact r6 a b

/-! ## The cycle check inside `CreateFormulaImpl` -/

theorem resolveAll_returned (env : Env) (s : Sheet) :
    ∀ refs cs, resolveAll env s refs = .returned cs →
      cs = refs.map (cellAt s) ∧ ∀ pos, pos ∈ refs → pos.IsValid env := by
  intro refs
  induction refs with
  | nil =>
    intro cs h
    simp only [resolveAll, Run.returned.injEq] at h
    subst h
    simp
  | cons pos rest ih =>
    intro cs h
    by_cases hv : pos.IsValid env
    · simp only [resolveAll, GetCell, hv, if_true] at h
      cases hrest : resolveAll env s rest with
      | returned cs1 =>
        rw [hrest] at h
        simp only [Run.returned.injEq] at h
        subst h
        obtain ⟨h1, h2⟩ := ih cs1 hrest
        refine ⟨by rw [h1]; rfl, ?_⟩
        intro p hp
        rcases List.mem_cons.mp hp with rfl | hp
        · exact hv
        · exact h2 p hp
      | threw e l => rw [hrest] at h; cases h
      | fault f => rw [hrest] at h; cases h
    · simp [resolveAll, GetCell, hv] at h

theorem resolveAll_threw (env : Env) (s : Sheet) :
    ∀ refs e l, resolveAll env s refs = .threw e l → l = s := by
  intro refs
  induction refs with
  | nil =>
    intro e l h
    simp [resolveAll] at h
  | cons pos rest ih =>
    intro e l h
    by_cases hv : pos.IsValid env
    · simp only [resolveAll, GetCell, hv, if_true] at h
      cases hrest : resolveAll env s rest with
      | returned cs1 => rw [hrest] at h; cases h
      | threw e1 l1 =>
        rw [hrest] at h
        simp only [Run.threw.injEq] at h
        rw [← h.2]
        exact ih e1 l1 hrest
      | fault f => rw [hrest] at h; cases h
    · simp only [resolveAll, GetCell, hv, if_false, Run.threw.injEq] at h
      exact h.2.symm

theorem IsCyclic_threw {env : Env} {s : Sheet} {this : Nat} {impl : Impl} {e : Exception}
    {l : Sheet} (h : IsCyclic env s this impl = .threw e l) : l = s := by
  unfold IsCyclic at h
  split at h
  · cases h
  · cases hres : resolveAll env s impl.GetReferencedCells with
    | returned cs =>
      rw [hres] at h
      simp only at h
      split at h <;> cases h
    | threw e1 l1 =>
      rw [hres] at h
      simp only [Run.threw.injEq] at h
      rw [← h.2]
      exact resolveAll_threw env s _ e1 l1 hres
    | fault f => rw [hres] at h; cases h

/-- A negative answer of `IsCyclic`: every referenced position is valid, and
none of them resolves to a cell reachable from `this` along `parents_`. -/
theorem IsCyclic_false {env : Env} {s : Sheet} {this : Nat} {impl : Impl}
    (h : IsCyclic env s this impl = .returned false) :
    (∀ pos, pos ∈ impl.GetReferencedCells → pos.IsValid env) ∧
      ∀ pos, pos ∈ impl.GetReferencedCells → ∀ x,
        Relation.ReflTransGen (parentEdge s.heap) this x → cellAt s pos ≠ some x := by
  unfold IsCyclic at h
  split at h
  · next hnil =>
    rw [hnil]
    exact ⟨fun _ hp => (by cases hp), fun _ hp => (by cases hp)⟩
  · cases hres : resolveAll env s impl.GetReferencedCells with
    | returned cs =>
      rw [hres] at h
      simp only at h
      obtain ⟨hcs, hvalid⟩ := resolveAll_returned env s _ cs hres
      refine ⟨hvalid, ?_⟩
      cases hv : VisitCell s.heap cs s.heap.length this [] with
      | none => rw [hv] at h; cases h
      | some r =>
        obtain ⟨found, vis⟩ := r
        rw [hv] at h
        simp only [Run.returned.injEq] at h
        subst h
        intro pos hpos x hx hc
        refine VisitCell_false_sound hv x hx ?_
        rw [hcs, ← hc]
        exact List.mem_map_of_mem _ hpos
    | threw e1 l1 => rw [hres] at h; cases h
    | fault f => rw [hres] at h; cases h

/-- A self-reference is never answered `false`. -/
theorem IsCyclic_self {env : Env} {s : Sheet} {this : Nat} {impl : Impl} {pos : Position}
    (hpos : pos ∈ impl.GetReferencedCells) (hself : cellAt s pos = some this) :
    IsCyclic env s this impl ≠ .returned false := by
  intro h
  exact (IsCyclic_false h).2 pos hpos this Relation.ReflTransGen.refl hself

/-! ## Creating the referenced cells -/

theorem modifyCell_fresh_blank (heap : List Cell) :
    modifyCell (heap ++ [Cell.blank]) heap.length (fun c => { c with impl_ := .EmptyImpl })
      = heap ++ [Cell.blank] := by
  apply List.ext_getElem?
  intro j
  rw [modifyCell_getElem?]
  by_cases hj : j = heap.length
  · subst hj
    simp [Cell.blank]
  · simp [hj]

/-- The call `SetCell(pos, {})` on a valid position whose slot is null
allocates one blank cell and stores it there. -/
theorem SetCellEmpty_fresh (env : Env) (s : Sheet) (pos : Position) (hv : pos.IsValid env)
    (hnone : cellAt s pos = none) :
    ∃ s1, SetCellEmpty env s pos = .returned s1 ∧ s1.heap = s.heap ++ [Cell.blank] ∧
      (∀ r c, slot s1.cells_ r c =
        if r = pos.row.toNat ∧ c = pos.col.toNat then some s.heap.length else slot s.cells_ r c) ∧
      s1.size_ = ⟨max s.size_.rows (pos.row + 1), max s.size_.cols (pos.col + 1)⟩ := by
  obtain ⟨l1, l2, l3⟩ := locate_spec s pos hv.1 hv.2.1
  rw [cellAt_eq_slot s pos hv.1 hv.2.1] at hnone
  rcases l2 with ⟨hsome, _⟩ | ⟨_, hheap, hid⟩
  · rw [hnone] at hsome
    cases hsome
  · refine ⟨setImpl (locate s pos).1 (locate s pos).2 .EmptyImpl,
      by unfold SetCellEmpty; rw [if_pos hv], ?_, ?_, l3⟩
    · show modifyCell (locate s pos).1.heap (locate s pos).2 _ = _
      rw [hheap, hid]
      exact modifyCell_fresh_blank s.heap
    · intro r c
      rw [← hid]
      exact l1 r c

theorem createReferenced_spec (env : Env) :
    ∀ refs s, (∀ pos, pos ∈ refs → pos.IsValid env) →
      ∃ s2 k, createReferenced env s refs = .returned s2 ∧
        s2.heap = s.heap ++ List.replicate k Cell.blank ∧
        (∀ r c id, slot s.cells_ r c = some id → slot s2.cells_ r c = some id) ∧
        (∀ r c id, slot s2.cells_ r c = some id →
          slot s.cells_ r c = some id ∨ (s.heap.length ≤ id ∧ id < s2.heap.length)) ∧
        (∀ pos, pos ∈ refs → ∃ id, cellAt s2 pos = some id) ∧
        s.size_.rows ≤ s2.size_.rows ∧ s.size_.cols ≤ s2.size_.cols ∧
        (∀ pos, pos ∈ refs → cellAt s pos = none →
          pos.row < s2.size_.rows ∧ pos.col < s2.size_.cols) := by
  intro refs
  induction refs with
  | nil =>
    intro s _
    refine ⟨s, 0, rfl, by simp, fun _ _ _ h => h, fun _ _ _ h => Or.inl h, ?_, le_refl _,
      le_refl _, ?_⟩
    · intro pos hp
      cases hp
    · intro pos hp
      cases hp
  | cons pos rest ih =>
    intro s hall
    have hv : pos.IsValid env := hall pos (List.mem_cons_self _ _)
    have hrest : ∀ p, p ∈ rest → p.IsValid env := fun p hp => hall p (List.mem_cons_of_mem _ hp)
    cases hcell : cellAt s pos with
    | some o =>
      obtain ⟨s2, k, e1, e2, e3, e4, e5, e6, e7, e8⟩ := ih s hrest
      refine ⟨s2, k, ?_, e2, e3, e4, ?_, e6, e7, ?_⟩
      · simp only [createReferenced, GetCell, hv, if_true, hcell]
        exact e1
      · intro p hp
        rcases List.mem_cons.mp hp with rfl | hp
        · refine ⟨o, ?_⟩
          rw [cellAt_eq_slot _ _ hv.1 hv.2.1] at hcell ⊢
          exact e3 _ _ _ hcell
        · exact e5 p hp
      · intro p hp hnone
        rcases List.mem_cons.mp hp with rfl | hp
        · rw [hcell] at hnone
          cases hnone
        · exact e8 p hp hnone
    | none =>
      obtain ⟨s1, f1, f2, f3, f4⟩ := SetCellEmpty_fresh env s pos hv hcell
      obtain ⟨s2, k, e1, e2, e3, e4, e5, e6, e7, e8⟩ := ih s1 hrest
      have hslotnone : slot s.cells_ pos.row.toNat pos.col.toNat = none := by
        rw [← cellAt_eq_slot s pos hv.1 hv.2.1]
        exact hcell
      have hlen1 : s1.heap.length = s.heap.length + 1 := by
        rw [f2]
        simp
      have hsz : s.size_.rows ≤ s1.size_.rows ∧ s.size_.cols ≤ s1.size_.cols ∧
          pos.row < s1.size_.rows ∧ pos.col < s1.size_.cols := by
        rw [f4]
        simp only
        refine ⟨le_max_left _ _, le_max_left _ _, ?_, ?_⟩
        · exact lt_of_lt_of_le (by omega) (le_max_right _ _)
        · exact lt_of_lt_of_le (by omega) (le_max_right _ _)
      have hlen2 : s2.heap.length = s1.heap.length + k := by
        rw [e2]
        simp
      refine ⟨s2, k + 1, ?_, ?_, ?_, ?_, ?_, le_trans hsz.1 e6, le_trans hsz.2.1 e7, ?_⟩
      · simp only [createReferenced, GetCell, hv, if_true, hcell, f1]
        exact e1
      · rw [e2, f2, List.append_assoc, List.singleton_append, ← List.replicate_succ]
      · intro r c id hs
        apply e3
        rw [f3]
        split
        · next h =>
          rw [h.1, h.2, hslotnone] at hs
          cases hs
        · exact hs
      · intro r c id hs
        rcases e4 r c id hs with h1 | h1
        · rw [f3] at h1
          split at h1
          · right
            have : id = s.heap.length := (Option.some.inj h1).symm
            omega
          · exact Or.inl h1
        · right
          omega
      · intro p hp
        rcases List.mem_cons.mp hp with rfl | hp
        · refine ⟨s.heap.length, ?_⟩
          rw [cellAt_eq_slot _ _ hv.1 hv.2.1]
          apply e3
          rw [f3]
          simp
        · exact e5 p hp
      · intro p hp hnone
        rcases List.mem_cons.mp hp with rfl | hp
        · exact ⟨lt_of_lt_of_le hsz.2.2.1 e6, lt_of_lt_of_le hsz.2.2.2 e7⟩
        · by_cases hps : cellAt s1 p = none
          · exact e8 p hp hps
          · have hpv := hrest p hp
            rw [cellAt_eq_slot _ _ hpv.1 hpv.2.1] at hps hnone
            rw [f3] at hps
            split at hps
            · next h =>
              have hr : p.row = pos.row := by
                have := h.1
                have := hpv.1
                have := hv.1
                omega
              have hc : p.col = pos.col := by
                have := h.2
                have := hpv.2.1
                have := hv.2.1
                omega
              rw [hr, hc]
              exact ⟨lt_of_lt_of_le hsz.2.2.1 e6, lt_of_lt_of_le hsz.2.2.2 e7⟩
            · exact absurd hnone hps

/-! ## The shape of `Cell::Set` -/

theorem childsOf_append_blanks (heap : List Cell) (k x : Nat) :
    childsOf (heap ++ List.replicate k Cell.blank) x = childsOf heap x := by
  induction k with
  | zero => simp
  | succ k ih => rw [List.replicate_succ', ← List.append_assoc, childsOf_append_blank, ih]

theorem parentsOf_append_blanks (heap : List Cell) (k x : Nat) :
    parentsOf (heap ++ List.replicate k Cell.blank) x = parentsOf heap x := by
  induction k with
  | zero => simp
  | succ k ih => rw [List.replicate_succ', ← List.append_assoc, parentsOf_append_blank, ih]

theorem implOf_append_blanks (heap : List Cell) (k x : Nat) :
    implOf (heap ++ List.replicate k Cell.blank) x = implOf heap x := by
  induction k with
  | zero => simp
  | succ k ih => rw [List.replicate_succ', ← List.append_assoc, implOf_append_blank, ih]

theorem Mirror_congr {h0 h1 : List Cell}
    (hc : ∀ x, childsOf h1 x = childsOf h0 x) (hp : ∀ x, parentsOf h1 x = parentsOf h0 x)
    (hm : Mirror h0) : Mirror h1 := by
  intro a b
  rw [hc, hp]
  exact hm a b

theorem childEdge_congr {h0 h1 : List Cell} (hc : ∀ x, childsOf h1 x = childsOf h0 x) :
    childEdge h1 = childEdge h0 := by
  funext a b
  unfold childEdge
  rw [hc]

theorem parentEdge_congr {h0 h1 : List Cell} (hp : ∀ x, parentsOf h1 x = parentsOf h0 x) :
    parentEdge h1 = parentEdge h0 := by
  funext a b
  unfold parentEdge
  rw [hp]

theorem Acyclic_congr {h0 h1 : List Cell} (hc : ∀ x, childsOf h1 x = childsOf h0 x)
    (ha : Acyclic h0) : Acyclic h1 := by
  unfold Acyclic
  rw [childEdge_congr hc]
  exact ha

theorem setImpl_heap_length (s : Sheet) (this : Nat) (impl : Impl) :
    (setImpl s this impl).heap.length = s.heap.length :=
  modifyCell_length _ _ _

theorem childsOf_setImpl (s : Sheet) (this : Nat) (impl : Impl) (x : Nat) :
    childsOf (setImpl s this impl).heap x = childsOf s.heap x := by
  unfold setImpl
  apply childsOf_modifyCell
  intro c
  rfl

theorem parentsOf_setImpl (s : Sheet) (this : Nat) (impl : Impl) (x : Nat) :
    parentsOf (setImpl s this impl).heap x = parentsOf s.heap x := by
  unfold setImpl
  apply parentsOf_modifyCell
  intro c
  rfl

theorem implOf_setImpl (s : Sheet) (this : Nat) (impl : Impl) (hthis : this < s.heap.length)
    (x : Nat) :
    implOf (setImpl s this impl).heap x = if x = this then impl else implOf s.heap x := by
  unfold setImpl
  by_cases hx : x = this
  · subst hx
    rw [if_pos rfl]
    exact implOf_modifyCell_self s.heap x (fun _ => impl) hthis
  · rw [if_neg hx]
    exact implOf_modifyCell_ne _ _ _ _ hx

theorem Inv_setImpl {s : Sheet} (hinv : Inv s) (this : Nat) (impl : Impl) :
    Inv (setImpl s this impl) :=
  ⟨Mirror_congr (childsOf_setImpl s this impl) (parentsOf_setImpl s this impl) hinv.mirror,
    Acyclic_congr (childsOf_setImpl s this impl) hinv.acyclic,
    fun r c id h => by
      rw [setImpl_heap_length]
      exact hinv.grid r c id h⟩

theorem Inv_locate {s : Sheet} (hinv : Inv s) (pos : Position) (hr : 0 ≤ pos.row)
    (hc : 0 ≤ pos.col) :
    Inv (locate s pos).1 ∧ (locate s pos).2 < (locate s pos).1.heap.length := by
  obtain ⟨l1, l2, _⟩ := locate_spec s pos hr hc
  rcases l2 with ⟨hsome, hheap⟩ | ⟨_, hheap, hid⟩
  · have hlt : (locate s pos).2 < s.heap.length := hinv.grid _ _ _ hsome
    refine ⟨⟨by rw [hheap]; exact hinv.mirror, by rw [hheap]; exact hinv.acyclic, ?_⟩,
      by rw [hheap]; exact hlt⟩
    intro r c id h
    rw [hheap]
    rw [l1] at h
    split at h
    · rw [← Option.some.inj h]
      exact hlt
    · exact hinv.grid r c id h
  · refine ⟨⟨?_, ?_, ?_⟩, by rw [hheap, hid]; simp⟩
    · rw [hheap]
      exact Mirror_congr (childsOf_append_blank s.heap) (parentsOf_append_blank s.heap) hinv.mirror
    · rw [hheap]
      exact Acyclic_congr (childsOf_append_blank s.heap) hinv.acyclic
    · intro r c id h
      rw [hheap]
      rw [l1] at h
      simp only [List.length_append, List.length_singleton]
      split at h
      · rw [← Option.some.inj h, hid]
        omega
      · have := hinv.grid r c id h
        omega

/-- The formula branch of `Cell::Set`, when the call returns: the text parsed,
the cycle check answered `false`, the referenced cells were created and
`UpdateDependencies` returned. -/
theorem Cell_Set_formula_returned {env : Env} {s0 : Sheet} {this : Nat} {text : String}
    {s4 : Sheet} (h : Cell.Set env s0 this text = .returned s4) (hne : text.data ≠ [])
    (hf : IsFormula text = true) :
    ∃ f s2, env.ParseFormula (substr1 text) = some f ∧
      IsCyclic env s0 this (.FormulaImpl f none) = .returned false ∧
      createReferenced env (setImpl s0 this (.FormulaImpl f none)) f.referenced = .returned s2 ∧
      UpdateDependencies env s2 this = .returned s4 := by
  unfold Cell.Set at h
  rw [if_neg hne, if_pos hf] at h
  unfold CreateFormulaImpl at h
  cases hp : env.ParseFormula (substr1 text) with
  | none => rw [hp] at h; cases h
  | some f =>
    rw [hp] at h
    simp only at h
    by_cases hg : ∃ x ∈ searched env s0 this (.FormulaImpl f none), x ∈ s0.freed
    · rw [if_pos hg] at h
      cases h
    rw [if_neg hg] at h
    cases hcyc : IsCyclic env s0 this (.FormulaImpl f none) with
    | threw e l => rw [hcyc] at h; cases h
    | fault f1 => rw [hcyc] at h; cases h
    | returned b =>
      cases b with
      | true => rw [hcyc] at h; cases h
      | false =>
        rw [hcyc] at h
        simp only [Impl.GetReferencedCells] at h
        cases hcr : createReferenced env (setImpl s0 this (.FormulaImpl f none)) f.referenced with
        | threw e l => rw [hcr] at h; cases h
        | fault f1 => rw [hcr] at h; cases h
        | returned s2 =>
          rw [hcr] at h
          exact ⟨f, s2, rfl, hcyc, hcr, h⟩

theorem createReferenced_no_throw {env : Env} {s : Sheet} {refs : List Position}
    (hall : ∀ pos, pos ∈ refs → pos.IsValid env) {e : Exception} {l : Sheet} :
    createReferenced env s refs ≠ .threw e l := by
  obtain ⟨s2, k, h, _⟩ := createReferenced_spec env refs s hall
  rw [h]
  intro hc
  cases hc

/-- An exception leaving `Cell::Set` leaves the sheet as the call found it. -/
theorem Cell_Set_threw {env : Env} {s0 : Sheet} {this : Nat} {text : String} {e : Exception}
    {l : Sheet} (h : Cell.Set env s0 this text = .threw e l) (hthis : this < s0.heap.length) :
    l = s0 := by
  unfold Cell.Set at h
  split at h
  · cases h
  · split at h
    · unfold CreateFormulaImpl at h
      cases hp : env.ParseFormula (substr1 text) with
      | none =>
        rw [hp] at h
        simp only [Run.threw.injEq] at h
        exact h.2.symm
      | some f =>
        rw [hp] at h
        simp only at h
        by_cases hg : ∃ x ∈ searched env s0 this (.FormulaImpl f none), x ∈ s0.freed
        · rw [if_pos hg] at h
          cases h
        rw [if_neg hg] at h
        cases hcyc : IsCyclic env s0 this (.FormulaImpl f none) with
        | threw e1 l1 =>
          rw [hcyc] at h
          simp only [Run.threw.injEq] at h
          rw [← h.2]
          exact IsCyclic_threw hcyc
        | fault f1 => rw [hcyc] at h; cases h
        | returned b =>
          cases b with
          | true =>
            rw [hcyc] at h
            simp only [Run.threw.injEq] at h
            exact h.2.symm
          | false =>
            rw [hcyc] at h
            simp only [Impl.GetReferencedCells] at h
            have hvalid := (IsCyclic_false hcyc).1
            simp only [Impl.GetReferencedCells] at hvalid
            obtain ⟨s2, k, hcr, hheap, _, _, _, _, _, _⟩ :=
              createReferenced_spec env f.referenced (setImpl s0 this (.FormulaImpl f none)) hvalid
            rw [hcr] at h
            simp only at h
            exfalso
            unfold UpdateDependencies at h
            by_cases hg2 : ∃ outgoing ∈ childsOf s2.heap this, outgoing ∈ s2.freed
            · rw [if_pos hg2] at h
              cases h
            rw [if_neg hg2] at h
            have himpl : implOf (detachAll s2.heap this) this = .FormulaImpl f none := by
              rw [implOf_detachAll, hheap,
                implOf_append_blanks, implOf_setImpl s0 this _ hthis, if_pos rfl]
            rw [himpl] at h
            simp only [Impl.GetReferencedCells] at h
            cases hatt : attach env this { s2 with heap := detachAll s2.heap this }
                f.referenced with
            | threw e1 l1 => exact attach_no_throw env this _ _ e1 l1 hatt hvalid
            | fault f1 => rw [hatt] at h; cases h
            | returned s3 =>
              rw [hatt] at h
              simp only at h
              split at h
              · cases h
              · split at h <;> cases h
    · cases h

/-- An exception leaving `Sheet::SetCell` leaves either the sheet as it was
(invalid position) or the sheet with the table resized and the cell at `pos`
created, nothing else. -/
theorem SetCell_threw {env : Env} {s : Sheet} {pos : Position} {text : String} {e : Exception}
    {l : Sheet} (h : SetCell env s pos text = .threw e l) (hg : GridValid s) :
    (¬ pos.IsValid env ∧ l = s ∧ e = .InvalidPositionException) ∨
      (pos.IsValid env ∧ l = (locate s pos).1) := by
  unfold SetCell at h
  split at h
  · next hv =>
    right
    refine ⟨hv, Cell_Set_threw h ?_⟩
    obtain ⟨l1, l2, _⟩ := locate_spec s pos hv.1 hv.2.1
    rcases l2 with ⟨hsome, hheap⟩ | ⟨_, hheap, hid⟩
    · rw [hheap]
      exact hg _ _ _ hsome
    · rw [hheap, hid]
      simp
  · next hv =>
    simp only [Run.threw.injEq] at h
    exact Or.inl ⟨hv, h.2.symm, h.1.symm⟩

/-! ## The invariant is kept -/

/-- The sheet between the creation of the referenced cells and the rewiring:
the graph is the one the cycle check looked at, and the grid is valid. -/
theorem before_rewiring {env : Env} {s0 : Sheet} {this : Nat} {f : FormulaInterface}
    {s2 : Sheet} (hinv : Inv s0)
    (hvalid : ∀ pos, pos ∈ f.referenced → pos.IsValid env)
    (hcr : createReferenced env (setImpl s0 this (.FormulaImpl f none)) f.referenced
      = .returned s2) :
    (∀ x, childsOf s2.heap x = childsOf s0.heap x) ∧
      (∀ x, parentsOf s2.heap x = parentsOf s0.heap x) ∧
      s0.heap.length ≤ s2.heap.length ∧ GridValid s2 ∧
      (∀ r c id, slot s2.cells_ r c = some id →
        slot s0.cells_ r c = some id ∨ s0.heap.length ≤ id) ∧
      (∀ x, x < s0.heap.length →
        implOf s2.heap x = if x = this then .FormulaImpl f none else implOf s0.heap x) := by
  obtain ⟨t, k, e1, e2, e3, e4, e5, e6, e7, e8⟩ :=
    createReferenced_spec env f.referenced (setImpl s0 this (.FormulaImpl f none)) hvalid
  rw [hcr] at e1
  simp only [Run.returned.injEq] at e1
  subst e1
  have hlen1 : (setImpl s0 this (.FormulaImpl f none)).heap.length = s0.heap.length :=
    setImpl_heap_length _ _ _
  have hlen2 : s2.heap.length = s0.heap.length + k := by
    rw [e2]
    simp [hlen1]
  refine ⟨?_, ?_, by omega, ?_, ?_, ?_⟩
  · intro x
    rw [e2, childsOf_append_blanks, childsOf_setImpl]
  · intro x
    rw [e2, parentsOf_append_blanks, parentsOf_setImpl]
  · intro r c id hs
    rcases e4 r c id hs with h1 | h1
    · have := hinv.grid r c id h1
      omega
    · exact h1.2
  · intro r c id hs
    rcases e4 r c id hs with h1 | h1
    · exact Or.inl h1
    · right
      omega
  · intro x hx
    rw [e2, implOf_append_blanks]
    by_cases hthis : this < s0.heap.length
    · exact implOf_setImpl s0 this _ hthis x
    · have hne : x ≠ this := by omega
      rw [if_neg hne]
      unfold setImpl
      exact implOf_modifyCell_ne _ _ _ _ hne

/-- The graph obtained from the one the cycle check accepted by giving `this`
the cells at the referenced positions as children is acyclic. -/
theorem acyclic_after_rewire {env : Env} {s0 : Sheet} {this : Nat} {f : FormulaInterface}
    {s2 : Sheet} (hinv : Inv s0) (hthis : this < s0.heap.length)
    (hcyc : IsCyclic env s0 this (.FormulaImpl f none) = .returned false)
    (hcr : createReferenced env (setImpl s0 this (.FormulaImpl f none)) f.referenced
      = .returned s2)
    (heap : List Cell)
    (hch : ∀ a b, b ∈ childsOf heap a ↔
      if a = this then ∃ pos, pos ∈ f.referenced ∧ cellAt s2 pos = some b
      else b ∈ childsOf s2.heap a) :
    Acyclic heap := by
  obtain ⟨hvalid, hclean⟩ := IsCyclic_false hcyc
  simp only [Impl.GetReferencedCells] at hvalid hclean
  obtain ⟨b1, b2, b3, b4, b5, b6⟩ := before_rewiring hinv hvalid hcr
  apply @acyclic_of_rewired (childEdge s0.heap) (childEdge heap) this
  · intro a b hab ha
    have h1 := (hch a b).mp hab
    rw [if_neg ha, b1] at h1
    exact h1
  · exact hinv.acyclic
  · intro c hc hreach
    have h1 := (hch this c).mp hc
    rw [if_pos rfl] at h1
    obtain ⟨pos, hpos, hcell⟩ := h1
    have hpv := hvalid pos hpos
    rw [cellAt_eq_slot _ _ hpv.1 hpv.2.1] at hcell
    rcases b5 _ _ _ hcell with hold | hfresh
    · refine hclean pos hpos c (reach_parents_of_reach_childs hinv.mirror hreach) ?_
      rw [cellAt_eq_slot _ _ hpv.1 hpv.2.1]
      exact hold
    · rcases Relation.ReflTransGen.cases_head hreach with heq | ⟨d, hd, _⟩
      · omega
      · have := lt_of_mem_childsOf hd
        omega

/-- A committed formula edit keeps the invariant. -/
theorem Inv_formula_commit {env : Env} {s0 : Sheet} {this : Nat} {f : FormulaInterface}
    {s2 s4 : Sheet} (hinv : Inv s0) (hthis : this < s0.heap.length)
    (hcyc : IsCyclic env s0 this (.FormulaImpl f none) = .returned false)
    (hcr : createReferenced env (setImpl s0 this (.FormulaImpl f none)) f.referenced
      = .returned s2)
    (hupd : UpdateDependencies env s2 this = .returned s4) : Inv s4 := by
  obtain ⟨hvalid, _⟩ := IsCyclic_false hcyc
  simp only [Impl.GetReferencedCells] at hvalid
  obtain ⟨b1, b2, b3, b4, b5, b6⟩ := before_rewiring hinv hvalid hcr
  have hm2 : Mirror s2.heap := Mirror_congr b1 b2 hinv.mirror
  obtain ⟨u1, u2, u3, u4, u5, u6⟩ :=
    UpdateDependencies_spec env s2 this s4 hupd (by omega) b4 hm2
  have himpl : implOf s2.heap this = .FormulaImpl f none := by
    rw [b6 this hthis, if_pos rfl]
  rw [himpl] at u5
  simp only [Impl.GetReferencedCells] at u5
  refine ⟨u6, acyclic_after_rewire hinv hthis hcyc hcr s4.heap u5, ?_⟩
  intro r c id hs
  rw [u3]
  rw [u1] at hs
  exact b4 r c id hs

/-- Every call of `SetCell` that leaves a sheet behind keeps the invariant. -/
theorem Inv_SetCell {env : Env} {s s1 : Sheet} {pos : Position} {text : String}
    (hinv : Inv s) (h : (SetCell env s pos text).state? = some s1) : Inv s1 := by
  cases hres : SetCell env s pos text with
  | fault f =>
    rw [hres] at h
    cases h
  | threw e l =>
    rw [hres] at h
    simp only [Run.state?, Option.some.injEq] at h
    subst h
    rcases SetCell_threw hres hinv.grid with ⟨_, hl, _⟩ | ⟨hv, hl⟩
    · rw [hl]
      exact hinv
    · rw [hl]
      exact (Inv_locate hinv pos hv.1 hv.2.1).1
  | returned t =>
    rw [hres] at h
    simp only [Run.state?, Option.some.injEq] at h
    subst h
    unfold SetCell at hres
    split at hres
    · next hv =>
      obtain ⟨hinv0, hthis⟩ := Inv_locate hinv pos hv.1 hv.2.1
      by_cases hne : text.data = []
      · unfold Cell.Set at hres
        rw [if_pos hne] at hres
        simp only [Run.returned.injEq] at hres
        rw [← hres]
        exact Inv_setImpl hinv0 _ _
      · by_cases hf : IsFormula text = true
        · obtain ⟨f, s2, _, hcyc, hcr, hupd⟩ := Cell_Set_formula_returned hres hne hf
          exact Inv_formula_commit hinv0 hthis hcyc hcr hupd
        · unfold Cell.Set at hres
          rw [if_neg hne, if_neg hf] at hres
          simp only [Run.returned.injEq] at hres
          rw [← hres]
          exact Inv_setImpl hinv0 _ _
    · cases hres

/-! ## `ClearCell` adds no pointer to the grid -/

theorem slot_eq_some_iff {cells : List (List (Option Nat))} {r c id : Nat} :
    slot cells r c = some id ↔ ∃ row, cells[r]? = some row ∧ row[c]? = some (some id) := by
  unfold slot
  simp only [List.getD_eq_getElem?_getD]
  constructor
  · intro h
    cases hr : cells[r]? with
    | none =>
      rw [hr] at h
      simp at h
    | some row =>
      rw [hr] at h
      simp only [Option.getD_some] at h
      cases hc : row[c]? with
      | none =>
        rw [hc] at h
        simp at h
      | some v =>
        rw [hc] at h
        simp only [Option.getD_some] at h
        exact ⟨row, rfl, by rw [← h]; exact hc⟩
  · rintro ⟨row, hr, hc⟩
    rw [hr]
    simp only [Option.getD_some]
    rw [hc]
    rfl

theorem getElem?_of_isPrefix {α : Type} {l1 l : List α} (h : l1 <+: l) {i : Nat} {x : α}
    (hx : l1[i]? = some x) : l[i]? = some x := by
  obtain ⟨t, rfl⟩ := h
  have hi : i < l1.length := by
    by_contra hge
    rw [List.getElem?_eq_none (by omega)] at hx
    cases hx
  rw [List.getElem?_append_left hi]
  exact hx

theorem popBackWhile_isPrefix {α : Type} (p : α → Bool) :
    ∀ fuel v i v1, popBackWhile p fuel v i = .returned v1 → v1 <+: v := by
  intro fuel
  induction fuel with
  | zero =>
    intro v i v1 h
    unfold popBackWhile at h
    split at h
    · cases h
    · simp only [Run.returned.injEq] at h
      rw [h]
  | succ fuel ih =>
    intro v i v1 h
    unfold popBackWhile at h
    split at h
    · split at h
      · cases h
      · split at h
        · exact (ih _ _ _ h).trans ( List.dropLast_prefix v)
        · simp only [Run.returned.injEq] at h
          rw [h]
    · simp only [Run.returned.injEq] at h
      rw [h]

/-- The ways `ClearCell` can end. -/
theorem ClearCell_cases (env : Env) (s : Sheet) (pos : Position) :
    (¬ pos.IsValid env ∧ ClearCell env s pos = .threw .InvalidPositionException s) ∨
      (pos.IsValid env ∧ ¬ IsCellExists s pos ∧ ClearCell env s pos = .returned s) ∨
      (pos.IsValid env ∧ IsCellExists s pos ∧ ∃ f, ClearCell env s pos = .fault f) ∨
      (pos.IsValid env ∧ IsCellExists s pos ∧ ∃ row1 cells2,
        popBackWhile (fun c => c.isNone) (s.cells_.getD pos.row.toNat []).length
          ((s.cells_.getD pos.row.toNat []).set pos.col.toNat none) pos.col.toNat
            = .returned row1 ∧
        popBackWhile (fun r => r.isEmpty) s.cells_.length (s.cells_.set pos.row.toNat row1)
          (if s.cells_.length > 0 then s.cells_.length - 1 else 0) = .returned cells2 ∧
        ClearCell env s pos =
          .returned
            { s with
              cells_ := cells2
              size_ := ⟨cells2.length, maxColSize cells2⟩
              freed := s.freed ++
                destroyed ((s.cells_.getD pos.row.toNat []).set pos.col.toNat none) row1 }) := by
  unfold ClearCell
  by_cases hv : pos.IsValid env
  · by_cases hex : IsCellExists s pos
    · rw [if_pos hv, if_pos hex]
      right
      right
      cases h1 : popBackWhile (fun c => c.isNone) (s.cells_.getD pos.row.toNat []).length
          ((s.cells_.getD pos.row.toNat []).set pos.col.toNat none) pos.col.toNat with
      | returned row1 =>
        simp only
        cases h2 : popBackWhile (fun r => r.isEmpty) s.cells_.length
            (s.cells_.set pos.row.toNat row1)
            (if s.cells_.length > 0 then s.cells_.length - 1 else 0) with
        | returned cells2 => exact Or.inr ⟨hv, hex, row1, cells2, rfl, h2, rfl⟩
        | threw e l =>
          exfalso
          clear h1
          revert h2
          generalize (s.cells_.set pos.row.toNat row1) = v
          generalize (if s.cells_.length > 0 then s.cells_.length - 1 else 0) = i
          generalize s.cells_.length = fuel
          intro h2
          induction fuel generalizing v i with
          | zero =>
            unfold popBackWhile at h2
            split at h2 <;> cases h2
          | succ fuel ih =>
            unfold popBackWhile at h2
            split at h2
            · split at h2
              · cases h2
              · split at h2
                · exact ih _ _ h2
                · cases h2
            · cases h2
        | fault f => exact Or.inl ⟨hv, hex, f, rfl⟩
      | threw e l =>
        exfalso
        revert h1
        generalize ((s.cells_.getD pos.row.toNat []).set pos.col.toNat none) = v
        generalize pos.col.toNat = i
        generalize (s.cells_.getD pos.row.toNat []).length = fuel
        intro h1
        induction fuel generalizing v i with
        | zero =>
          unfold popBackWhile at h1
          split at h1 <;> cases h1
        | succ fuel ih =>
          unfold popBackWhile at h1
          split at h1
          · split at h1
            · cases h1
            · split at h1
              · exact ih _ _ h1
              · cases h1
          · cases h1
      | fault f => exact Or.inl ⟨hv, hex, f, rfl⟩
    · rw [if_pos hv, if_neg hex]
      exact Or.inr (Or.inl ⟨hv, hex, rfl⟩)
  · rw [if_neg hv]
    exact Or.inl ⟨hv, rfl⟩

/-- Every pointer in the grid after `ClearCell` was in the same slot before. -/
theorem ClearCell_slots {env : Env} {s s1 : Sheet} {pos : Position}
    (h : (ClearCell env s pos).state? = some s1) :
    s1.heap = s.heap ∧
      ∀ r c id, slot s1.cells_ r c = some id → slot s.cells_ r c = some id := by
  rcases ClearCell_cases env s pos with ⟨_, hc⟩ | ⟨_, _, hc⟩ | ⟨_, _, f, hc⟩ |
    ⟨_, _, row1, cells2, h1, h2, hc⟩
  · rw [hc] at h
    simp only [Run.state?, Option.some.injEq] at h
    subst h
    exact ⟨rfl, fun _ _ _ hs => hs⟩
  · rw [hc] at h
    simp only [Run.state?, Option.some.injEq] at h
    subst h
    exact ⟨rfl, fun _ _ _ hs => hs⟩
  · rw [hc] at h
    cases h
  · rw [hc] at h
    simp only [Run.state?, Option.some.injEq] at h
    subst h
    refine ⟨rfl, ?_⟩
    intro r c id hs
    have hp1 := popBackWhile_isPrefix _ _ _ _ _ h1
    have hp2 := popBackWhile_isPrefix _ _ _ _ _ h2
    obtain ⟨row, hrow, hcell⟩ := slot_eq_some_iff.mp hs
    have hrow1 := getElem?_of_isPrefix hp2 hrow
    rw [List.getElem?_set] at hrow1
    apply slot_eq_some_iff.mpr
    split at hrow1
    · next heq =>
      split at hrow1
      · next hlt =>
        simp only [Option.some.injEq] at hrow1
        subst hrow1
        have hcell0 := getElem?_of_isPrefix hp1 hcell
        rw [List.getElem?_set] at hcell0
        refine ⟨s.cells_.getD pos.row.toNat [], ?_, ?_⟩
        · rw [← heq, List.getD_eq_getElem?_getD, List.getElem?_eq_getElem hlt]
          rfl
        · split at hcell0
          · split at hcell0 <;> cases hcell0
          · exact hcell0
      · cases hrow1
    · exact ⟨row, hrow1, hcell⟩

theorem Inv_ClearCell {env : Env} {s s1 : Sheet} {pos : Position}
    (hinv : Inv s) (h : (ClearCell env s pos).state? = some s1) : Inv s1 := by
  obtain ⟨hheap, hslots⟩ := ClearCell_slots h
  refine ⟨by rw [hheap]; exact hinv.mirror, by rw [hheap]; exact hinv.acyclic, ?_⟩
  intro r c id hs
  rw [hheap]
  exact hinv.grid r c id (hslots r c id hs)

theorem Inv_GetValue {s : Sheet} (hinv : Inv s) (this : Nat) (evaluated : FormulaValue) :
    Inv (Cell.GetValue s this evaluated).2 := by
  unfold Cell.GetValue
  split
  · exact Inv_setImpl hinv _ _
  · exact hinv

theorem Inv_empty : Inv Sheet.empty := by
  refine ⟨?_, ?_, ?_⟩
  · intro a b
    simp [Sheet.empty, childsOf, parentsOf]
  · intro a h
    obtain ⟨c, hc, _⟩ := Relation.TransGen.head'_iff.mp h
    simp [Sheet.empty, childEdge, childsOf] at hc
  · intro r c id h
    simp [Sheet.empty, slot] at h

/-- Every reachable sheet satisfies the invariant. -/
theorem Reachable.inv {env : Env} {s : Sheet} (h : Reachable env s) : Inv s := by
  induction h with
  | init => exact Inv_empty
  | set pos text _ hstep ih => exact Inv_SetCell ih hstep
  | clear pos _ hstep ih => exact Inv_ClearCell ih hstep
  | read this evaluated _ ih => exact Inv_GetValue ih this evaluated

theorem ReachableBySet.reachable {env : Env} {s : Sheet} (h : ReachableBySet env s) :
    Reachable env s := by
  induction h with
  | init => exact Reachable.init
  | set pos text _ hstep ih => exact Reachable.set pos text ih hstep
  | read this evaluated _ ih => exact Reachable.read this evaluated ih

/-! ## Reading a cell -/

theorem Cell_GetText_eq {s : Sheet} {id : Nat} (h : id < s.heap.length) :
    Cell.GetText s id = some (implOf s.heap id).GetText := by
  unfold Cell.GetText implOf
  rw [List.getElem?_eq_getElem h]
  rfl

theorem Cell_GetValue_eq {s : Sheet} {id : Nat} (h : id < s.heap.length)
    (evaluated : FormulaValue) :
    (Cell.GetValue s id evaluated).1 = some ((implOf s.heap id).GetValue evaluated).1 := by
  unfold Cell.GetValue implOf
  rw [List.getElem?_eq_getElem h]

theorem IsFormula_data_ne_nil {text : String} (h : IsFormula text = true) : text.data ≠ [] := by
  intro hnil
  unfold IsFormula at h
  rw [hnil] at h
  simp at h

/-- A returning `SetCell` on a text that is not a formula: the position was
valid and the content of the located cell was replaced, nothing else. -/
theorem SetCell_plain {env : Env} {s : Sheet} {pos : Position} {t : String}
    (hv : pos.IsValid env) (ht : IsFormula t = false) :
    SetCell env s pos t = .returned (setImpl (locate s pos).1 (locate s pos).2
      (if t.data = [] then .EmptyImpl else .TextImpl t)) := by
  unfold SetCell Cell.Set
  rw [if_pos hv]
  by_cases hne : t.data = []
  · rw [if_pos hne, if_pos hne]
  · rw [if_neg hne, if_neg hne, ht]
    rfl

/-! ## Claims -/

/-- C10: on a reachable sheet, for a valid position `pos` and a text `t` that
does not take the formula path (`t` is empty, or does not begin with `=`, or is
exactly `=`), `SetCell(pos, t)` returns, the cell at `pos` is then present,
`GetText` gives `t` unchanged and `GetValue` gives the string `t` without its
leading escape sign when it has one, and `t` itself otherwise. -/
theorem C10_plain_text_roundtrip (env : Env) (s : Sheet) (pos : Position) (t : String)
    (hs : Reachable env s) (hv : pos.IsValid env)
    (ht : t = "" ∨ t.data.head? ≠ some FORMULA_SIGN ∨ t = "=") :
    ∃ s1 id, SetCell env s pos t = .returned s1 ∧ GetCell env s1 pos = .returned (some id) ∧
      Cell.GetText s1 id = some t ∧
      ∀ evaluated, (Cell.GetValue s1 id evaluated).1 =
        some (.str (if t.data.head? = some ESCAPE_SIGN then substr1 t else t)) := by
  have hnf : IsFormula t = false := by
    rcases ht with h | h | h
    · subst h
      rfl
    · unfold IsFormula
      simp [h]
    · subst h
      rfl
  obtain ⟨hinv0, hthis⟩ := Inv_locate hs.inv pos hv.1 hv.2.1
  obtain ⟨l1, _, _⟩ := locate_spec s pos hv.1 hv.2.1
  have hlen : (locate s pos).2 < (setImpl (locate s pos).1 (locate s pos).2
      (if t.data = [] then .EmptyImpl else .TextImpl t)).heap.length := by
    rw [setImpl_heap_length]
    exact hthis
  refine ⟨_, (locate s pos).2, SetCell_plain hv hnf, ?_, ?_, ?_⟩
  · unfold GetCell
    rw [if_pos hv, cellAt_eq_slot _ _ hv.1 hv.2.1]
    show Run.returned (slot (locate s pos).1.cells_ _ _) = _
    rw [l1, if_pos ⟨rfl, rfl⟩]
  · rw [Cell_GetText_eq hlen, implOf_setImpl _ _ _ hthis, if_pos rfl]
    by_cases hne : t.data = []
    · rw [if_pos hne]
      have : t = "" := String.ext hne
      rw [this]
      rfl
    · rw [if_neg hne]
      rfl
  · intro evaluated
    rw [Cell_GetValue_eq hlen, implOf_setImpl _ _ _ hthis, if_pos rfl]
    by_cases hne : t.data = []
    · rw [if_pos hne]
      have : t = "" := String.ext hne
      rw [this]
      rfl
    · rw [if_neg hne]
      unfold Impl.GetValue
      simp only
      split <;> rfl

/-- C4: in every state reachable from the empty sheet by `SetCell` calls
(returning or throwing), the stored dependency graph is acyclic: no non-empty
chain of `childs_` edges leads from a cell back to itself. -/
theorem C4_graph_acyclic (env : Env) (s : Sheet) (hs : ReachableBySet env s) :
    ∀ a, ¬ Relation.TransGen (childEdge s.heap) a a :=
  hs.reachable.inv.acyclic

/-- C9: on a reachable sheet, after a returning `SetCell(pos, text)` whose
text is a formula with parsed form `f`, every position referenced by `f` holds
a cell; one that held none before the call now holds a cell with empty text
and empty value, and the printable size covers it. -/
theorem C9_referenced_cells_present (env : Env) (s : Sheet) (pos : Position) (text : String)
    (f : FormulaInterface) (s4 : Sheet) (hs : Reachable env s)
    (hform : IsFormula text = true) (hparse : env.ParseFormula (substr1 text) = some f)
    (hset : SetCell env s pos text = .returned s4) :
    ∀ q, q ∈ f.referenced → ∃ id, GetCell env s4 q = .returned (some id) ∧
      (cellAt s q = none →
        Cell.GetText s4 id = some "" ∧
        (∀ evaluated, (Cell.GetValue s4 id evaluated).1 = some (.str "")) ∧
        q.row < (GetPrintableSize s4).rows ∧ q.col < (GetPrintableSize s4).cols) := by
  unfold SetCell at hset
  split at hset
  · next hv =>
    obtain ⟨hinv0, hthis⟩ := Inv_locate hs.inv pos hv.1 hv.2.1
    obtain ⟨l1, _, _⟩ := locate_spec s pos hv.1 hv.2.1
    obtain ⟨f1, s2, hp, hcyc, hcr, hupd⟩ :=
      Cell_Set_formula_returned hset (IsFormula_data_ne_nil hform) hform
    rw [hparse] at hp
    simp only [Option.some.injEq] at hp
    subst hp
    obtain ⟨hvalid, _⟩ := IsCyclic_false hcyc
    simp only [Impl.GetReferencedCells] at hvalid
    obtain ⟨t, k, e1, e2, e3, e4, e5, e6, e7, e8⟩ :=
      createReferenced_spec env f.referenced (setImpl (locate s pos).1 (locate s pos).2
        (.FormulaImpl f none)) hvalid
    rw [hcr] at e1
    simp only [Run.returned.injEq] at e1
    subst e1
    obtain ⟨b1, b2, b3, b4, b5, b6⟩ := before_rewiring hinv0 hvalid hcr
    obtain ⟨u1, u2, u3, u4, u5, u6⟩ :=
      UpdateDependencies_spec env s2 (locate s pos).2 s4 hupd (by omega) b4
        (Mirror_congr b1 b2 hinv0.mirror)
    have hcell4 : ∀ p, cellAt s4 p = cellAt s2 p :=
      cellAt_congr (fun r c => by rw [u1])
    intro q hq
    obtain ⟨id, hid⟩ := e5 q hq
    have hqv := hvalid q hq
    refine ⟨id, ?_, ?_⟩
    · unfold GetCell
      rw [if_pos hqv, hcell4, hid]
    · intro hnone
      have hne : ¬ (q.row.toNat = pos.row.toNat ∧ q.col.toNat = pos.col.toNat) := by
        intro heq
        refine @IsCyclic_self env _ _ (.FormulaImpl f none) q hq ?_ hcyc
        rw [cellAt_eq_slot _ _ hqv.1 hqv.2.1, l1, if_pos heq]
      have hnone0 : cellAt (setImpl (locate s pos).1 (locate s pos).2 (.FormulaImpl f none)) q
          = none := by
        rw [cellAt_eq_slot _ _ hqv.1 hqv.2.1]
        show slot (locate s pos).1.cells_ _ _ = none
        rw [l1, if_neg hne, ← cellAt_eq_slot _ _ hqv.1 hqv.2.1]
        exact hnone
      have hfresh : (locate s pos).1.heap.length ≤ id ∧ id < s2.heap.length := by
        rw [cellAt_eq_slot _ _ hqv.1 hqv.2.1] at hid hnone0
        rcases e4 _ _ _ hid with h1 | h1
        · rw [hnone0] at h1
          cases h1
        · rw [setImpl_heap_length] at h1
          exact h1
      have himpl2 : implOf s2.heap id = .EmptyImpl := by
        rw [e2, implOf_append_blanks]
        unfold implOf
        rw [List.getElem?_eq_none (by rw [setImpl_heap_length]; exact hfresh.1)]
      have himpl4 : implOf s4.heap id = .EmptyImpl := by
        rcases u4 id with h | h
        · rw [h, himpl2]
        · rw [h, himpl2]
          rfl
      have hlt4 : id < s4.heap.length := by
        rw [u3]
        exact hfresh.2
      refine ⟨?_, ?_, ?_, ?_⟩
      · rw [Cell_GetText_eq hlt4, himpl4]
        rfl
      · intro evaluated
        rw [Cell_GetValue_eq hlt4, himpl4]
        rfl
      · show q.row < s4.size_.rows
        rw [u2]
        exact (e8 q hq hnone0).1
      · show q.col < s4.size_.cols
        rw [u2]
        exact (e8 q hq hnone0).2
  · cases hset

/-! ## The shape of the grid without `ClearCell` -/

theorem locate_lengths (s : Sheet) (pos : Position) (hr : 0 ≤ pos.row) (hc : 0 ≤ pos.col) :
    (locate s pos).1.cells_.length = max s.cells_.length (pos.row.toNat + 1) ∧
      ∀ r, rowLen (locate s pos).1.cells_ r =
        if r = pos.row.toNat then max (rowLen s.cells_ r) (pos.col.toNat + 1)
        else rowLen s.cells_ r := by
  have hRTlen : (ResizeTable s pos).cells_.length = max s.cells_.length (pos.row.toNat + 1) := by
    rw [ResizeTable_length]
    unfold grownRows
    split
    · rw [resize_length]
      omega
    · omega
  have hRTrow : ∀ r, rowLen (ResizeTable s pos).cells_ r =
      if r = pos.row.toNat then max (rowLen s.cells_ r) (pos.col.toNat + 1)
      else rowLen s.cells_ r := by
    intro r
    unfold rowLen
    rw [ResizeTable_getD s pos hr]
    by_cases hrr : r = pos.row.toNat
    · subst hrr
      rw [if_pos rfl]
      split
      · next h =>
        rw [resize_length]
        omega
      · next h =>
        have : ¬ pos.col ≥ ((s.cells_.getD pos.row.toNat []).length : Int) := fun h1 => h ⟨rfl, h1⟩
        omega
    · rw [if_neg hrr, if_neg (fun h => hrr h.1)]
  unfold locate
  simp only
  split
  · exact ⟨hRTlen, hRTrow⟩
  · refine ⟨by simp only [List.length_set]; exact hRTlen, ?_⟩
    intro r
    rw [← hRTrow r]
    unfold rowLen
    simp only
    rw [getD_set]
    split
    · next h =>
      rw [List.length_set, h.1]
    · rfl

theorem Trim_empty (env : Env) : Trim env Sheet.empty := by
  refine ⟨fun r => Or.inl ?_, Or.inl rfl, rfl, fun r => ?_, Or.inl rfl, fun r h => ?_⟩
  · simp [rowLen, Sheet.empty]
  · simp [rowLen, Sheet.empty]
  · simp [rowLen, Sheet.empty] at h

theorem Trim_locate {env : Env} {s : Sheet} (ht : Trim env s) (pos : Position)
    (hv : pos.IsValid env) : Trim env (locate s pos).1 := by
  obtain ⟨l1, _, l3⟩ := locate_spec s pos hv.1 hv.2.1
  obtain ⟨n1, n2⟩ := locate_lengths s pos hv.1 hv.2.1
  have hv1 := hv.1
  have hv2 := hv.2.1
  have hv3 := hv.2.2.1
  have hv4 := hv.2.2.2
  have hcast : ((pos.row.toNat : Nat) : Int) = pos.row := Int.toNat_of_nonneg hv1
  have hcast2 : ((pos.col.toNat : Nat) : Int) = pos.col := Int.toNat_of_nonneg hv2
  refine ⟨?_, ?_, ?_, ?_, ?_, ?_⟩
  · intro r
    by_cases hrr : r = pos.row.toNat
    · subst hrr
      right
      rw [n2, if_pos rfl, l1]
      by_cases hlast : max (rowLen s.cells_ pos.row.toNat) (pos.col.toNat + 1) - 1 = pos.col.toNat
      · rw [if_pos ⟨rfl, hlast⟩]
        exact ⟨_, rfl⟩
      · rw [if_neg (fun h => hlast h.2)]
        have hmax : max (rowLen s.cells_ pos.row.toNat) (pos.col.toNat + 1)
            = rowLen s.cells_ pos.row.toNat := by omega
        rw [hmax]
        rcases ht.rowEnd pos.row.toNat with h0 | h0
        · omega
        · exact h0
    · rcases ht.rowEnd r with h0 | h0
      · left
        rw [n2, if_neg hrr]
        exact h0
      · right
        rw [n2, if_neg hrr, l1, if_neg (fun h => hrr h.1)]
        exact h0
  · right
    rw [n1, n2]
    by_cases hlast : max s.cells_.length (pos.row.toNat + 1) - 1 = pos.row.toNat
    · rw [if_pos hlast]
      omega
    · rw [if_neg hlast]
      have hmax : max s.cells_.length (pos.row.toNat + 1) = s.cells_.length := by omega
      rw [hmax]
      rcases ht.lastRow with h0 | h0
      · omega
      · exact h0
  · rw [l3, n1]
    simp only
    rw [ht.rows]
    omega
  · intro r
    rw [l3, n2]
    simp only
    have := ht.colsBound r
    split <;> omega
  · right
    rw [l3]
    simp only
    by_cases hbig : pos.col + 1 ≤ s.size_.cols
    · rcases ht.colsAttained with h0 | ⟨r, h0⟩
      · omega
      · refine ⟨r, ?_⟩
        rw [n2]
        split <;> omega
    · refine ⟨pos.row.toNat, ?_⟩
      rw [n2, if_pos rfl]
      have := ht.colsBound pos.row.toNat
      omega
  · intro r hne
    rw [n2] at hne ⊢
    by_cases hrr : r = pos.row.toNat
    · subst hrr
      rw [if_pos rfl]
      refine ⟨by omega, ?_⟩
      by_cases h0 : rowLen s.cells_ pos.row.toNat = 0
      · omega
      · have := (ht.inside _ h0).2
        omega
    · rw [if_neg hrr] at hne ⊢
      exact ht.inside r hne

theorem Trim_congr {env : Env} {s t : Sheet} (hc : t.cells_ = s.cells_) (hz : t.size_ = s.size_)
    (ht : Trim env s) : Trim env t := by
  obtain ⟨a, b, c, d, e, f⟩ := ht
  refine ⟨?_, ?_, ?_, ?_, ?_, ?_⟩ <;> rw [hc] <;> try rw [hz]
  · exact a
  · exact b
  · exact c
  · exact d
  · exact e
  · exact f

theorem Trim_setImpl {env : Env} {s : Sheet} (ht : Trim env s) (this : Nat) (impl : Impl) :
    Trim env (setImpl s this impl) :=
  Trim_congr (s := s) rfl rfl ht

theorem attach_grid (env : Env) (this : Nat) :
    ∀ refs s s3, attach env this s refs = .returned s3 →
      s3.cells_ = s.cells_ ∧ s3.size_ = s.size_ := by
  intro refs
  induction refs with
  | nil =>
    intro s s3 h
    simp only [attach, Run.returned.injEq] at h
    subst h
    exact ⟨rfl, rfl⟩
  | cons pos rest ih =>
    intro s s3 h
    by_cases hv : pos.IsValid env
    · cases hcell : cellAt s pos with
      | none => simp [attach, GetCell, hv, hcell] at h
      | some o =>
        simp only [attach, GetCell, hv, if_true, hcell] at h
        have hih := ih _ s3 h
        exact hih
    · simp [attach, GetCell, hv] at h

theorem UpdateDependencies_grid {env : Env} {s : Sheet} {this : Nat} {s4 : Sheet}
    (h : UpdateDependencies env s this = .returned s4) :
    s4.cells_ = s.cells_ ∧ s4.size_ = s.size_ := by
  obtain ⟨s3, heap4, hatt, _, rfl⟩ := UpdateDependencies_returned h
  exact attach_grid env this _ { s with heap := detachAll s.heap this } s3 hatt

theorem Trim_createReferenced (env : Env) :
    ∀ refs s s2, Trim env s → createReferenced env s refs = .returned s2 → Trim env s2 := by
  intro refs
  induction refs with
  | nil =>
    intro s s2 ht h
    simp only [createReferenced, Run.returned.injEq] at h
    subst h
    exact ht
  | cons pos rest ih =>
    intro s s2 ht h
    by_cases hv : pos.IsValid env
    · cases hcell : cellAt s pos with
      | some o =>
        simp only [createReferenced, GetCell, hv, if_true, hcell] at h
        exact ih s s2 ht h
      | none =>
        simp only [createReferenced, GetCell, hv, if_true, hcell, SetCellEmpty] at h
        exact ih _ s2 (Trim_setImpl (Trim_locate ht pos hv) _ _) h
    · simp [createReferenced, GetCell, hv] at h

theorem Trim_SetCell {env : Env} {s s1 : Sheet} {pos : Position} {text : String}
    (ht : Trim env s) (hinv : Inv s) (h : (SetCell env s pos text).state? = some s1) :
    Trim env s1 := by
  cases hres : SetCell env s pos text with
  | fault f =>
    rw [hres] at h
    cases h
  | threw e l =>
    rw [hres] at h
    simp only [Run.state?, Option.some.injEq] at h
    subst h
    rcases SetCell_threw hres hinv.grid with ⟨_, hl, _⟩ | ⟨hv, hl⟩
    · rw [hl]
      exact ht
    · rw [hl]
      exact Trim_locate ht pos hv
  | returned t =>
    rw [hres] at h
    simp only [Run.state?, Option.some.injEq] at h
    subst h
    unfold SetCell at hres
    split at hres
    · next hv =>
      have ht0 := Trim_locate ht pos hv
      by_cases hne : text.data = []
      · unfold Cell.Set at hres
        rw [if_pos hne] at hres
        simp only [Run.returned.injEq] at hres
        rw [← hres]
        exact Trim_setImpl ht0 _ _
      · by_cases hf : IsFormula text = true
        · obtain ⟨f, s2, _, hcyc, hcr, hupd⟩ := Cell_Set_formula_returned hres hne hf
          have ht2 := Trim_createReferenced env _ _ s2 (Trim_setImpl ht0 _ _) hcr
          obtain ⟨g1, g2⟩ := UpdateDependencies_grid hupd
          exact Trim_congr g1 g2 ht2
        · unfold Cell.Set at hres
          rw [if_neg hne, if_neg hf] at hres
          simp only [Run.returned.injEq] at hres
          rw [← hres]
          exact Trim_setImpl ht0 _ _
    · cases hres

theorem Trim_GetValue {env : Env} {s : Sheet} (ht : Trim env s) (this : Nat)
    (evaluated : FormulaValue) : Trim env (Cell.GetValue s this evaluated).2 := by
  unfold Cell.GetValue
  split
  · exact Trim_setImpl ht _ _
  · exact ht

/-- Every sheet reached without `ClearCell` has the shape `Trim`. -/
theorem ReachableBySet.trim {env : Env} {s : Sheet} (h : ReachableBySet env s) : Trim env s := by
  induction h with
  | init => exact Trim_empty env
  | set pos text hprev hstep ih => exact Trim_SetCell ih hprev.reachable.inv hstep
  | read this evaluated _ ih => exact Trim_GetValue ih this evaluated

/-! ## Clearing the last cell of a row -/

theorem popBackWhile_nil {α : Type} (p : α → Bool) (fuel i : Nat) :
    popBackWhile p fuel ([] : List α) i = .returned [] := by
  cases fuel <;> simp [popBackWhile]

/-- Started at the last index, the loop removes the trailing elements that
satisfy `p` and stops at the first that does not. -/
theorem popBackWhile_last {α : Type} (p : α → Bool) :
    ∀ fuel (v : List α), v.length ≤ fuel →
      ∃ v1 t, popBackWhile p fuel v (v.length - 1) = .returned v1 ∧ v = v1 ++ t ∧
        (∀ x, x ∈ t → p x = true) ∧
        (v1 = [] ∨ ∃ x, v1[v1.length - 1]? = some x ∧ p x = false) := by
  intro fuel
  induction fuel with
  | zero =>
    intro v hv
    have : v = [] := List.eq_nil_of_length_eq_zero (by omega)
    subst this
    exact ⟨[], [], popBackWhile_nil p 0 _, rfl, fun x hx => (by cases hx), Or.inl rfl⟩
  | succ fuel ih =>
    intro v hv
    rcases List.eq_nil_or_concat v with hnil | ⟨init, x, hcat⟩
    · subst hnil
      exact ⟨[], [], popBackWhile_nil p _ _, rfl, fun x hx => (by cases hx), Or.inl rfl⟩
    · rw [List.concat_eq_append] at hcat
      subst hcat
      have hlen : (init ++ [x]).length - 1 = init.length := by simp
      have hget : (init ++ [x])[init.length]? = some x := by simp
      unfold popBackWhile
      rw [if_pos (by simp), hlen, hget]
      simp only
      by_cases hp : p x = true
      · rw [if_pos hp, List.dropLast_concat]
        rcases List.eq_nil_or_concat init with hnil | ⟨init2, y, hcat2⟩
        · subst hnil
          refine ⟨[], [x], popBackWhile_nil p _ _, rfl, ?_, Or.inl rfl⟩
          intro z hz
          rw [List.mem_singleton.mp hz]
          exact hp
        · have hdec : decSizeT init.length = init.length - 1 := by
            unfold decSizeT
            rw [if_neg (by rw [hcat2, List.concat_eq_append]; simp)]
          rw [hdec]
          obtain ⟨v1, t, h1, h2, h3, h4⟩ := ih init (by simp at hv; omega)
          refine ⟨v1, t ++ [x], h1, by rw [← List.append_assoc, ← h2], ?_, h4⟩
          intro z hz
          rcases List.mem_append.mp hz with hz | hz
          · exact h3 z hz
          · rw [List.mem_singleton.mp hz]
            exact hp
      · rw [if_neg hp]
        refine ⟨init ++ [x], [], rfl, by simp, fun z hz => (by cases hz), Or.inr ⟨x, ?_, ?_⟩⟩
        · rw [hlen]
          exact hget
        · simpa using hp

theorem getD_append_default {α : Type} (l1 t : List α) (d : α) (ht : ∀ x, x ∈ t → x = d)
    (i : Nat) : (l1 ++ t).getD i d = l1.getD i d := by
  simp only [List.getD_eq_getElem?_getD]
  by_cases hi : i < l1.length
  · rw [List.getElem?_append_left hi]
  · rw [List.getElem?_append_right (by omega), List.getElem?_eq_none (l := l1) (by omega)]
    cases hx : t[i - l1.length]? with
    | none => rfl
    | some x =>
      have : x ∈ t := List.getElem?_mem hx
      rw [ht x this]
      rfl

theorem foldl_max_spec (cells : List (List (Option Nat))) :
    ∀ m, m ≤ cells.foldl (fun acc r => if r.length > acc then r.length else acc) m ∧
      (∀ row, row ∈ cells →
        row.length ≤ cells.foldl (fun acc r => if r.length > acc then r.length else acc) m) ∧
      (cells.foldl (fun acc r => if r.length > acc then r.length else acc) m = m ∨
        ∃ row, row ∈ cells ∧
          row.length = cells.foldl (fun acc r => if r.length > acc then r.length else acc) m) := by
  induction cells with
  | nil =>
    intro m
    exact ⟨le_refl _, fun _ h => (by cases h), Or.inl rfl⟩
  | cons row rest ih =>
    intro m
    rw [List.foldl_cons]
    obtain ⟨h1, h2, h3⟩ := ih (if row.length > m then row.length else m)
    refine ⟨?_, ?_, ?_⟩
    · refine le_trans ?_ h1
      split <;> omega
    · intro r hr
      rcases List.mem_cons.mp hr with rfl | hr
      · refine le_trans ?_ h1
        split <;> omega
      · exact h2 r hr
    · rcases h3 with h3 | ⟨r, hr, h3⟩
      · by_cases hgt : row.length > m
        · right
          refine ⟨row, List.mem_cons_self _ _, ?_⟩
          rw [h3, if_pos hgt]
        · left
          rw [h3, if_neg hgt]
      · exact Or.inr ⟨r, List.mem_cons_of_mem _ hr, h3⟩

theorem maxColSize_spec (cells : List (List (Option Nat))) :
    (∀ r, rowLen cells r ≤ maxColSize cells) ∧
      (maxColSize cells = 0 ∨ ∃ r, rowLen cells r = maxColSize cells) := by
  obtain ⟨_, h2, h3⟩ := foldl_max_spec cells 0
  refine ⟨?_, ?_⟩
  · intro r
    unfold rowLen
    rw [List.getD_eq_getElem?_getD]
    cases hr : cells[r]? with
    | none => exact Nat.zero_le _
    | some row => exact h2 row (List.getElem?_mem hr)
  · rcases h3 with h3 | ⟨row, hrow, h3⟩
    · exact Or.inl h3
    · right
      obtain ⟨n, hn⟩ := List.getElem?_of_mem hrow
      refine ⟨n, ?_⟩
      unfold rowLen
      rw [List.getD_eq_getElem?_getD, hn]
      exact h3

/-- The loops of `ClearCell` stop within their bound: the only execution
without a defined result is a read outside the vector. -/
theorem popBackWhile_fault {α : Type} (p : α → Bool) :
    ∀ fuel (v : List α) i f, v.length ≤ fuel → popBackWhile p fuel v i = .fault f →
      f = .outOfRange := by
  intro fuel
  induction fuel with
  | zero =>
    intro v i f hv h
    unfold popBackWhile at h
    rw [if_neg (by omega)] at h
    cases h
  | succ fuel ih =>
    intro v i f hv h
    unfold popBackWhile at h
    split at h
    · split at h
      · simp only [Run.fault.injEq] at h
        exact h.symm
      · split at h
        · exact ih _ _ f (by rw [List.length_dropLast]; omega) h
        · cases h
    · cases h

/-- The only execution of `ClearCell` without a defined result is a read
outside a vector. -/
theorem ClearCell_fault {env : Env} {s : Sheet} {pos : Position} {f : Fault}
    (h : ClearCell env s pos = .fault f) : f = .outOfRange := by
  unfold ClearCell at h
  split at h
  · split at h
    · split at h
      · split at h
        · cases h
        · cases h
        · next hf =>
          simp only [Run.fault.injEq] at h
          rw [← h]
          exact popBackWhile_fault _ _ _ _ _ (by rw [List.length_set]) hf
      · cases h
      · next hf =>
        simp only [Run.fault.injEq] at h
        rw [← h]
        exact popBackWhile_fault _ _ _ _ _ (by rw [List.length_set]) hf
    · cases h
  · cases h

/-- Removing null slots only destroys no object. -/
theorem destroyed_eq_nil {v row1 t : List (Option Nat)} (h : v = row1 ++ t)
    (ht : ∀ x, x ∈ t → x.isNone = true) : destroyed v row1 = [] := by
  subst h
  unfold destroyed
  rw [List.drop_left]
  induction t with
  | nil => rfl
  | cons x t ih =>
    have hx : x = none := by
      have h0 := ht x (List.mem_cons_self _ _)
      cases x with
      | none => rfl
      | some _ => cases h0
    subst hx
    rw [List.reduceOption_cons_of_none]
    exact ih (fun y hy => ht y (List.mem_cons_of_mem _ hy))

/-- On a grid of shape `Trim`, `ClearCell` on the last slot of a row returns;
the slot is then null, every other slot is as before, the heap is untouched
and the grid has shape `Trim` again. -/
theorem ClearCell_row_end {env : Env} {s : Sheet} {pos : Position} (ht : Trim env s)
    (hv : pos.IsValid env) (hex : IsCellExists s pos)
    (hend : pos.col.toNat + 1 = rowLen s.cells_ pos.row.toNat) :
    ∃ s1, ClearCell env s pos = .returned s1 ∧ s1.heap = s.heap ∧ Trim env s1 ∧
      ∀ r c, slot s1.cells_ r c =
        if r = pos.row.toNat ∧ c = pos.col.toNat then none else slot s.cells_ r c := by
  have hR : pos.row.toNat < s.cells_.length := hex.2.1
  have hlen0 : ((s.cells_.getD pos.row.toNat []).set pos.col.toNat none).length
      = (s.cells_.getD pos.row.toNat []).length := List.length_set _ _ _
  have hrl : (s.cells_.getD pos.row.toNat []).length = pos.col.toNat + 1 := hend.symm
  obtain ⟨row1, t, p1, p2, p3, p4⟩ := popBackWhile_last (fun c : Option Nat => c.isNone)
    (s.cells_.getD pos.row.toNat []).length
    ((s.cells_.getD pos.row.toNat []).set pos.col.toNat none) (by rw [hlen0])
  have hidx : ((s.cells_.getD pos.row.toNat []).set pos.col.toNat none).length - 1
      = pos.col.toNat := by
    rw [hlen0, hrl]
    rfl
  rw [hidx] at p1
  have hlen1 : (s.cells_.set pos.row.toNat row1).length = s.cells_.length := List.length_set _ _ _
  obtain ⟨cells2, t2, q1, q2, q3, q4⟩ := popBackWhile_last (fun r : List (Option Nat) => r.isEmpty)
    s.cells_.length (s.cells_.set pos.row.toNat row1) (by rw [hlen1])
  have hidx2 : (s.cells_.set pos.row.toNat row1).length - 1
      = (if s.cells_.length > 0 then s.cells_.length - 1 else 0) := by
    rw [hlen1, if_pos (by omega)]
  rw [hidx2] at q1
  have hres : ClearCell env s pos =
      .returned { s with cells_ := cells2, size_ := ⟨cells2.length, maxColSize cells2⟩ } := by
    unfold ClearCell
    rw [if_pos hv, if_pos hex, p1]
    simp only
    rw [q1]
    simp only [destroyed_eq_nil p2 p3, List.append_nil]
  -- rows and slots of the new grid
  have hrow1 : ∀ c, row1.getD c none =
      if c = pos.col.toNat then none else (s.cells_.getD pos.row.toNat []).getD c none := by
    intro c
    have h1 := getD_append_default row1 t none (fun x hx => by
      have := p3 x hx
      cases x with
      | none => rfl
      | some _ => simp at this) c
    rw [← p2, getD_set] at h1
    rw [← h1]
    by_cases hc : pos.col.toNat = c
    · rw [if_pos ⟨hc, by omega⟩, if_pos hc.symm]
    · rw [if_neg (fun h => hc h.1), if_neg (fun h => hc h.symm)]
  have hrows : ∀ r, cells2.getD r [] =
      if r = pos.row.toNat then row1 else s.cells_.getD r [] := by
    intro r
    have h1 := getD_append_default cells2 t2 [] (fun x hx => by
      have := q3 x hx
      simpa using this) r
    rw [← q2, getD_set] at h1
    rw [← h1]
    by_cases hr : pos.row.toNat = r
    · rw [if_pos ⟨hr, hR⟩, if_pos hr.symm]
    · rw [if_neg (fun h => hr h.1), if_neg (fun h => hr h.symm)]
  have hslot : ∀ r c, slot cells2 r c =
      if r = pos.row.toNat ∧ c = pos.col.toNat then none else slot s.cells_ r c := by
    intro r c
    unfold slot
    rw [hrows]
    by_cases hr : r = pos.row.toNat
    · subst hr
      rw [if_pos rfl, hrow1]
      by_cases hc : c = pos.col.toNat
      · rw [if_pos hc, if_pos ⟨rfl, hc⟩]
      · rw [if_neg hc, if_neg (fun h => hc h.2)]
    · rw [if_neg hr, if_neg (fun h => hr h.1)]
  have hrowLen : ∀ r, rowLen cells2 r =
      if r = pos.row.toNat then row1.length else rowLen s.cells_ r := by
    intro r
    unfold rowLen
    rw [hrows]
    split <;> rfl
  have hrow1len : row1.length ≤ pos.col.toNat + 1 := by
    have := congrArg List.length p2
    rw [hlen0, hrl, List.length_append] at this
    omega
  refine ⟨_, hres, rfl, ?_, hslot⟩
  obtain ⟨m1, m2⟩ := maxColSize_spec cells2
  refine ⟨?_, ?_, rfl, ?_, ?_, ?_⟩
  · intro r
    show rowLen cells2 r = 0 ∨ ∃ id, slot cells2 r (rowLen cells2 r - 1) = some id
    by_cases hr : r = pos.row.toNat
    · subst hr
      rw [hrowLen, if_pos rfl]
      rcases p4 with hnil | ⟨x, hx, hpx⟩
      · left
        rw [hnil]
        rfl
      · right
        cases x with
        | none => simp at hpx
        | some id =>
          refine ⟨id, ?_⟩
          unfold slot
          rw [hrows, if_pos rfl, List.getD_eq_getElem?_getD, hx]
          rfl
    · rw [hrowLen, if_neg hr, hslot]
      rcases ht.rowEnd r with h0 | h0
      · exact Or.inl h0
      · right
        rw [if_neg (fun h => hr h.1)]
        exact h0
  · show cells2.length = 0 ∨ rowLen cells2 (cells2.length - 1) ≠ 0
    rcases q4 with hnil | ⟨x, hx, hpx⟩
    · left
      rw [hnil]
      rfl
    · right
      unfold rowLen
      rw [List.getD_eq_getElem?_getD, hx]
      simp only [Option.getD_some]
      intro h0
      rw [List.length_eq_zero] at h0
      rw [h0] at hpx
      simp at hpx
  · intro r
    show (rowLen cells2 r : Int) ≤ ((maxColSize cells2 : Nat) : Int)
    exact_mod_cast m1 r
  · show ((maxColSize cells2 : Nat) : Int) = 0 ∨
      ∃ r, (rowLen cells2 r : Int) = ((maxColSize cells2 : Nat) : Int)
    rcases m2 with h0 | ⟨r, h0⟩
    · left
      exact_mod_cast h0
    · right
      exact ⟨r, by exact_mod_cast h0⟩
  · intro r hne
    show (r : Int) < env.MAX_ROWS ∧ (rowLen cells2 r : Int) ≤ env.MAX_COLS
    rw [hrowLen] at hne ⊢
    by_cases hr : r = pos.row.toNat
    · subst hr
      rw [if_pos rfl]
      have hin := ht.inside pos.row.toNat (by unfold rowLen; omega)
      refine ⟨hin.1, ?_⟩
      have h2 := hin.2
      unfold rowLen at h2
      rw [hrl] at h2
      have : (row1.length : Int) ≤ ((pos.col.toNat + 1 : Nat) : Int) := by exact_mod_cast hrow1len
      omega
    · rw [if_neg hr] at hne ⊢
      exact ht.inside r hne

theorem Trim.boundingBox {env : Env} {s : Sheet} (ht : Trim env s) :
    IsBoundingBox s s.size_ := by
  refine ⟨?_, ?_, ?_⟩
  · intro q id hq
    obtain ⟨hr, hc⟩ := cellAt_nonneg hq
    rw [cellAt_eq_slot _ _ hr hc] at hq
    obtain ⟨h1, h2⟩ := slot_lt hq
    have h3 := ht.colsBound q.row.toNat
    unfold rowLen at h3
    rw [ht.rows]
    constructor <;> omega
  · rcases ht.lastRow with h0 | h0
    · left
      rw [ht.rows, h0]
      rfl
    · right
      rcases ht.rowEnd (s.cells_.length - 1) with h1 | ⟨id, h1⟩
      · exact absurd h1 h0
      · refine ⟨⟨((s.cells_.length - 1 : Nat) : Int),
          ((rowLen s.cells_ (s.cells_.length - 1) - 1 : Nat) : Int)⟩, id, ?_, ?_⟩
        · rw [cellAt_eq_slot _ _ (Int.natCast_nonneg _) (Int.natCast_nonneg _)]
          simp only [Int.toNat_ofNat]
          exact h1
        · rw [ht.rows]
          have := (slot_lt h1).1
          simp only
          omega
  · rcases ht.colsAttained with h0 | ⟨r, h0⟩
    · exact Or.inl h0
    · by_cases hz : rowLen s.cells_ r = 0
      · left
        rw [← h0, hz]
        rfl
      · right
        rcases ht.rowEnd r with h1 | ⟨id, h1⟩
        · exact absurd h1 hz
        · refine ⟨⟨(r : Int), ((rowLen s.cells_ r - 1 : Nat) : Int)⟩, id, ?_, ?_⟩
          · rw [cellAt_eq_slot _ _ (Int.natCast_nonneg _) (Int.natCast_nonneg _)]
            simp only [Int.toNat_ofNat]
            exact h1
          · rw [← h0]
            simp only
            omega

/-- C7: on a sheet built from the empty sheet by `SetCell` calls only, if the
far corner `(rows - 1, cols - 1)` of the printable area holds a cell, then
`ClearCell` on it returns, removes that cell and no other, and leaves
`GetPrintableSize` equal to the exact bounding box of the remaining cells; it
is `(0, 0)` when the corner cell was the only one. -/
theorem C7_clear_far_corner (env : Env) (s : Sheet) (id : Nat) (hs : ReachableBySet env s)
    (hcorner : cellAt s ⟨s.size_.rows - 1, s.size_.cols - 1⟩ = some id) :
    ∃ s1, ClearCell env s ⟨s.size_.rows - 1, s.size_.cols - 1⟩ = .returned s1 ∧
      (∀ q, cellAt s1 q =
        if q = ⟨s.size_.rows - 1, s.size_.cols - 1⟩ then none else cellAt s q) ∧
      IsBoundingBox s1 (GetPrintableSize s1) ∧
      ((∀ q, q ≠ ⟨s.size_.rows - 1, s.size_.cols - 1⟩ → cellAt s q = none) →
        GetPrintableSize s1 = ⟨0, 0⟩) := by
  have ht := hs.trim
  obtain ⟨hr, hc⟩ := cellAt_nonneg hcorner
  simp only at hr hc
  have hslot := hcorner
  rw [cellAt_eq_slot _ _ hr hc] at hslot
  simp only at hslot
  obtain ⟨h1, h2⟩ := slot_lt hslot
  have hbound := ht.colsBound (s.size_.rows - 1).toNat
  have hne : rowLen s.cells_ (s.size_.rows - 1).toNat ≠ 0 := by
    unfold rowLen
    omega
  obtain ⟨hin1, hin2⟩ := ht.inside _ hne
  have hend : (s.size_.cols - 1).toNat + 1 = rowLen s.cells_ (s.size_.rows - 1).toNat := by
    unfold rowLen at hbound ⊢
    omega
  have hv : Position.IsValid env ⟨s.size_.rows - 1, s.size_.cols - 1⟩ := by
    refine ⟨hr, hc, ?_, ?_⟩
    · simp only
      omega
    · simp only
      omega
  have hex : IsCellExists s ⟨s.size_.rows - 1, s.size_.cols - 1⟩ := ⟨hr, h1, hc, h2⟩
  obtain ⟨s1, c1, _, c3, c4⟩ := ClearCell_row_end ht hv hex hend
  have hcells : ∀ q, cellAt s1 q =
      if q = ⟨s.size_.rows - 1, s.size_.cols - 1⟩ then none else cellAt s q := by
    intro q
    by_cases hn : 0 ≤ q.row ∧ 0 ≤ q.col
    · rw [cellAt_eq_slot _ _ hn.1 hn.2, cellAt_eq_slot _ _ hn.1 hn.2, c4]
      by_cases hq : q = ⟨s.size_.rows - 1, s.size_.cols - 1⟩
      · rw [if_pos hq, if_pos (by rw [hq]; exact ⟨rfl, rfl⟩)]
      · rw [if_neg hq, if_neg]
        intro heq
        apply hq
        obtain ⟨qr, qc⟩ := q
        simp only at heq hn
        simp only [Position.mk.injEq]
        constructor <;> omega
    · have e1 : cellAt s1 q = none := by
        cases h : cellAt s1 q with
        | none => rfl
        | some _ => exact absurd (cellAt_nonneg h) hn
      have e2 : cellAt s q = none := by
        cases h : cellAt s q with
        | none => rfl
        | some _ => exact absurd (cellAt_nonneg h) hn
      rw [e1, e2]
      split <;> rfl
  have hbox := c3.boundingBox
  refine ⟨s1, c1, hcells, hbox, ?_⟩
  intro honly
  have hnone : ∀ q, cellAt s1 q = none := by
    intro q
    rw [hcells]
    split
    · rfl
    · next hq => exact honly q hq
  obtain ⟨_, b2, b3⟩ := hbox
  have hrows : s1.size_.rows = 0 := by
    rcases b2 with h0 | ⟨q, i, hq, _⟩
    · exact h0
    · rw [hnone q] at hq
      cases hq
  have hcols : s1.size_.cols = 0 := by
    rcases b3 with h0 | ⟨q, i, hq, _⟩
    · exact h0
    · rw [hnone q] at hq
      cases hq
  show s1.size_ = ⟨0, 0⟩
  cases hsz : s1.size_ with
  | mk a b =>
    rw [hsz] at hrows hcols
    simp only at hrows hcols
    rw [hrows, hcols]

/-! ## The recursion bounds are never reached -/

theorem unvisited_mono {n : Nat} {v w : List Nat} (h : ∀ x, x ∈ v → x ∈ w) :
    unvisited n w ≤ unvisited n v := by
  unfold unvisited
  apply Finset.card_le_card
  intro x hx
  simp only [Finset.mem_filter, Finset.mem_range] at hx ⊢
  exact ⟨hx.1, fun hxv => hx.2 (h x hxv)⟩

theorem unvisited_insert_lt {n cur : Nat} {vis : List Nat} (hcur : cur < n) (hnew : cur ∉ vis) :
    unvisited n (setInsert cur vis) < unvisited n vis := by
  unfold unvisited
  apply Finset.card_lt_card
  rw [Finset.ssubset_iff_of_subset]
  · refine ⟨cur, ?_, ?_⟩
    · simp only [Finset.mem_filter, Finset.mem_range]
      exact ⟨hcur, hnew⟩
    · simp only [Finset.mem_filter, Finset.mem_range, not_and, not_not]
      intro _
      exact mem_setInsert.mpr (Or.inl rfl)
  · intro x hx
    simp only [Finset.mem_filter, Finset.mem_range] at hx ⊢
    exact ⟨hx.1, fun hxv => hx.2 (mem_setInsert.mpr (Or.inr hxv))⟩

theorem foldl_visitIncoming_defined {n : Nat} {fuel : Nat}
    (visit : Nat → List Nat → Option (Bool × List Nat))
    (hvisit : ∀ cur vis, cur < n → cur ∉ vis → unvisited n vis ≤ fuel →
      ∃ b vis1, visit cur vis = some (b, vis1) ∧ ∀ x, x ∈ vis → x ∈ vis1)
    (l : List Nat) (hl : ∀ y, y ∈ l → y < n) :
    ∀ b v, unvisited n v ≤ fuel →
      ∃ b1 v1, l.foldl (visitIncoming visit) (some (b, v)) = some (b1, v1) ∧
        ∀ x, x ∈ v → x ∈ v1 := by
  induction l with
  | nil =>
    intro b v _
    exact ⟨b, v, rfl, fun _ h => h⟩
  | cons y l ih =>
    intro b v hv
    have hl1 : ∀ z, z ∈ l → z < n := fun z hz => hl z (List.mem_cons_of_mem _ hz)
    rw [List.foldl_cons]
    cases b with
    | true =>
      have hstep : visitIncoming visit (some (true, v)) y = some (true, v) := rfl
      rw [hstep]
      exact ih hl1 true v hv
    | false =>
      by_cases hy : y ∈ v
      · have hstep : visitIncoming visit (some (false, v)) y = some (false, v) := by
          simp [visitIncoming, hy]
        rw [hstep]
        exact ih hl1 false v hv
      · have hstep : visitIncoming visit (some (false, v)) y = visit y v := by
          simp [visitIncoming, hy]
        rw [hstep]
        obtain ⟨b2, v2, h2, hsub⟩ := hvisit y v (hl y (List.mem_cons_self _ _)) hy hv
        rw [h2]
        obtain ⟨b3, v3, h3, hsub3⟩ := ih hl1 b2 v2 (le_trans (unvisited_mono hsub) hv)
        exact ⟨b3, v3, h3, fun x hx => hsub3 x (hsub x hx)⟩

/-- With every parent pointer below `heap.length`, the search from an
unvisited allocated cell finishes when the bound is at least the number of
unvisited cells. -/
theorem VisitCell_defined (heap : List Cell) (R : List (Option Nat))
    (hvalid : ∀ a b, b ∈ parentsOf heap a → b < heap.length) :
    ∀ fuel cur vis, cur < heap.length → cur ∉ vis → unvisited heap.length vis ≤ fuel →
      ∃ b vis1, VisitCell heap R fuel cur vis = some (b, vis1) ∧ ∀ x, x ∈ vis → x ∈ vis1 := by
  intro fuel
  induction fuel with
  | zero =>
    intro cur vis hcur hnew hfuel
    have := unvisited_insert_lt hcur hnew
    omega
  | succ fuel ih =>
    intro cur vis hcur hnew hfuel
    rw [VisitCell]
    by_cases hc : some cur ∈ R
    · rw [if_pos hc]
      exact ⟨true, _, rfl, fun x hx => mem_setInsert.mpr (Or.inr hx)⟩
    · rw [if_neg hc]
      have hlt := unvisited_insert_lt hcur hnew
      obtain ⟨b1, v1, h1, hsub⟩ := @foldl_visitIncoming_defined heap.length fuel
        (VisitCell heap R fuel) ih (parentsOf heap cur) (fun y hy => hvalid cur y hy) false
        (setInsert cur vis) (by omega)
      exact ⟨b1, v1, h1, fun x hx => hsub x (mem_setInsert.mpr (Or.inr hx))⟩

theorem unvisited_nil (n : Nat) : unvisited n [] = n := by
  unfold unvisited
  simp

theorem Mirror.parents_lt {heap : List Cell} (hm : Mirror heap) {a b : Nat}
    (h : b ∈ parentsOf heap a) : b < heap.length :=
  lt_of_mem_childsOf ((hm b a).mpr h)

theorem resolveAll_no_fault (env : Env) (s : Sheet) :
    ∀ refs f, resolveAll env s refs ≠ .fault f := by
  intro refs
  induction refs with
  | nil =>
    intro f h
    simp [resolveAll] at h
  | cons pos rest ih =>
    intro f h
    by_cases hv : pos.IsValid env
    · simp only [resolveAll, GetCell, hv, if_true] at h
      cases hrest : resolveAll env s rest with
      | returned cs1 => rw [hrest] at h; cases h
      | threw e1 l1 => rw [hrest] at h; cases h
      | fault f1 => exact ih f1 hrest
    · simp [resolveAll, GetCell, hv] at h

/-- The cycle check finishes within its bound. -/
theorem IsCyclic_no_fault {env : Env} {s : Sheet} {this : Nat} {impl : Impl}
    (hm : Mirror s.heap) (hthis : this < s.heap.length) (f : Fault) :
    IsCyclic env s this impl ≠ .fault f := by
  intro h
  unfold IsCyclic at h
  split at h
  · cases h
  · cases hres : resolveAll env s impl.GetReferencedCells with
    | returned cs =>
      rw [hres] at h
      simp only at h
      obtain ⟨b, v, hv, _⟩ := VisitCell_defined s.heap cs (fun a b hb => hm.parents_lt hb)
        s.heap.length this [] hthis (by simp) (by rw [unvisited_nil])
      rw [hv] at h
      cases h
    | threw e1 l1 => rw [hres] at h; cases h
    | fault f1 => exact resolveAll_no_fault env s _ f1 hres

theorem parentEdge_iff_childEdge {heap : List Cell} (hm : Mirror heap) (a b : Nat) :
    parentEdge heap a b ↔ childEdge heap b a :=
  (hm b a).symm

theorem transGen_parentEdge_iff {heap : List Cell} (hm : Mirror heap) (a b : Nat) :
    Relation.TransGen (parentEdge heap) a b ↔ Relation.TransGen (childEdge heap) b a := by
  have : parentEdge heap = Function.swap (childEdge heap) := by
    funext x y
    exact propext (parentEdge_iff_childEdge hm x y)
  rw [this]
  exact Relation.transGen_swap

theorem dependents_subset_range {heap : List Cell} (hm : Mirror heap) (x : Nat) :
    dependents heap x ⊆ ((Finset.range heap.length : Finset Nat) : Set Nat) := by
  intro y hy
  simp only [Finset.coe_range, Set.mem_Iio]
  obtain ⟨z, _, hz⟩ := Relation.TransGen.tail'_iff.mp hy
  exact hm.parents_lt hz

theorem dependents_finite {heap : List Cell} (hm : Mirror heap) (x : Nat) :
    (dependents heap x).Finite :=
  Set.Finite.subset (Finset.finite_toSet _) (dependents_subset_range hm x)

theorem dependents_lt_of_parent {heap : List Cell} (hm : Mirror heap) (ha : Acyclic heap)
    {x y : Nat} (hy : y ∈ parentsOf heap x) :
    (dependents heap y).ncard < (dependents heap x).ncard := by
  apply Set.ncard_lt_ncard _ (dependents_finite hm x)
  rw [Set.ssubset_iff_of_subset]
  · refine ⟨y, Relation.TransGen.single hy, ?_⟩
    intro hyy
    exact ha y ((transGen_parentEdge_iff hm y y).mp hyy)
  · intro z hz
    exact Relation.TransGen.head hy hz

theorem dependents_ncard_lt {heap : List Cell} (hm : Mirror heap) (ha : Acyclic heap)
    {x : Nat} (hx : x < heap.length) : (dependents heap x).ncard < heap.length := by
  have hcard : (((Finset.range heap.length : Finset Nat) : Set Nat)).ncard = heap.length := by
    rw [Set.ncard_coe_Finset, Finset.card_range]
  rw [← hcard]
  apply Set.ncard_lt_ncard _ (Finset.finite_toSet _)
  rw [Set.ssubset_iff_of_subset (dependents_subset_range hm x)]
  refine ⟨x, by simpa using hx, ?_⟩
  intro hxx
  exact ha x ((transGen_parentEdge_iff hm x x).mp hxx)

theorem foldl_invalidateParent_defined {heap : List Cell} {fuel : Nat}
    (invalidate : List Cell → Nat → Option (List Cell))
    (hinv : ∀ h x, CacheOnly heap h → (dependents heap x).ncard < fuel →
      ∃ h1, invalidate h x = some h1 ∧ CacheOnly heap h1)
    (l : List Nat) (hl : ∀ y, y ∈ l → (dependents heap y).ncard < fuel) :
    ∀ h, CacheOnly heap h →
      ∃ h1, l.foldl (invalidateParent invalidate) (some h) = some h1 ∧ CacheOnly heap h1 := by
  induction l with
  | nil =>
    intro h hc
    exact ⟨h, rfl, hc⟩
  | cons y l ih =>
    intro h hc
    rw [List.foldl_cons]
    have hstep : invalidateParent invalidate (some h) y = invalidate h y := rfl
    rw [hstep]
    obtain ⟨h1, e1, c1⟩ := hinv h y hc (hl y (List.mem_cons_self _ _))
    rw [e1]
    exact ih (fun z hz => hl z (List.mem_cons_of_mem _ hz)) h1 c1

/-- On an acyclic graph whose edge sets mirror each other, cache invalidation
from `this` finishes when the bound exceeds the number of dependents of
`this`. -/
theorem InvalidateCache_defined (heap : List Cell) (hm : Mirror heap) (ha : Acyclic heap) :
    ∀ fuel h this, CacheOnly heap h → (dependents heap this).ncard < fuel →
      ∃ h1, InvalidateCache fuel h this = some h1 ∧ CacheOnly heap h1 := by
  intro fuel
  induction fuel with
  | zero =>
    intro h this _ hlt
    omega
  | succ fuel ih =>
    intro h this hc hlt
    rw [InvalidateCache]
    have hpar : parentsOf h this = parentsOf heap this := (hc.2 this).2.1
    rw [hpar]
    apply foldl_invalidateParent_defined (InvalidateCache fuel) ih
    · intro y hy
      have := dependents_lt_of_parent hm ha hy
      omega
    · exact hc.andThen (CacheOnly_reset h this)

theorem attach_defined (env : Env) (this : Nat) :
    ∀ refs s, (∀ pos, pos ∈ refs → pos.IsValid env ∧ ∃ id, cellAt s pos = some id) →
      ∃ s3, attach env this s refs = .returned s3 := by
  intro refs
  induction refs with
  | nil =>
    intro s _
    exact ⟨s, rfl⟩
  | cons pos rest ih =>
    intro s hall
    obtain ⟨hv, o, ho⟩ := hall pos (List.mem_cons_self _ _)
    simp only [attach, GetCell, hv, if_true, ho]
    apply ih
    intro p hp
    exact hall p (List.mem_cons_of_mem _ hp)

theorem locate_freed (s : Sheet) (pos : Position) : (locate s pos).1.freed = s.freed := by
  unfold locate
  simp only
  split <;> rfl

theorem createReferenced_freed (env : Env) :
    ∀ refs s s2, createReferenced env s refs = .returned s2 → s2.freed = s.freed := by
  intro refs
  induction refs with
  | nil =>
    intro s s2 h
    simp only [createReferenced, Run.returned.injEq] at h
    subst h
    rfl
  | cons pos rest ih =>
    intro s s2 h
    by_cases hv : pos.IsValid env
    · cases hcell : cellAt s pos with
      | some o =>
        simp only [createReferenced, GetCell, hv, if_true, hcell] at h
        exact ih s s2 h
      | none =>
        simp only [createReferenced, GetCell, hv, if_true, hcell, SetCellEmpty] at h
        rw [ih _ s2 h]
        exact locate_freed s pos
    · simp [createReferenced, GetCell, hv] at h

theorem attach_freed (env : Env) (this : Nat) :
    ∀ refs s s3, attach env this s refs = .returned s3 → s3.freed = s.freed := by
  intro refs
  induction refs with
  | nil =>
    intro s s3 h
    simp only [attach, Run.returned.injEq] at h
    subst h
    rfl
  | cons pos rest ih =>
    intro s s3 h
    by_cases hv : pos.IsValid env
    · cases hcell : cellAt s pos with
      | none => simp [attach, GetCell, hv, hcell] at h
      | some o =>
        simp only [attach, GetCell, hv, if_true, hcell] at h
        exact ih { s with heap := link this s.heap o } s3 h
    · simp [attach, GetCell, hv] at h

theorem not_mem_freed_of_nil {s : Sheet} (h : s.freed = []) (l : List Nat) :
    ¬ ∃ x ∈ l, x ∈ s.freed := by
  rintro ⟨x, _, hx⟩
  rw [h] at hx
  cases hx

/-- On a sheet that satisfies the invariant and on which no cell was destroyed,
`SetCell` has a defined result: it returns or throws, neither recursion runs
out of its bound and no destroyed object is touched. -/
theorem SetCell_no_fault {env : Env} {s : Sheet} (hinv : Inv s) (hfreed : s.freed = [])
    (pos : Position) (text : String) (flt : Fault) : SetCell env s pos text ≠ .fault flt := by
  intro h
  have hf0 : (locate s pos).1.freed = [] := by rw [locate_freed, hfreed]
  unfold SetCell at h
  split at h
  · next hv =>
    obtain ⟨hinv0, hthis⟩ := Inv_locate hinv pos hv.1 hv.2.1
    unfold Cell.Set at h
    split at h
    · cases h
    · split at h
      · unfold CreateFormulaImpl at h
        cases hp : env.ParseFormula (substr1 text) with
        | none => rw [hp] at h; cases h
        | some f =>
          rw [hp] at h
          simp only at h
          rw [if_neg (not_mem_freed_of_nil hf0 _)] at h
          cases hcyc : IsCyclic env (locate s pos).1 (locate s pos).2 (.FormulaImpl f none) with
          | threw e1 l1 => rw [hcyc] at h; cases h
          | fault f1 => exact IsCyclic_no_fault hinv0.mirror hthis f1 hcyc
          | returned b =>
            cases b with
            | true => rw [hcyc] at h; cases h
            | false =>
              rw [hcyc] at h
              simp only [Impl.GetReferencedCells] at h
              have hvalid := (IsCyclic_false hcyc).1
              simp only [Impl.GetReferencedCells] at hvalid
              obtain ⟨s2, k, hcr, _, _, _, e5, _, _, _⟩ :=
                createReferenced_spec env f.referenced
                  (setImpl (locate s pos).1 (locate s pos).2 (.FormulaImpl f none)) hvalid
              rw [hcr] at h
              simp only at h
              obtain ⟨b1, b2, b3, b4, b5, b6⟩ := before_rewiring hinv0 hvalid hcr
              have himpl : implOf s2.heap (locate s pos).2 = .FormulaImpl f none := by
                rw [b6 _ hthis, if_pos rfl]
              obtain ⟨s3, hatt⟩ := attach_defined env (locate s pos).2 f.referenced
                { s2 with heap := detachAll s2.heap (locate s pos).2 }
                (fun p hp => ⟨hvalid p hp, e5 p hp⟩)
              have hatt2 : attach env (locate s pos).2
                  { s2 with heap := detachAll s2.heap (locate s pos).2 }
                  (implOf s2.heap (locate s pos).2).GetReferencedCells = .returned s3 := by
                rw [himpl]
                exact hatt
              obtain ⟨r1, r2, r3, r4, r5, r6⟩ := rewire_spec env s2 (locate s pos).2 s3 hatt2
                (by omega) b4 (Mirror_congr b1 b2 hinv0.mirror)
              rw [himpl] at r5
              simp only [Impl.GetReferencedCells] at r5
              have hacyc := acyclic_after_rewire hinv0 hthis hcyc hcr s3.heap r5
              obtain ⟨h4, hinv4, _⟩ := InvalidateCache_defined s3.heap r6 hacyc s3.heap.length
                s3.heap (locate s pos).2 (CacheOnly.refl _)
                (dependents_ncard_lt r6 hacyc (by rw [r3]; omega))
              have hf2 : s2.freed = [] := by
                rw [createReferenced_freed env _ _ _ hcr]
                exact hf0
              have hf3 : s3.freed = [] := by
                rw [attach_freed env _ _ _ _ hatt2]
                exact hf2
              unfold UpdateDependencies at h
              rw [if_neg (not_mem_freed_of_nil hf2 _), implOf_detachAll, hatt2] at h
              simp only at h
              rw [if_neg (not_mem_freed_of_nil hf3 _), hinv4] at h
              cases h
      · cases h
  · cases h

/-! ## Examples -/

theorem sheetABC_reachable : ReachableBySet sampleEnv sheetABC :=
  ReachableBySet.set C1 "c" (s := sheetAB)
    (ReachableBySet.set B1 "b" (s := sheetA)
      (ReachableBySet.set A1 "a" ReachableBySet.init (by decide)) (by decide)) (by decide)

/-- C1, failing input: after `SetCell(A1, "=B1")` and `ClearCell(B1)` the cell
at `A1` still reads `B1`, the formula `=A1` references `A1`, and yet
`SetCell(B1, "=A1")` returns instead of throwing
`CircularDependencyException`. -/
theorem C1_cycle_accepted_after_clear :
    SetCell sampleEnv Sheet.empty A1 "=B1" = .returned sheetA1readsB1 ∧
      ClearCell sampleEnv sheetA1readsB1 B1 = .returned sheetB1cleared ∧
      (∃ a, cellAt sheetB1cleared A1 = some a ∧
        B1 ∈ (implOf sheetB1cleared.heap a).GetReferencedCells) ∧
      sampleEnv.ParseFormula "A1" = some ⟨"A1", [A1]⟩ ∧
      SetCell sampleEnv sheetB1cleared B1 "=A1" = .returned sheetCycle := by
  refine ⟨by decide, by decide, ⟨0, by decide, by decide⟩, by decide, by decide⟩

/-- C3, failing input: with `A1 = "1"`, `B1 = "=A1+1"` and the value of `B1`
read and cached, `SetCell(A1, "2")` returns and the cache of `B1`, whose
formula reads `A1`, still holds the old value. -/
theorem C3_text_edit_keeps_dependent_cache :
    SetCell sampleEnv Sheet.empty A1 "1" = .returned ⟨[⟨.TextImpl "1", [], []⟩], [[some 0]], ⟨1, 1⟩, []⟩ ∧
      SetCell sampleEnv ⟨[⟨.TextImpl "1", [], []⟩], [[some 0]], ⟨1, 1⟩, []⟩ B1 "=A1+1"
        = .returned sheetChain ∧
      Cell.GetValue sheetChain 1 (.number 2) = (some (.formula (.number 2)), sheetChainRead) ∧
      SetCell sampleEnv sheetChainRead A1 "2" = .returned sheetChainEdited ∧
      cellAt sheetChainEdited B1 = some 1 ∧
      implOf sheetChainEdited.heap 1 = .FormulaImpl ⟨"A1+1", [A1]⟩ (some (.number 2)) := by
  refine ⟨by decide, by decide, by decide, by decide, by decide, by decide⟩

/-- C5, failing input: with `A1`, `B1` and `C1` written, `ClearCell(B1)`
returns and the cell at `C1`, a position different from `B1`, is gone. -/
theorem C5_clear_removes_other_cell :
    ReachableBySet sampleEnv sheetABC ∧
      ClearCell sampleEnv sheetABC B1 = .returned sheetABCcleared ∧
      GetCell sampleEnv sheetABC C1 = .returned (some 2) ∧
      GetCell sampleEnv sheetABCcleared C1 = .returned none :=
  ⟨sheetABC_reachable, by decide, by decide, by decide⟩

/-- C6, failing input: with `A1`, `B1` and `C1` written, after `ClearCell(B1)`
the only position holding a cell is `A1`, whose bounding box is `(1, 1)`, and
`GetPrintableSize` is `(1, 2)`. -/
theorem C6_size_not_bounding_box_after_clear :
    ClearCell sampleEnv sheetABC B1 = .returned sheetABCcleared ∧
      (∀ q id, cellAt sheetABCcleared q = some id → q = A1) ∧
      GetPrintableSize sheetABCcleared = ⟨1, 2⟩ := by
  refine ⟨by decide, ?_, rfl⟩
  intro q id hq
  obtain ⟨hr, hc⟩ := cellAt_nonneg hq
  rw [cellAt_eq_slot _ _ hr hc] at hq
  obtain ⟨h1, h2⟩ := slot_lt hq
  obtain ⟨qr, qc⟩ := q
  simp only [sheetABCcleared, List.length_singleton] at h1 h2 hq hr hc
  have hqr : qr = 0 := by omega
  subst hqr
  simp only [Int.toNat_zero, List.getD_cons_zero, List.length_cons, List.length_nil] at h2
  have hqc : qc = 0 ∨ qc = 1 := by omega
  rcases hqc with h | h
  · subst h
    rfl
  · subst h
    simp [slot] at hq

/-- C8, failing input: with `A1 = "x"` and `B2 = "=A1"` the printable size is
`(2, 2)` and `PrintTexts` writes `x`, newline, tab, `=A1`, newline: the first
line has one field and no tab. -/
theorem C8_first_line_not_padded :
    SetCell sampleEnv Sheet.empty A1 "x" = .returned ⟨[⟨.TextImpl "x", [], []⟩], [[some 0]], ⟨1, 1⟩, []⟩ ∧
      SetCell sampleEnv ⟨[⟨.TextImpl "x", [], []⟩], [[some 0]], ⟨1, 1⟩, []⟩ B2 "=A1"
        = .returned sheetPrint ∧
      GetPrintableSize sheetPrint = ⟨2, 2⟩ ∧
      PrintTexts sheetPrint = "x\n\t=A1\n" := by
  refine ⟨by decide, by decide, rfl, by decide⟩

/-- Witness of C4: the sheet after `SetCell(A1, "=B1")` is reachable and its
graph is acyclic. -/
theorem C4_graph_acyclic_witness :
    ReachableBySet sampleEnv sheetA1readsB1 ∧
      ∀ a, ¬ Relation.TransGen (childEdge sheetA1readsB1.heap) a a :=
  ⟨ReachableBySet.set A1 "=B1" ReachableBySet.init (by decide),
    C4_graph_acyclic sampleEnv sheetA1readsB1
      (ReachableBySet.set A1 "=B1" ReachableBySet.init (by decide))⟩

/-- Witness of C7: on the sheet holding `A1` only, the far corner is `A1`, and
clearing it leaves the printable size `(0, 0)`. -/
theorem C7_clear_far_corner_witness :
    ReachableBySet sampleEnv sheetA ∧
      cellAt sheetA ⟨sheetA.size_.rows - 1, sheetA.size_.cols - 1⟩ = some 0 ∧
      ∃ s1, ClearCell sampleEnv sheetA ⟨sheetA.size_.rows - 1, sheetA.size_.cols - 1⟩
          = .returned s1 ∧
        (∀ q, cellAt s1 q =
          if q = ⟨sheetA.size_.rows - 1, sheetA.size_.cols - 1⟩ then none else cellAt sheetA q) ∧
        IsBoundingBox s1 (GetPrintableSize s1) ∧
        ((∀ q, q ≠ ⟨sheetA.size_.rows - 1, sheetA.size_.cols - 1⟩ → cellAt sheetA q = none) →
          GetPrintableSize s1 = ⟨0, 0⟩) :=
  ⟨ReachableBySet.set A1 "a" ReachableBySet.init (by decide), by decide,
    C7_clear_far_corner sampleEnv sheetA 0
      (ReachableBySet.set A1 "a" ReachableBySet.init (by decide)) (by decide)⟩

/-- Witness of C9: `SetCell(A1, "=B5")` on the empty sheet returns, and `B5`,
absent before, then holds a cell with empty text and value inside the
printable area. -/
theorem C9_referenced_cells_present_witness :
    Reachable sampleEnv Sheet.empty ∧ IsFormula "=B5" = true ∧
      sampleEnv.ParseFormula (substr1 "=B5") = some ⟨"B5", [B5]⟩ ∧
      SetCell sampleEnv Sheet.empty A1 "=B5" = .returned sheetA1readsB5 ∧
      ∀ q, q ∈ [B5] → ∃ id, GetCell sampleEnv sheetA1readsB5 q = .returned (some id) ∧
        (cellAt Sheet.empty q = none →
          Cell.GetText sheetA1readsB5 id = some "" ∧
          (∀ evaluated, (Cell.GetValue sheetA1readsB5 id evaluated).1 = some (.str "")) ∧
          q.row < (GetPrintableSize sheetA1readsB5).rows ∧
          q.col < (GetPrintableSize sheetA1readsB5).cols) :=
  ⟨Reachable.init, by decide, by decide, by decide,
    C9_referenced_cells_present sampleEnv Sheet.empty A1 "=B5" ⟨"B5", [B5]⟩ sheetA1readsB5
      Reachable.init (by decide) (by decide) (by decide)⟩

/-- Witness of C10: `SetCell(A1, t)` on the empty sheet, `t` being the escape
sign followed by `123`: the text is `t` and the value is the string `123`. -/
theorem C10_plain_text_roundtrip_witness :
    Reachable sampleEnv Sheet.empty ∧ A1.IsValid sampleEnv ∧
      escaped123.data.head? ≠ some FORMULA_SIGN ∧
      ∃ s1 id, SetCell sampleEnv Sheet.empty A1 escaped123 = .returned s1 ∧
        GetCell sampleEnv s1 A1 = .returned (some id) ∧
        Cell.GetText s1 id = some escaped123 ∧
        ∀ evaluated, (Cell.GetValue s1 id evaluated).1 = some (.str "123") := by
  refine ⟨Reachable.init, by decide, by decide, ?_⟩
  obtain ⟨s1, id, h1, h2, h3, h4⟩ := C10_plain_text_roundtrip sampleEnv Sheet.empty A1 escaped123
    Reachable.init (by decide) (Or.inr (Or.inl (by decide)))
  refine ⟨s1, id, h1, h2, h3, ?_⟩
  intro evaluated
  rw [h4 evaluated]
  decide

/-! ## Claims on positions, edges and safety -/

theorem cellAt_locate_self (s : Sheet) (pos : Position) (hr : 0 ≤ pos.row) (hc : 0 ≤ pos.col) :
    cellAt (locate s pos).1 pos = some (locate s pos).2 := by
  obtain ⟨l1, _, _⟩ := locate_spec s pos hr hc
  rw [cellAt_eq_slot _ _ hr hc, l1, if_pos ⟨rfl, rfl⟩]

theorem sheetStale_reachable : ReachableBySet sampleEnv sheetStale :=
  ReachableBySet.set A1 "x" (s := sheetA1readsB1)
    (ReachableBySet.set A1 "=B1" ReachableBySet.init (by decide)) (by decide)

/-- C12, failing input: after `SetCell(A1, "=B1")` and `SetCell(A1, "x")` the
content of the cell at `A1` is the text `x`, not a formula, and its `childs_`
still holds the cell of `B1`, whose `parents_` still holds the cell of `A1`. -/
theorem C12_text_cell_keeps_children :
    ReachableBySet sampleEnv sheetStale ∧
      cellAt sheetStale A1 = some 0 ∧ cellAt sheetStale B1 = some 1 ∧
      implOf sheetStale.heap 0 = .TextImpl "x" ∧
      childsOf sheetStale.heap 0 = [1] ∧ parentsOf sheetStale.heap 1 = [0] :=
  ⟨sheetStale_reachable, by decide, by decide, by decide, by decide, by decide⟩

/-- C13, failing input: with `A1` first set to `=B1` and then to the text `x`,
`SetCell(B1, "=A1")` is rejected with `CircularDependencyException` although
the only referenced position, `A1`, is not `B1` and holds a cell whose content
is a text that references nothing. -/
theorem C13_rejected_without_cycle :
    ReachableBySet sampleEnv sheetStale ∧
      sampleEnv.ParseFormula (substr1 "=A1") = some ⟨"A1", [A1]⟩ ∧
      A1 ≠ B1 ∧ cellAt sheetStale A1 = some 0 ∧
      (implOf sheetStale.heap 0).GetReferencedCells = [] ∧
      SetCell sampleEnv sheetStale B1 "=A1"
        = .threw .CircularDependencyException sheetStale :=
  ⟨sheetStale_reachable, by decide, by decide, by decide, by decide, by decide⟩

/-- C15: for every sheet and every invalid position, `SetCell`, `GetCell` and
`ClearCell` each throw `InvalidPositionException` and leave the whole sheet
(heap, grid and printable size) as it was. -/
theorem C15_invalid_position_rejected (env : Env) (s : Sheet) (pos : Position) (text : String)
    (hpos : ¬ pos.IsValid env) :
    SetCell env s pos text = .threw .InvalidPositionException s ∧
      GetCell env s pos = .threw .InvalidPositionException s ∧
      ClearCell env s pos = .threw .InvalidPositionException s := by
  refine ⟨?_, ?_, ?_⟩
  · unfold SetCell
    rw [if_neg hpos]
  · unfold GetCell
    rw [if_neg hpos]
  · unfold ClearCell
    rw [if_neg hpos]

/-- Witness of C15: the position of row -1 on the sheet holding `A1`. -/
theorem C15_invalid_position_rejected_witness :
    ¬ outside.IsValid sampleEnv ∧
      (SetCell sampleEnv sheetA outside "a" = .threw .InvalidPositionException sheetA ∧
        GetCell sampleEnv sheetA outside = .threw .InvalidPositionException sheetA ∧
        ClearCell sampleEnv sheetA outside = .threw .InvalidPositionException sheetA) :=
  ⟨by decide, C15_invalid_position_rejected sampleEnv sheetA outside "a" (by decide)⟩

/-- C19: in every state reachable from the empty sheet by `SetCell` calls, the
two edge directions mirror each other: `b` is in `a.childs_` if and only if `a`
is in `b.parents_`. -/
theorem C19_edges_mirror (env : Env) (s : Sheet) (hs : ReachableBySet env s) :
    ∀ a b, b ∈ childsOf s.heap a ↔ a ∈ parentsOf s.heap b :=
  hs.reachable.inv.mirror

/-- Witness of C19: the sheet after `SetCell(A1, "=B1")`. -/
theorem C19_edges_mirror_witness :
    ReachableBySet sampleEnv sheetA1readsB1 ∧
      ∀ a b, b ∈ childsOf sheetA1readsB1.heap a ↔ a ∈ parentsOf sheetA1readsB1.heap b :=
  ⟨ReachableBySet.set A1 "=B1" ReachableBySet.init (by decide),
    C19_edges_mirror sampleEnv sheetA1readsB1
      (ReachableBySet.set A1 "=B1" ReachableBySet.init (by decide))⟩

/-- C20, failing input: with `A1` and `B1` written, `ClearCell(A1)` on the
valid position `A1`, which holds a cell, pops `B1`, wraps the column index and
reads the row, still of size 1, at index `2^64 - 1`. -/
theorem C20_clear_reads_out_of_range :
    ReachableBySet sampleEnv sheetAB ∧ A1.IsValid sampleEnv ∧
      cellAt sheetAB A1 = some 0 ∧
      popBackWhile (fun c : Option Nat => c.isNone) 1 [none] (decSizeT 0)
        = .fault .outOfRange ∧
      ClearCell sampleEnv sheetAB A1 = .fault .outOfRange :=
  ⟨ReachableBySet.set B1 "b" (s := sheetA)
      (ReachableBySet.set A1 "a" ReachableBySet.init (by decide)) (by decide),
    by decide, by decide, by decide, by decide⟩

theorem IsFormula_iff (text : String) :
    IsFormula text = true ↔ text.length > 1 ∧ text.data.head? = some FORMULA_SIGN := by
  unfold IsFormula
  have hlen : text.length = text.data.length := rfl
  rw [hlen]
  simp

theorem GetText_setImpl {s : Sheet} {this : Nat} (hthis : this < s.heap.length) (impl : Impl) :
    Cell.GetText (setImpl s this impl) this = some impl.GetText := by
  rw [Cell_GetText_eq (by rw [setImpl_heap_length]; exact hthis), implOf_setImpl _ _ _ hthis,
    if_pos rfl]

/-- C14: `Cell::Set` on an allocated cell of a reachable sheet classifies its
text. The empty string makes the content empty, with text `""`. A string
longer than one character that begins with `=` is parsed from the remainder
after the `=`: the call throws `FormulaException` when the parser rejects the
remainder, and whenever it returns the content is the formula the parser made
of the remainder. Every other string, the one-character string `=` included,
becomes the text content, stored verbatim. -/
theorem C14_set_classifies_text (env : Env) (s : Sheet) (this : Nat) (text : String)
    (hs : Reachable env s) (hthis : this < s.heap.length) :
    (text = "" →
        Cell.Set env s this text = .returned (setImpl s this .EmptyImpl) ∧
        Cell.GetText (setImpl s this .EmptyImpl) this = some "") ∧
      (text.length > 1 → text.data.head? = some FORMULA_SIGN →
        (env.ParseFormula (substr1 text) = none →
          Cell.Set env s this text = .threw .FormulaException s) ∧
        ∀ s4, Cell.Set env s this text = .returned s4 →
          ∃ f, env.ParseFormula (substr1 text) = some f ∧
            implOf s4.heap this = .FormulaImpl f none) ∧
      (text ≠ "" → ¬ (text.length > 1 ∧ text.data.head? = some FORMULA_SIGN) →
        Cell.Set env s this text = .returned (setImpl s this (.TextImpl text)) ∧
        Cell.GetText (setImpl s this (.TextImpl text)) this = some text) ∧
      Cell.Set env s this "=" = .returned (setImpl s this (.TextImpl "=")) := by
  refine ⟨?_, ?_, ?_, ?_⟩
  · intro ht
    subst ht
    exact ⟨rfl, GetText_setImpl hthis _⟩
  · intro hlen hhead
    have hf : IsFormula text = true := (IsFormula_iff text).mpr ⟨hlen, hhead⟩
    have hne := IsFormula_data_ne_nil hf
    refine ⟨?_, ?_⟩
    · intro hp
      unfold Cell.Set CreateFormulaImpl
      rw [if_neg hne, if_pos hf, hp]
    · intro s4 hset
      obtain ⟨f, s2, hp, hcyc, hcr, hupd⟩ := Cell_Set_formula_returned hset hne hf
      obtain ⟨hvalid, _⟩ := IsCyclic_false hcyc
      simp only [Impl.GetReferencedCells] at hvalid
      obtain ⟨b1, b2, b3, b4, b5, b6⟩ := before_rewiring hs.inv hvalid hcr
      obtain ⟨u1, u2, u3, u4, u5, u6⟩ :=
        UpdateDependencies_spec env s2 this s4 hupd (by omega) b4
          (Mirror_congr b1 b2 hs.inv.mirror)
      have himpl : implOf s2.heap this = .FormulaImpl f none := by
        rw [b6 this hthis, if_pos rfl]
      refine ⟨f, hp, ?_⟩
      rcases u4 this with h | h
      · rw [h, himpl]
      · rw [h, himpl]
        rfl
  · intro hne hnf
    have hdata : text.data ≠ [] := by
      intro hnil
      exact hne (String.ext hnil)
    have hf : ¬ IsFormula text = true := fun h => hnf ((IsFormula_iff text).mp h)
    refine ⟨?_, GetText_setImpl hthis _⟩
    unfold Cell.Set
    rw [if_neg hdata, if_neg hf]
  · rfl

/-- Witness of C14: `Cell::Set` on the cell of `A1` of the sheet holding `A1`,
with the text `=B1`. -/
theorem C14_set_classifies_text_witness :
    Reachable sampleEnv sheetA ∧ 0 < sheetA.heap.length ∧
      (("=B1" : String).length > 1 ∧ ("=B1" : String).data.head? = some FORMULA_SIGN) ∧
      (∃ s4, Cell.Set sampleEnv sheetA 0 "=B1" = .returned s4) ∧
      ∀ s4, Cell.Set sampleEnv sheetA 0 "=B1" = .returned s4 →
        ∃ f, sampleEnv.ParseFormula (substr1 "=B1") = some f ∧
          implOf s4.heap 0 = .FormulaImpl f none :=
  ⟨(ReachableBySet.set A1 "a" ReachableBySet.init (by decide)).reachable, by decide,
    ⟨by decide, by decide⟩, ⟨_, rfl⟩,
    ((C14_set_classifies_text sampleEnv sheetA 0 "=B1"
      (ReachableBySet.set A1 "a" ReachableBySet.init (by decide)).reachable
      (by decide)).2.1 (by decide) (by decide)).2⟩

theorem locate_edges (s : Sheet) (pos : Position) (hr : 0 ≤ pos.row) (hc : 0 ≤ pos.col) :
    (∀ x, childsOf (locate s pos).1.heap x = childsOf s.heap x) ∧
      ∀ x, parentsOf (locate s pos).1.heap x = parentsOf s.heap x := by
  obtain ⟨_, l2, _⟩ := locate_spec s pos hr hc
  rcases l2 with ⟨_, h⟩ | ⟨_, h, _⟩
  · rw [h]
    exact ⟨fun _ => rfl, fun _ => rfl⟩
  · rw [h]
    exact ⟨childsOf_append_blank s.heap, parentsOf_append_blank s.heap⟩

/-- C17: on a reachable sheet, after a returning `SetCell(pos, text)` whose
text is a formula with parsed form `f`, the cell `A` at `pos` has as children
exactly the cells at the positions `f` references; `A` is in the `parents_` of
each of these cells; `A` is in the `parents_` of no former child that the new
formula does not reference; for every other cell the children are as before
the call and its membership in every `parents_` set is as before; and the
membership of `A` in the `parents_` of a cell that is neither referenced nor a
former child is as before. -/
theorem C17_edges_after_commit (env : Env) (s : Sheet) (pos : Position) (text : String)
    (f : FormulaInterface) (s4 : Sheet) (hs : Reachable env s)
    (hform : IsFormula text = true) (hparse : env.ParseFormula (substr1 text) = some f)
    (hset : SetCell env s pos text = .returned s4) :
    ∃ A, cellAt s4 pos = some A ∧
      (∀ b, b ∈ childsOf s4.heap A ↔ ∃ q, q ∈ f.referenced ∧ cellAt s4 q = some b) ∧
      (∀ b, (∃ q, q ∈ f.referenced ∧ cellAt s4 q = some b) → A ∈ parentsOf s4.heap b) ∧
      (∀ b, b ∈ childsOf s.heap A → (¬ ∃ q, q ∈ f.referenced ∧ cellAt s4 q = some b) →
        A ∉ parentsOf s4.heap b) ∧
      (∀ a b, a ≠ A → (b ∈ childsOf s4.heap a ↔ b ∈ childsOf s.heap a)) ∧
      (∀ a b, a ≠ A → (a ∈ parentsOf s4.heap b ↔ a ∈ parentsOf s.heap b)) ∧
      (∀ b, b ∉ childsOf s.heap A → (¬ ∃ q, q ∈ f.referenced ∧ cellAt s4 q = some b) →
        (A ∈ parentsOf s4.heap b ↔ A ∈ parentsOf s.heap b)) := by
  unfold SetCell at hset
  split at hset
  · next hv =>
    obtain ⟨hinv0, hthis⟩ := Inv_locate hs.inv pos hv.1 hv.2.1
    obtain ⟨g1, g2⟩ := locate_edges s pos hv.1 hv.2.1
    obtain ⟨f1, s2, hp, hcyc, hcr, hupd⟩ :=
      Cell_Set_formula_returned hset (IsFormula_data_ne_nil hform) hform
    rw [hparse] at hp
    simp only [Option.some.injEq] at hp
    subst hp
    obtain ⟨hvalid, _⟩ := IsCyclic_false hcyc
    simp only [Impl.GetReferencedCells] at hvalid
    obtain ⟨t, k, e1, e2, e3, e4, e5, e6, e7, e8⟩ :=
      createReferenced_spec env f.referenced (setImpl (locate s pos).1 (locate s pos).2
        (.FormulaImpl f none)) hvalid
    rw [hcr] at e1
    simp only [Run.returned.injEq] at e1
    subst e1
    obtain ⟨b1, b2, b3, b4, b5, b6⟩ := before_rewiring hinv0 hvalid hcr
    obtain ⟨u1, u2, u3, u4, u5, u6⟩ :=
      UpdateDependencies_spec env s2 (locate s pos).2 s4 hupd (by omega) b4
        (Mirror_congr b1 b2 hinv0.mirror)
    have himpl : implOf s2.heap (locate s pos).2 = .FormulaImpl f none := by
      rw [b6 _ hthis, if_pos rfl]
    rw [himpl] at u5
    simp only [Impl.GetReferencedCells] at u5
    have hcell4 : ∀ p, cellAt s4 p = cellAt s2 p :=
      cellAt_congr (fun r c => by rw [u1])
    have hchild : ∀ b, b ∈ childsOf s4.heap (locate s pos).2 ↔
        ∃ q, q ∈ f.referenced ∧ cellAt s4 q = some b := by
      intro b
      rw [u5, if_pos rfl]
      simp only [hcell4]
    have hother : ∀ a b, a ≠ (locate s pos).2 →
        (b ∈ childsOf s4.heap a ↔ b ∈ childsOf s.heap a) := by
      intro a b ha
      rw [u5, if_neg ha, b1, g1]
    refine ⟨(locate s pos).2, ?_, hchild, ?_, ?_, hother, ?_, ?_⟩
    · rw [hcell4, cellAt_eq_slot _ _ hv.1 hv.2.1]
      apply e3
      have h0 := cellAt_locate_self s pos hv.1 hv.2.1
      rw [cellAt_eq_slot _ _ hv.1 hv.2.1] at h0
      exact h0
    · intro b hb
      exact (u6 _ _).mp ((hchild b).mpr hb)
    · intro b _ hnot hpar
      exact hnot ((hchild b).mp ((u6 _ _).mpr hpar))
    · intro a b ha
      rw [← u6 a b, hother a b ha]
      exact hs.inv.mirror a b
    · intro b hnc hnot
      constructor
      · intro hpar
        exact absurd ((hchild b).mp ((u6 _ _).mpr hpar)) hnot
      · intro hpar
        exact absurd ((hs.inv.mirror _ _).mpr hpar) hnc
  · cases hset

/-- Witness of C17: on the sheet where `A1` reads `B1`, `SetCell(A1, "=B5")`
returns; the former child, the cell of `B1`, is not referenced by the new
formula. -/
theorem C17_edges_after_commit_witness :
    Reachable sampleEnv sheetA1readsB1 ∧ IsFormula "=B5" = true ∧
      sampleEnv.ParseFormula (substr1 "=B5") = some ⟨"B5", [B5]⟩ ∧
      SetCell sampleEnv sheetA1readsB1 A1 "=B5" = .returned sheetA1rereadsB5 ∧
      ∃ A, cellAt sheetA1rereadsB5 A1 = some A ∧
        (∀ b, b ∈ childsOf sheetA1rereadsB5.heap A ↔
          ∃ q, q ∈ [B5] ∧ cellAt sheetA1rereadsB5 q = some b) ∧
        (∀ b, (∃ q, q ∈ [B5] ∧ cellAt sheetA1rereadsB5 q = some b) →
          A ∈ parentsOf sheetA1rereadsB5.heap b) ∧
        (∀ b, b ∈ childsOf sheetA1readsB1.heap A →
          (¬ ∃ q, q ∈ [B5] ∧ cellAt sheetA1rereadsB5 q = some b) →
          A ∉ parentsOf sheetA1rereadsB5.heap b) ∧
        (∀ a b, a ≠ A →
          (b ∈ childsOf sheetA1rereadsB5.heap a ↔ b ∈ childsOf sheetA1readsB1.heap a)) ∧
        (∀ a b, a ≠ A →
          (a ∈ parentsOf sheetA1rereadsB5.heap b ↔ a ∈ parentsOf sheetA1readsB1.heap b)) ∧
        (∀ b, b ∉ childsOf sheetA1readsB1.heap A →
          (¬ ∃ q, q ∈ [B5] ∧ cellAt sheetA1rereadsB5 q = some b) →
          (A ∈ parentsOf sheetA1rereadsB5.heap b ↔ A ∈ parentsOf sheetA1readsB1.heap b)) :=
  ⟨Reachable.set A1 "=B1" Reachable.init (by decide), by decide, by decide, by decide,
    C17_edges_after_commit sampleEnv sheetA1readsB1 A1 "=B5" ⟨"B5", [B5]⟩ sheetA1rereadsB5
      (Reachable.set A1 "=B1" Reachable.init (by decide)) (by decide) (by decide) (by decide)⟩

/-! ## The cycle check: what a positive answer means -/

theorem foldl_visitIncoming_found (visit : Nat → List Nat → Option (Bool × List Nat))
    (l : List Nat) :
    ∀ v v1, l.foldl (visitIncoming visit) (some (false, v)) = some (true, v1) →
      ∃ y, y ∈ l ∧ ∃ v0 v2, visit y v0 = some (true, v2) := by
  induction l with
  | nil =>
    intro v v1 h
    simp at h
  | cons y l ih =>
    intro v v1 h
    rw [List.foldl_cons] at h
    by_cases hy : y ∈ v
    · have hstep : visitIncoming visit (some (false, v)) y = some (false, v) := by
        simp [visitIncoming, hy]
      rw [hstep] at h
      obtain ⟨z, hz, hfound⟩ := ih v v1 h
      exact ⟨z, List.mem_cons_of_mem _ hz, hfound⟩
    · have hstep : visitIncoming visit (some (false, v)) y = visit y v := by
        simp [visitIncoming, hy]
      rw [hstep] at h
      cases hr : visit y v with
      | none =>
        rw [hr, foldl_visitIncoming_none] at h
        cases h
      | some r =>
        obtain ⟨b, v2⟩ := r
        cases b with
        | true => exact ⟨y, List.mem_cons_self _ _, v, v2, hr⟩
        | false =>
          rw [hr] at h
          obtain ⟨z, hz, hfound⟩ := ih v2 v1 h
          exact ⟨z, List.mem_cons_of_mem _ hz, hfound⟩

/-- A positive answer of the search: a referenced cell can be reached from
`current` along `parents_`. -/
theorem VisitCell_true_sound (heap : List Cell) (R : List (Option Nat)) :
    ∀ fuel cur vis vis1, VisitCell heap R fuel cur vis = some (true, vis1) →
      ∃ x, Relation.ReflTransGen (parentEdge heap) cur x ∧ some x ∈ R := by
  intro fuel
  induction fuel with
  | zero =>
    intro cur vis vis1 h
    simp [VisitCell] at h
  | succ fuel ih =>
    intro cur vis vis1 h
    rw [VisitCell] at h
    by_cases hc : some cur ∈ R
    · exact ⟨cur, Relation.ReflTransGen.refl, hc⟩
    · rw [if_neg hc] at h
      obtain ⟨y, hy, v0, v2, hfound⟩ := foldl_visitIncoming_found _ _ _ _ h
      obtain ⟨x, hx, hxR⟩ := ih y v0 v2 hfound
      exact ⟨x, Relation.ReflTransGen.head hy hx, hxR⟩

theorem resolveAll_valid (env : Env) (s : Sheet) :
    ∀ refs, (∀ pos, pos ∈ refs → pos.IsValid env) →
      resolveAll env s refs = .returned (refs.map (cellAt s)) := by
  intro refs
  induction refs with
  | nil =>
    intro _
    rfl
  | cons pos rest ih =>
    intro hall
    have hv : pos.IsValid env := hall pos (List.mem_cons_self _ _)
    simp only [resolveAll, GetCell, hv, if_true,
      ih (fun p hp => hall p (List.mem_cons_of_mem _ hp)), List.map_cons]

theorem resolveAll_invalid (env : Env) (s : Sheet) :
    ∀ refs, (∃ pos, pos ∈ refs ∧ ¬ pos.IsValid env) →
      resolveAll env s refs = .threw .InvalidPositionException s := by
  intro refs
  induction refs with
  | nil =>
    rintro ⟨pos, hpos, _⟩
    cases hpos
  | cons p rest ih =>
    rintro ⟨pos, hpos, hinv⟩
    by_cases hv : p.IsValid env
    · have hrest : ∃ q, q ∈ rest ∧ ¬ q.IsValid env := by
        rcases List.mem_cons.mp hpos with heq | hmem
        · rw [heq] at hinv
          exact absurd hv hinv
        · exact ⟨pos, hmem, hinv⟩
      simp only [resolveAll, GetCell, hv, if_true, ih hrest]
    · simp only [resolveAll, GetCell, hv, if_false]

/-- C16, counterexample: on the one-cell graph of the sheet holding `A1`, with
start cell 0 and the candidate list holding the position of row -1,
`IsCyclic` throws `InvalidPositionException`: it returns neither `true` nor
`false`. -/
theorem C16_invalid_reference_throws :
    ParentsValid sheetA.heap ∧ 0 < sheetA.heap.length ∧
      IsCyclic sampleEnv sheetA 0 (.FormulaImpl ⟨"", [outside]⟩ none)
        = .threw .InvalidPositionException sheetA ∧
      ∀ b, IsCyclic sampleEnv sheetA 0 (.FormulaImpl ⟨"", [outside]⟩ none) ≠ .returned b := by
  refine ⟨?_, by decide, by decide, ?_⟩
  · intro a b hb
    have ha := lt_of_mem_parentsOf hb
    simp only [sheetA, List.length_singleton] at ha
    have h0 : a = 0 := by omega
    subst h0
    simp [sheetA, parentsOf] at hb
  · intro b hb
    have hthrow : IsCyclic sampleEnv sheetA 0 (.FormulaImpl ⟨"", [outside]⟩ none)
        = .threw .InvalidPositionException sheetA := by decide
    rw [hthrow] at hb
    cases hb

/-- C16, amended: on every heap whose `parents_` pointers are addresses of
allocated cells, with or without cycles, for every allocated start cell `A`
and every candidate content `impl`: when every referenced position is valid,
`IsCyclic` returns, and it returns `true` if and only if some cell reachable
from `A` by zero or more `parents_` edges is the cell at a referenced position
(positions holding no cell never match); when no position is referenced it
returns `false`; when positions are referenced and one of them is invalid it
throws `InvalidPositionException` and leaves the sheet as it was. -/
theorem C16_cycle_check_reachability (env : Env) (s : Sheet) (A : Nat) (impl : Impl)
    (hgraph : ParentsValid s.heap) (hA : A < s.heap.length) :
    ((∀ pos, pos ∈ impl.GetReferencedCells → pos.IsValid env) →
        ∃ b, IsCyclic env s A impl = .returned b ∧
          (b = true ↔ ∃ x pos, Relation.ReflTransGen (parentEdge s.heap) A x ∧
            pos ∈ impl.GetReferencedCells ∧ cellAt s pos = some x)) ∧
      (impl.GetReferencedCells = [] → IsCyclic env s A impl = .returned false) ∧
      (impl.GetReferencedCells ≠ [] →
        (∃ pos, pos ∈ impl.GetReferencedCells ∧ ¬ pos.IsValid env) →
        IsCyclic env s A impl = .threw .InvalidPositionException s) := by
  refine ⟨?_, ?_, ?_⟩
  · intro hvalid
    unfold IsCyclic
    by_cases hnil : impl.GetReferencedCells = []
    · rw [if_pos hnil]
      refine ⟨false, rfl, ?_⟩
      constructor
      · intro h
        cases h
      · rintro ⟨x, pos, _, hpos, _⟩
        rw [hnil] at hpos
        cases hpos
    · rw [if_neg hnil, resolveAll_valid env s _ hvalid]
      simp only
      obtain ⟨b, v, hv, _⟩ := VisitCell_defined s.heap (impl.GetReferencedCells.map (cellAt s))
        hgraph s.heap.length A [] hA (by simp) (by rw [unvisited_nil])
      rw [hv]
      refine ⟨b, rfl, ?_⟩
      cases b with
      | true =>
        simp only [true_iff]
        obtain ⟨x, hx, hxR⟩ := VisitCell_true_sound _ _ _ _ _ _ hv
        obtain ⟨pos, hpos, hcell⟩ := List.mem_map.mp hxR
        exact ⟨x, pos, hx, hpos, hcell⟩
      | false =>
        constructor
        · intro h
          cases h
        · rintro ⟨x, pos, hx, hpos, hcell⟩
          exfalso
          refine VisitCell_false_sound hv x hx ?_
          rw [← hcell]
          exact List.mem_map_of_mem _ hpos
  · intro hnil
    unfold IsCyclic
    rw [if_pos hnil]
  · intro hne hbad
    unfold IsCyclic
    rw [if_neg hne, resolveAll_invalid env s _ hbad]

/-- Witness of C16: on the sheet where `A1` reads `B1`, the search from the
cell of `B1` for the candidate `=A1` answers `true`. -/
theorem C16_cycle_check_reachability_witness :
    ParentsValid sheetA1readsB1.heap ∧ 1 < sheetA1readsB1.heap.length ∧
      (∀ pos, pos ∈ [A1] → pos.IsValid sampleEnv) ∧
      ∃ b, IsCyclic sampleEnv sheetA1readsB1 1 (.FormulaImpl ⟨"A1", [A1]⟩ none) = .returned b ∧
        (b = true ↔ ∃ x pos, Relation.ReflTransGen (parentEdge sheetA1readsB1.heap) 1 x ∧
          pos ∈ [A1] ∧ cellAt sheetA1readsB1 pos = some x) :=
  ⟨fun _ _ hb => (Reachable.inv (Reachable.set A1 "=B1" Reachable.init
      (by decide : (SetCell sampleEnv Sheet.empty A1 "=B1").state? = some sheetA1readsB1))
      ).mirror.parents_lt hb,
    by decide, by decide,
    (C16_cycle_check_reachability sampleEnv sheetA1readsB1 1 (.FormulaImpl ⟨"A1", [A1]⟩ none)
      (fun _ _ hb => (Reachable.inv (Reachable.set A1 "=B1" Reachable.init
        (by decide : (SetCell sampleEnv Sheet.empty A1 "=B1").state? = some sheetA1readsB1))
        ).mirror.parents_lt hb)
      (by decide)).1 (by decide)⟩

/-! ## Cache invalidation resets exactly the dependents -/

theorem Impl.cached_InvalidateCache (i : Impl) : i.InvalidateCache.cached = none := by
  cases i <;> rfl

theorem implOf_reset (h : List Cell) (this x : Nat) :
    implOf (modifyCell h this (fun c => { c with impl_ := c.impl_.InvalidateCache })) x
      = if x = this then (implOf h x).InvalidateCache else implOf h x := by
  by_cases hx : x = this
  · subst hx
    rw [if_pos rfl]
    by_cases hlt : x < h.length
    · exact implOf_modifyCell_self h x Impl.InvalidateCache hlt
    · have hnone : h[x]? = none := List.getElem?_eq_none (by omega)
      unfold modifyCell implOf
      simp only [hnone]
      rfl
  · rw [if_neg hx]
    exact implOf_modifyCell_ne _ _ _ _ hx

theorem foldl_invalidateParent_exact (heap : List Cell)
    (invalidate : List Cell → Nat → Option (List Cell))
    (hinv : ∀ h y h1, (∀ x, parentsOf h x = parentsOf heap x) → invalidate h y = some h1 →
      (∀ x, parentsOf h1 x = parentsOf heap x) ∧
        ResetOn (fun x => Relation.ReflTransGen (parentEdge heap) y x) h h1)
    (l : List Nat) :
    ∀ h h1, (∀ x, parentsOf h x = parentsOf heap x) →
      l.foldl (invalidateParent invalidate) (some h) = some h1 →
      (∀ x, parentsOf h1 x = parentsOf heap x) ∧
        ResetOn (fun x => ∃ y, y ∈ l ∧ Relation.ReflTransGen (parentEdge heap) y x) h h1 := by
  induction l with
  | nil =>
    intro h h1 hp e
    simp only [List.foldl_nil, Option.some.injEq] at e
    subst e
    refine ⟨hp, fun x => ⟨?_, fun _ => rfl⟩⟩
    rintro ⟨y, hy, _⟩
    cases hy
  | cons y l ih =>
    intro h h1 hp e
    rw [List.foldl_cons] at e
    have hstep : invalidateParent invalidate (some h) y = invalidate h y := rfl
    rw [hstep] at e
    cases hr : invalidate h y with
    | none =>
      rw [hr, foldl_invalidateParent_none] at e
      cases e
    | some h2 =>
      rw [hr] at e
      obtain ⟨p2, r2⟩ := hinv h y h2 hp hr
      obtain ⟨p1, r1⟩ := ih h2 h1 p2 e
      refine ⟨p1, fun x => ⟨?_, ?_⟩⟩
      · rintro ⟨z, hz, hreach⟩
        by_cases hl : ∃ y1, y1 ∈ l ∧ Relation.ReflTransGen (parentEdge heap) y1 x
        · rw [(r1 x).1 hl]
          by_cases hy : Relation.ReflTransGen (parentEdge heap) y x
          · rw [(r2 x).1 hy, Impl.InvalidateCache_idem]
          · rw [(r2 x).2 hy]
        · rw [(r1 x).2 hl]
          rcases List.mem_cons.mp hz with heq | hmem
          · rw [heq] at hreach
            exact (r2 x).1 hreach
          · exact absurd ⟨z, hmem, hreach⟩ hl
      · intro hnot
        have hl : ¬ ∃ y1, y1 ∈ l ∧ Relation.ReflTransGen (parentEdge heap) y1 x :=
          fun ⟨y1, h1, h2⟩ => hnot ⟨y1, List.mem_cons_of_mem _ h1, h2⟩
        have hy : ¬ Relation.ReflTransGen (parentEdge heap) y x :=
          fun h2 => hnot ⟨y, List.mem_cons_self _ _, h2⟩
        rw [(r1 x).2 hl, (r2 x).2 hy]

/-- A finished cache invalidation from `this` has reset the caches of exactly
the cells reachable from `this` along `parents_`. -/
theorem InvalidateCache_exact (heap : List Cell) :
    ∀ fuel h this h1, (∀ x, parentsOf h x = parentsOf heap x) →
      InvalidateCache fuel h this = some h1 →
      (∀ x, parentsOf h1 x = parentsOf heap x) ∧
        ResetOn (fun x => Relation.ReflTransGen (parentEdge heap) this x) h h1 := by
  intro fuel
  induction fuel with
  | zero =>
    intro h this h1 _ e
    simp [InvalidateCache] at e
  | succ fuel ih =>
    intro h this h1 hp e
    rw [InvalidateCache] at e
    have hp0 : ∀ x, parentsOf (modifyCell h this
        (fun c => { c with impl_ := c.impl_.InvalidateCache })) x = parentsOf heap x := by
      intro x
      rw [← hp x]
      apply parentsOf_modifyCell
      intro _
      rfl
    obtain ⟨p1, r1⟩ := foldl_invalidateParent_exact heap (InvalidateCache fuel) ih _ _ _ hp0 e
    refine ⟨p1, fun x => ⟨?_, ?_⟩⟩
    · intro hreach
      by_cases hl : ∃ y, y ∈ parentsOf h this ∧ Relation.ReflTransGen (parentEdge heap) y x
      · rw [(r1 x).1 hl, implOf_reset]
        split
        · rw [Impl.InvalidateCache_idem]
        · rfl
      · rw [(r1 x).2 hl, implOf_reset]
        rcases Relation.ReflTransGen.cases_head hreach with heq | ⟨y, hy, hyx⟩
        · rw [if_pos heq.symm]
        · exfalso
          apply hl
          refine ⟨y, ?_, hyx⟩
          rw [hp this]
          exact hy
    · intro hnot
      have hl : ¬ ∃ y, y ∈ parentsOf h this ∧ Relation.ReflTransGen (parentEdge heap) y x := by
        rintro ⟨y, hy, hyx⟩
        apply hnot
        rw [hp this] at hy
        exact Relation.ReflTransGen.head hy hyx
      have hne : x ≠ this := by
        intro heq
        apply hnot
        rw [heq]
      rw [(r1 x).2 hl, implOf_reset, if_neg hne]

theorem dependents_subset_range_of_valid {heap : List Cell} (hv : ParentsValid heap) (x : Nat) :
    dependents heap x ⊆ ((Finset.range heap.length : Finset Nat) : Set Nat) := by
  intro y hy
  simp only [Finset.coe_range, Set.mem_Iio]
  obtain ⟨z, _, hz⟩ := Relation.TransGen.tail'_iff.mp hy
  exact hv z y hz

theorem dependents_lt_of_parent_of_valid {heap : List Cell} (hv : ParentsValid heap)
    (ha : ∀ a, ¬ Relation.TransGen (parentEdge heap) a a) {x y : Nat}
    (hy : y ∈ parentsOf heap x) :
    (dependents heap y).ncard < (dependents heap x).ncard := by
  apply Set.ncard_lt_ncard _
    (Set.Finite.subset (Finset.finite_toSet _) (dependents_subset_range_of_valid hv x))
  rw [Set.ssubset_iff_of_subset]
  · exact ⟨y, Relation.TransGen.single hy, ha y⟩
  · intro z hz
    exact Relation.TransGen.head hy hz

theorem dependents_ncard_lt_of_valid {heap : List Cell} (hv : ParentsValid heap)
    (ha : ∀ a, ¬ Relation.TransGen (parentEdge heap) a a) {x : Nat} (hx : x < heap.length) :
    (dependents heap x).ncard < heap.length := by
  have hcard : (((Finset.range heap.length : Finset Nat) : Set Nat)).ncard = heap.length := by
    rw [Set.ncard_coe_Finset, Finset.card_range]
  rw [← hcard]
  apply Set.ncard_lt_ncard _ (Finset.finite_toSet _)
  rw [Set.ssubset_iff_of_subset (dependents_subset_range_of_valid hv x)]
  exact ⟨x, by simpa using hx, ha x⟩

/-- On a graph without a cycle of `parents_` edges, cache invalidation from
`this` finishes when the bound exceeds the number of dependents of `this`. -/
theorem InvalidateCache_defined_of_valid (heap : List Cell) (hv : ParentsValid heap)
    (ha : ∀ a, ¬ Relation.TransGen (parentEdge heap) a a) :
    ∀ fuel h this, CacheOnly heap h → (dependents heap this).ncard < fuel →
      ∃ h1, InvalidateCache fuel h this = some h1 ∧ CacheOnly heap h1 := by
  intro fuel
  induction fuel with
  | zero =>
    intro h this _ hlt
    omega
  | succ fuel ih =>
    intro h this hc hlt
    rw [InvalidateCache]
    have hpar : parentsOf h this = parentsOf heap this := (hc.2 this).2.1
    rw [hpar]
    apply foldl_invalidateParent_defined (InvalidateCache fuel) ih
    · intro y hy
      have hlt2 := dependents_lt_of_parent_of_valid hv ha hy
      omega
    · exact hc.andThen (CacheOnly_reset h this)

/-- C18: on every heap with valid `parents_` pointers and no cycle of
`parents_` edges, cache invalidation started at an allocated cell `A` finishes
within the bound `UpdateDependencies` gives it; afterwards the cache is reset,
hence absent, for `A` and for every cell reachable from `A` along `parents_`
edges, the content of every other cell is untouched, the content of every cell
is the same up to its cache, and all `childs_` and `parents_` sets are as
before. -/
theorem C18_invalidate_cache_exact (heap : List Cell) (A : Nat) (hv : ParentsValid heap)
    (hacyclic : ∀ a, ¬ Relation.TransGen (parentEdge heap) a a) (hA : A < heap.length) :
    ∃ heap1, InvalidateCache heap.length heap A = some heap1 ∧ heap1.length = heap.length ∧
      (∀ x, Relation.ReflTransGen (parentEdge heap) A x →
        implOf heap1 x = (implOf heap x).InvalidateCache ∧ (implOf heap1 x).cached = none) ∧
      (∀ x, ¬ Relation.ReflTransGen (parentEdge heap) A x → implOf heap1 x = implOf heap x) ∧
      (∀ x, (implOf heap1 x).InvalidateCache = (implOf heap x).InvalidateCache) ∧
      (∀ x, childsOf heap1 x = childsOf heap x ∧ parentsOf heap1 x = parentsOf heap x) := by
  obtain ⟨heap1, hrun, hc⟩ := InvalidateCache_defined_of_valid heap hv hacyclic heap.length heap A
    (CacheOnly.refl heap) (dependents_ncard_lt_of_valid hv hacyclic hA)
  obtain ⟨_, hexact⟩ := InvalidateCache_exact heap heap.length heap A heap1 (fun _ => rfl) hrun
  refine ⟨heap1, hrun, hc.1, ?_, ?_, ?_, ?_⟩
  · intro x hx
    have h1 := (hexact x).1 hx
    refine ⟨h1, ?_⟩
    rw [h1]
    exact Impl.cached_InvalidateCache _
  · intro x hx
    exact (hexact x).2 hx
  · intro x
    rcases (hc.2 x).2.2 with h | h
    · rw [h]
    · rw [h, Impl.InvalidateCache_idem]
  · intro x
    exact ⟨(hc.2 x).1, (hc.2 x).2.1⟩

theorem Inv.parentsValid {s : Sheet} (hinv : Inv s) : ParentsValid s.heap :=
  fun _ _ hb => hinv.mirror.parents_lt hb

theorem Inv.parents_acyclic {s : Sheet} (hinv : Inv s) :
    ∀ a, ¬ Relation.TransGen (parentEdge s.heap) a a :=
  fun a h => hinv.acyclic a ((transGen_parentEdge_iff hinv.mirror a a).mp h)

theorem sheetChainRead_reachable : Reachable sampleEnv sheetChainRead :=
  (by decide : (Cell.GetValue sheetChain 1 (.number 2)).2 = sheetChainRead) ▸
    Reachable.read 1 (.number 2)
      (Reachable.set B1 "=A1+1" (s := ⟨[⟨.TextImpl "1", [], []⟩], [[some 0]], ⟨1, 1⟩, []⟩)
        (Reachable.set A1 "1" Reachable.init (by decide)) (by decide))

/-- Witness of C18: on the sheet where `B1` reads `A1` and holds a cached
value, invalidation from the cell of `A1` resets the cache of `B1`. -/
theorem C18_invalidate_cache_exact_witness :
    ParentsValid sheetChainRead.heap ∧
      (∀ a, ¬ Relation.TransGen (parentEdge sheetChainRead.heap) a a) ∧
      0 < sheetChainRead.heap.length ∧
      InvalidateCache sheetChainRead.heap.length sheetChainRead.heap 0 = some sheetChain.heap ∧
      ∃ heap1, InvalidateCache sheetChainRead.heap.length sheetChainRead.heap 0 = some heap1 ∧
        heap1.length = sheetChainRead.heap.length ∧
        (∀ x, Relation.ReflTransGen (parentEdge sheetChainRead.heap) 0 x →
          implOf heap1 x = (implOf sheetChainRead.heap x).InvalidateCache ∧
            (implOf heap1 x).cached = none) ∧
        (∀ x, ¬ Relation.ReflTransGen (parentEdge sheetChainRead.heap) 0 x →
          implOf heap1 x = implOf sheetChainRead.heap x) ∧
        (∀ x, (implOf heap1 x).InvalidateCache
          = (implOf sheetChainRead.heap x).InvalidateCache) ∧
        (∀ x, childsOf heap1 x = childsOf sheetChainRead.heap x ∧
          parentsOf heap1 x = parentsOf sheetChainRead.heap x) :=
  ⟨sheetChainRead_reachable.inv.parentsValid, sheetChainRead_reachable.inv.parents_acyclic,
    by decide, by decide,
    C18_invalidate_cache_exact sheetChainRead.heap 0 sheetChainRead_reachable.inv.parentsValid
      sheetChainRead_reachable.inv.parents_acyclic (by decide)⟩

/-! ## Destroyed cells -/

theorem GetValue_freed (s : Sheet) (this : Nat) (evaluated : FormulaValue) :
    (Cell.GetValue s this evaluated).2.freed = s.freed := by
  unfold Cell.GetValue
  split <;> rfl

/-- A returning `Cell::Set` destroys nothing. -/
theorem Cell_Set_freed {env : Env} {s0 : Sheet} {this : Nat} {text : String} {s4 : Sheet}
    (h : Cell.Set env s0 this text = .returned s4) : s4.freed = s0.freed := by
  by_cases hne : text.data = []
  · unfold Cell.Set at h
    rw [if_pos hne] at h
    simp only [Run.returned.injEq] at h
    subst h
    rfl
  · by_cases hf : IsFormula text = true
    · obtain ⟨f, s2, _, _, hcr, hupd⟩ := Cell_Set_formula_returned h hne hf
      obtain ⟨s3, heap4, hatt, _, rfl⟩ := UpdateDependencies_returned hupd
      have h3 := attach_freed env this _ { s2 with heap := detachAll s2.heap this } s3 hatt
      have h2 := createReferenced_freed env _ _ _ hcr
      show s3.freed = s0.freed
      rw [h3]
      exact h2
    · unfold Cell.Set at h
      rw [if_neg hne, if_neg hf] at h
      simp only [Run.returned.injEq] at h
      subst h
      rfl

/-- `SetCell` destroys nothing, whether it returns or throws. -/
theorem SetCell_freed {env : Env} {s s1 : Sheet} {pos : Position} {text : String}
    (hg : GridValid s) (h : (SetCell env s pos text).state? = some s1) :
    s1.freed = s.freed := by
  cases hres : SetCell env s pos text with
  | fault f =>
    rw [hres] at h
    cases h
  | threw e l =>
    rw [hres] at h
    simp only [Run.state?, Option.some.injEq] at h
    subst h
    rcases SetCell_threw hres hg with ⟨_, hl, _⟩ | ⟨_, hl⟩
    · rw [hl]
    · rw [hl]
      exact locate_freed s pos
  | returned t =>
    rw [hres] at h
    simp only [Run.state?, Option.some.injEq] at h
    subst h
    unfold SetCell at hres
    split at hres
    · rw [Cell_Set_freed hres]
      exact locate_freed s pos
    · cases hres

/-- Without `ClearCell` no cell is ever destroyed. -/
theorem ReachableBySet.freed_nil {env : Env} {s : Sheet} (h : ReachableBySet env s) :
    s.freed = [] := by
  induction h with
  | init => rfl
  | set pos text hprev hstep ih =>
    rw [SetCell_freed hprev.reachable.inv.grid hstep]
    exact ih
  | read this evaluated _ ih =>
    rw [GetValue_freed]
    exact ih

/-- On a sheet built without `ClearCell`, `SetCell` has a defined result. -/
theorem SetCell_defined_of_set_only {env : Env} {s : Sheet} (hs : ReachableBySet env s)
    (pos : Position) (text : String) (flt : Fault) : SetCell env s pos text ≠ .fault flt :=
  SetCell_no_fault hs.reachable.inv hs.freed_nil pos text flt

theorem sheetDangling_reachable : Reachable sampleEnv sheetDangling :=
  Reachable.clear B1 (s := sheetC1readsA1withB1)
    (Reachable.set B1 "b" (s := sheetC1readsA1)
      (Reachable.set C1 "=A1" Reachable.init (by decide)) (by decide)) (by decide)

/-- After `SetCell(C1, "=A1")`, `SetCell(B1, "b")` and `ClearCell(B1)` the
object of `C1` is destroyed and the `parents_` of the cell at `A1` still holds
its address.  The cycle check of `SetCell(A1, "=B5")` reads `parents_` of that
object: the call has no defined result. -/
theorem search_reads_destroyed_cell :
    Reachable sampleEnv sheetDangling ∧ cellAt sheetDangling A1 = some 1 ∧
      parentsOf sheetDangling.heap 1 = [0] ∧ 0 ∈ sheetDangling.freed ∧
      SetCell sampleEnv sheetDangling A1 "=B5" = .fault .useAfterFree :=
  ⟨sheetDangling_reachable, by decide, by decide, by decide, by decide⟩

/-- On the same sheet `SetCell(A1, "=A1")` is rejected: the search returns at
the cell of `A1`, which is referenced, before it reads any `parents_`, so the
destroyed object is not touched and the sheet is left as it was. -/
theorem rejection_beside_destroyed_cell :
    SetCell sampleEnv sheetDangling A1 "=A1"
      = .threw .CircularDependencyException sheetDangling := by
  decide

/-- On the same sheet `SetCell(B1, "=B5")` returns: the new cell of `B1` has no
`parents_` and no `childs_`, so the call touches live objects only. -/
theorem edit_beside_destroyed_cell :
    ∃ s4, SetCell sampleEnv sheetDangling B1 "=B5" = .returned s4 ∧ s4.freed = [0] :=
  ⟨_, rfl, rfl⟩

/-- On the same sheet `SetCell(A1, "=1")`, a formula that references nothing,
runs no search; `InvalidateCache()` then recurses into the destroyed object
held by the `parents_` of the cell at `A1`. -/
theorem invalidation_reads_destroyed_cell :
    sampleEnvRow.ParseFormula (substr1 "=1") = some ⟨"1", []⟩ ∧
      SetCell sampleEnvRow sheetDangling A1 "=1" = .fault .useAfterFree :=
  ⟨by decide, by decide⟩

/-- After `SetCell(A1, "=C1")`, `SetCell(B1, "b")` and `ClearCell(B1)` the
object of `C1` is destroyed and the `childs_` of the cell at `A1` still holds
its address.  `SetCell(A1, "=B1")` passes the cycle check, and
`UpdateDependencies` then erases from the `parents_` of the destroyed object:
the call has no defined result. -/
theorem rewiring_writes_destroyed_cell :
    SetCell sampleEnvRow Sheet.empty A1 "=C1" = .returned sheetA1readsC1 ∧
      SetCell sampleEnvRow sheetA1readsC1 B1 "b" = .returned sheetA1readsC1withB1 ∧
      ClearCell sampleEnvRow sheetA1readsC1withB1 B1 = .returned sheetChildDestroyed ∧
      cellAt sheetChildDestroyed A1 = some 0 ∧ childsOf sheetChildDestroyed.heap 0 = [1] ∧
      1 ∈ sheetChildDestroyed.freed ∧
      IsCyclic sampleEnvRow sheetChildDestroyed 0 (.FormulaImpl ⟨"B1", [B1]⟩ none)
        = .returned false ∧
      SetCell sampleEnvRow sheetChildDestroyed A1 "=B1" = .fault .useAfterFree :=
  ⟨by decide, by decide, by decide, by decide, by decide, by decide, by decide, by decide⟩

/-! ## The grid owns live cells -/

theorem Owned_setImpl {s : Sheet} (h : Owned s) (this : Nat) (impl : Impl) :
    Owned (setImpl s this impl) :=
  ⟨h.live, h.single, fun id hid => by
    rw [setImpl_heap_length]
    exact h.allocated id hid⟩

theorem Owned_locate {s : Sheet} (h : Owned s) (hg : GridValid s) (pos : Position)
    (hr : 0 ≤ pos.row) (hc : 0 ≤ pos.col) : Owned (locate s pos).1 := by
  obtain ⟨l1, l2, _⟩ := locate_spec s pos hr hc
  have hfr := locate_freed s pos
  have hnew : ∀ r c, slot s.cells_ r c = some (locate s pos).2 →
      r = pos.row.toNat ∧ c = pos.col.toNat := by
    intro r c hs
    rcases l2 with ⟨hsome, _⟩ | ⟨_, _, hid⟩
    · exact h.single _ _ _ _ _ hs hsome
    · have hlt := hg r c _ hs
      omega
  refine ⟨?_, ?_, ?_⟩
  · intro r c id hs
    rw [hfr]
    rw [l1] at hs
    split at hs
    · simp only [Option.some.injEq] at hs
      subst hs
      rcases l2 with ⟨hsome, _⟩ | ⟨_, _, hid⟩
      · exact h.live _ _ _ hsome
      · intro hmem
        have hlt := h.allocated _ hmem
        omega
    · exact h.live r c id hs
  · intro r c r1 c1 id hs hs1
    rw [l1] at hs hs1
    split at hs
    · next heq =>
      split at hs1
      · next heq1 => exact ⟨heq.1.trans heq1.1.symm, heq.2.trans heq1.2.symm⟩
      · next hne1 =>
        simp only [Option.some.injEq] at hs
        rw [← hs] at hs1
        exact absurd (hnew r1 c1 hs1) hne1
    · next hne =>
      split at hs1
      · simp only [Option.some.injEq] at hs1
        rw [← hs1] at hs
        exact absurd (hnew r c hs) hne
      · exact h.single r c r1 c1 id hs hs1
  · intro id hid
    rw [hfr] at hid
    have hlt := h.allocated id hid
    rcases l2 with ⟨_, hheap⟩ | ⟨_, hheap, _⟩
    · rw [hheap]
      exact hlt
    · rw [hheap, List.length_append]
      omega

theorem Owned_createReferenced (env : Env) :
    ∀ refs s s2, Inv s → Owned s → createReferenced env s refs = .returned s2 → Owned s2 := by
  intro refs
  induction refs with
  | nil =>
    intro s s2 _ ho h
    simp only [createReferenced, Run.returned.injEq] at h
    subst h
    exact ho
  | cons pos rest ih =>
    intro s s2 hinv ho h
    by_cases hv : pos.IsValid env
    · cases hcell : cellAt s pos with
      | some o =>
        simp only [createReferenced, GetCell, hv, if_true, hcell] at h
        exact ih s s2 hinv ho h
      | none =>
        simp only [createReferenced, GetCell, hv, if_true, hcell, SetCellEmpty] at h
        exact ih _ s2 (Inv_setImpl (Inv_locate hinv pos hv.1 hv.2.1).1 _ _)
          (Owned_setImpl (Owned_locate ho hinv.grid pos hv.1 hv.2.1) _ _) h
    · simp [createReferenced, GetCell, hv] at h

theorem UpdateDependencies_freed {env : Env} {s : Sheet} {this : Nat} {s4 : Sheet}
    (h : UpdateDependencies env s this = .returned s4) : s4.freed = s.freed := by
  obtain ⟨s3, heap4, hatt, _, rfl⟩ := UpdateDependencies_returned h
  exact attach_freed env this _ { s with heap := detachAll s.heap this } s3 hatt

theorem Owned_SetCell {env : Env} {s s1 : Sheet} {pos : Position} {text : String}
    (hinv : Inv s) (ho : Owned s) (h : (SetCell env s pos text).state? = some s1) :
    Owned s1 := by
  cases hres : SetCell env s pos text with
  | fault f =>
    rw [hres] at h
    cases h
  | threw e l =>
    rw [hres] at h
    simp only [Run.state?, Option.some.injEq] at h
    subst h
    rcases SetCell_threw hres hinv.grid with ⟨_, hl, _⟩ | ⟨hv, hl⟩
    · rw [hl]
      exact ho
    · rw [hl]
      exact Owned_locate ho hinv.grid pos hv.1 hv.2.1
  | returned t =>
    rw [hres] at h
    simp only [Run.state?, Option.some.injEq] at h
    subst h
    unfold SetCell at hres
    split at hres
    · next hv =>
      obtain ⟨hinv0, hthis⟩ := Inv_locate hinv pos hv.1 hv.2.1
      have ho0 := Owned_locate ho hinv.grid pos hv.1 hv.2.1
      by_cases hne : text.data = []
      · unfold Cell.Set at hres
        rw [if_pos hne] at hres
        simp only [Run.returned.injEq] at hres
        rw [← hres]
        exact Owned_setImpl ho0 _ _
      · by_cases hf : IsFormula text = true
        · obtain ⟨f, s2, _, hcyc, hcr, hupd⟩ := Cell_Set_formula_returned hres hne hf
          obtain ⟨hvalid, _⟩ := IsCyclic_false hcyc
          simp only [Impl.GetReferencedCells] at hvalid
          have ho2 := Owned_createReferenced env _ _ _ (Inv_setImpl hinv0 _ _)
            (Owned_setImpl ho0 _ _) hcr
          obtain ⟨b1, b2, b3, b4, b5, b6⟩ := before_rewiring hinv0 hvalid hcr
          obtain ⟨u1, u2, u3, _⟩ :=
            UpdateDependencies_spec env s2 (locate s pos).2 t hupd (by omega) b4
              (Mirror_congr b1 b2 hinv0.mirror)
          have hfr := UpdateDependencies_freed hupd
          refine ⟨?_, ?_, ?_⟩
          · intro r c id hs
            rw [hfr]
            rw [u1] at hs
            exact ho2.live r c id hs
          · intro r c r1 c1 id hs hs1
            rw [u1] at hs hs1
            exact ho2.single r c r1 c1 id hs hs1
          · intro id hid
            rw [hfr] at hid
            rw [u3]
            exact ho2.allocated id hid
        · unfold Cell.Set at hres
          rw [if_neg hne, if_neg hf] at hres
          simp only [Run.returned.injEq] at hres
          rw [← hres]
          exact Owned_setImpl ho0 _ _
    · cases hres

/-- The objects `ClearCell` destroys were owned by slots of the row of `pos`
that its first loop removed. -/
theorem mem_destroyed {row row1 : List (Option Nat)} {col id : Nat}
    (h : id ∈ destroyed (row.set col none) row1) :
    ∃ j, row1.length ≤ j ∧ row[j]? = some (some id) := by
  unfold destroyed at h
  rw [List.reduceOption_mem_iff] at h
  obtain ⟨k, hk⟩ := List.mem_iff_getElem?.mp h
  rw [List.getElem?_drop, List.getElem?_set] at hk
  refine ⟨row1.length + k, by omega, ?_⟩
  split at hk
  · split at hk <;> cases hk
  · exact hk

theorem Owned_ClearCell {env : Env} {s s1 : Sheet} {pos : Position} (h : Owned s)
    (hg : GridValid s) (hc : (ClearCell env s pos).state? = some s1) : Owned s1 := by
  rcases ClearCell_cases env s pos with ⟨_, hcc⟩ | ⟨_, _, hcc⟩ | ⟨_, _, f, hcc⟩ |
    ⟨_, hex, row1, cells2, h1, h2, hcc⟩
  · rw [hcc] at hc
    simp only [Run.state?, Option.some.injEq] at hc
    subst hc
    exact h
  · rw [hcc] at hc
    simp only [Run.state?, Option.some.injEq] at hc
    subst hc
    exact h
  · rw [hcc] at hc
    cases hc
  · rw [hcc] at hc
    simp only [Run.state?, Option.some.injEq] at hc
    subst hc
    have hp1 := popBackWhile_isPrefix _ _ _ _ _ h1
    have hp2 := popBackWhile_isPrefix _ _ _ _ _ h2
    have hR : pos.row.toNat < s.cells_.length := hex.2.1
    have hslots : ∀ r c id, slot cells2 r c = some id →
        slot s.cells_ r c = some id ∧ (r = pos.row.toNat → c < row1.length) := by
      intro r c id hs
      obtain ⟨row, hrow, hcell⟩ := slot_eq_some_iff.mp hs
      have hrow1 := getElem?_of_isPrefix hp2 hrow
      rw [List.getElem?_set] at hrow1
      split at hrow1
      · next heq =>
        simp only [hR, if_true, Option.some.injEq] at hrow1
        subst hrow1
        have hcell0 := getElem?_of_isPrefix hp1 hcell
        rw [List.getElem?_set] at hcell0
        refine ⟨slot_eq_some_iff.mpr ⟨s.cells_.getD pos.row.toNat [], ?_, ?_⟩, fun _ => ?_⟩
        · rw [← heq, List.getD_eq_getElem?_getD, List.getElem?_eq_getElem hR]
          rfl
        · split at hcell0
          · split at hcell0 <;> cases hcell0
          · exact hcell0
        · by_contra hge
          rw [List.getElem?_eq_none (by omega)] at hcell
          cases hcell
      · next hne =>
        exact ⟨slot_eq_some_iff.mpr ⟨row, hrow1, hcell⟩, fun heq => absurd heq.symm hne⟩
    have hdes : ∀ id, id ∈ destroyed ((s.cells_.getD pos.row.toNat []).set pos.col.toNat none)
        row1 → ∃ j, row1.length ≤ j ∧ slot s.cells_ pos.row.toNat j = some id := by
      intro id hid
      obtain ⟨j, hj, hrow⟩ := mem_destroyed hid
      refine ⟨j, hj, slot_eq_some_iff.mpr ⟨s.cells_.getD pos.row.toNat [], ?_, hrow⟩⟩
      rw [List.getD_eq_getElem?_getD, List.getElem?_eq_getElem hR]
      rfl
    refine ⟨?_, ?_, ?_⟩
    · intro r c id hs hmem
      obtain ⟨hs0, hin⟩ := hslots r c id hs
      rcases List.mem_append.mp hmem with hm | hm
      · exact h.live r c id hs0 hm
      · obtain ⟨j, hj, hsj⟩ := hdes id hm
        obtain ⟨e1, e2⟩ := h.single r c _ j id hs0 hsj
        have hlt := hin e1
        omega
    · intro r c r1 c1 id hs hs1
      exact h.single r c r1 c1 id (hslots r c id hs).1 (hslots r1 c1 id hs1).1
    · intro id hmem
      rcases List.mem_append.mp hmem with hm | hm
      · exact h.allocated id hm
      · obtain ⟨j, _, hsj⟩ := hdes id hm
        exact hg _ _ _ hsj

theorem Owned_GetValue {s : Sheet} (h : Owned s) (this : Nat) (evaluated : FormulaValue) :
    Owned (Cell.GetValue s this evaluated).2 := by
  unfold Cell.GetValue
  split
  · exact Owned_setImpl h _ _
  · exact h

theorem Owned_empty : Owned Sheet.empty := by
  refine ⟨?_, ?_, ?_⟩
  · intro r c id h
    simp [Sheet.empty, slot] at h
  · intro r c r1 c1 id h
    simp [Sheet.empty, slot] at h
  · intro id h
    simp [Sheet.empty] at h

/-- In every reachable sheet the grid owns live objects, each by one slot. -/
theorem Reachable.owned {env : Env} {s : Sheet} (h : Reachable env s) : Owned s := by
  induction h with
  | init => exact Owned_empty
  | set pos text hprev hstep ih => exact Owned_SetCell hprev.inv ih hstep
  | clear pos hprev hstep ih => exact Owned_ClearCell ih hprev.inv.grid hstep
  | read this evaluated _ ih => exact Owned_GetValue ih this evaluated

/-- A pointer `GetCell` returns on a reachable sheet is the address of a live
object: the receivers of `Cell::Set` and the cells `UpdateDependencies` links
are never destroyed objects. -/
theorem cellAt_not_freed {env : Env} {s : Sheet} (hs : Reachable env s) {pos : Position}
    {id : Nat} (h : cellAt s pos = some id) : id ∉ s.freed := by
  obtain ⟨hr, hc⟩ := cellAt_nonneg h
  rw [cellAt_eq_slot _ _ hr hc] at h
  exact hs.owned.live _ _ _ h

/-! ## Which objects a call reads -/

theorem foldl_visitIncoming_reached {heap : List Cell} {cur : Nat}
    (visit : Nat → List Nat → Option (Bool × List Nat))
    (hvisit : ∀ y vis b vis1, visit y vis = some (b, vis1) →
      ∀ x, x ∈ vis1 → x ∈ vis ∨ Relation.ReflTransGen (parentEdge heap) y x)
    (l : List Nat) (hl : ∀ y, y ∈ l → y ∈ parentsOf heap cur) :
    ∀ b0 v b v1, l.foldl (visitIncoming visit) (some (b0, v)) = some (b, v1) →
      ∀ x, x ∈ v1 → x ∈ v ∨ Relation.ReflTransGen (parentEdge heap) cur x := by
  induction l with
  | nil =>
    intro b0 v b v1 h x hx
    simp only [List.foldl_nil, Option.some.injEq, Prod.mk.injEq] at h
    rw [← h.2] at hx
    exact Or.inl hx
  | cons y l ih =>
    intro b0 v b v1 h x hx
    have hl1 : ∀ z, z ∈ l → z ∈ parentsOf heap cur :=
      fun z hz => hl z (List.mem_cons_of_mem _ hz)
    rw [List.foldl_cons] at h
    cases b0 with
    | true =>
      have hstep : visitIncoming visit (some (true, v)) y = some (true, v) := rfl
      rw [hstep] at h
      exact ih hl1 true v b v1 h x hx
    | false =>
      by_cases hy : y ∈ v
      · have hstep : visitIncoming visit (some (false, v)) y = some (false, v) := by
          simp [visitIncoming, hy]
        rw [hstep] at h
        exact ih hl1 false v b v1 h x hx
      · have hstep : visitIncoming visit (some (false, v)) y = visit y v := by
          simp [visitIncoming, hy]
        rw [hstep] at h
        cases hr : visit y v with
        | none =>
          rw [hr, foldl_visitIncoming_none] at h
          cases h
        | some r =>
          obtain ⟨b2, v2⟩ := r
          rw [hr] at h
          rcases ih hl1 b2 v2 b v1 h x hx with h2 | h2
          · rcases hvisit y v b2 v2 hr x h2 with h3 | h3
            · exact Or.inl h3
            · exact Or.inr (Relation.ReflTransGen.head (hl y (List.mem_cons_self _ _)) h3)
          · exact Or.inr h2

/-- Every cell a search visits is reached from its start along `parents_`. -/
theorem VisitCell_reached (heap : List Cell) (R : List (Option Nat)) :
    ∀ fuel cur vis b vis1, VisitCell heap R fuel cur vis = some (b, vis1) →
      ∀ x, x ∈ vis1 → x ∈ vis ∨ Relation.ReflTransGen (parentEdge heap) cur x := by
  intro fuel
  induction fuel with
  | zero =>
    intro cur vis b vis1 h
    simp [VisitCell] at h
  | succ fuel ih =>
    intro cur vis b vis1 h x hx
    rw [VisitCell] at h
    split at h
    · simp only [Option.some.injEq, Prod.mk.injEq] at h
      rw [← h.2] at hx
      rcases mem_setInsert.mp hx with rfl | hx
      · exact Or.inr Relation.ReflTransGen.refl
      · exact Or.inl hx
    · rcases foldl_visitIncoming_reached (VisitCell heap R fuel) ih (parentsOf heap cur)
          (fun _ hy => hy) false _ b vis1 h x hx with h2 | h2
      · rcases mem_setInsert.mp h2 with rfl | h2
        · exact Or.inr Relation.ReflTransGen.refl
        · exact Or.inl h2
      · exact Or.inr h2

/-- The objects `InvalidateCache()` runs on are exactly the cells reached from
`this` along `parents_`. -/
theorem mem_invalidated_iff {heap : List Cell} (hv : ParentsValid heap) {this : Nat}
    (hthis : this < heap.length) (x : Nat) :
    x ∈ invalidated heap this ↔ Relation.ReflTransGen (parentEdge heap) this x := by
  obtain ⟨b, v, hrun, _⟩ := VisitCell_defined heap [] hv heap.length this [] hthis (by simp)
    (by rw [unvisited_nil])
  unfold invalidated readBySearch
  rw [hrun]
  simp only [List.mem_filter, List.not_mem_nil, not_false_eq_true, decide_True, and_true]
  cases b with
  | true =>
    obtain ⟨y, _, hy⟩ := VisitCell_true_sound heap [] _ _ _ _ hrun
    cases hy
  | false =>
    obtain ⟨hthis1, hcl⟩ := VisitCell_clean heap [] _ _ _ _ hrun
    constructor
    · intro hx
      rcases VisitCell_reached heap [] _ _ _ _ _ hrun x hx with h | h
      · cases h
      · exact h
    · intro hx
      induction hx with
      | refl => exact hthis1
      | tail _ hbc ih => exact (hcl.2 _ ih (by simp)).2 _ hbc

/-- The objects the cycle check reads are reached from `this` along `parents_`
and are not referenced. -/
theorem mem_searched {env : Env} {s : Sheet} {this : Nat} {impl : Impl} {x : Nat}
    (h : x ∈ searched env s this impl) :
    Relation.ReflTransGen (parentEdge s.heap) this x ∧
      ∀ pos, pos ∈ impl.GetReferencedCells → cellAt s pos ≠ some x := by
  unfold searched at h
  split at h
  · cases h
  · cases hres : resolveAll env s impl.GetReferencedCells with
    | returned cs =>
      rw [hres] at h
      simp only at h
      obtain ⟨hcs, _⟩ := resolveAll_returned env s _ cs hres
      unfold readBySearch at h
      cases hrun : VisitCell s.heap cs s.heap.length this [] with
      | none =>
        rw [hrun] at h
        cases h
      | some r =>
        obtain ⟨b, v⟩ := r
        rw [hrun] at h
        simp only [List.mem_filter, decide_eq_true_eq] at h
        refine ⟨?_, ?_⟩
        · rcases VisitCell_reached s.heap cs _ _ _ _ _ hrun x h.1 with h1 | h1
          · cases h1
          · exact h1
        · intro pos hpos hcell
          apply h.2
          rw [hcs, ← hcell]
          exact List.mem_map_of_mem _ hpos
    | threw e l =>
      rw [hres] at h
      cases h
    | fault f =>
      rw [hres] at h
      cases h

/-- When the cycle check answers `false` for a formula that references
something, it has read every cell reached from `this` along `parents_`. -/
theorem mem_searched_of_false {env : Env} {s : Sheet} {this : Nat} {impl : Impl}
    (hne : impl.GetReferencedCells ≠ []) (h : IsCyclic env s this impl = .returned false)
    (x : Nat) (hx : Relation.ReflTransGen (parentEdge s.heap) this x) :
    x ∈ searched env s this impl := by
  unfold IsCyclic at h
  unfold searched
  rw [if_neg hne] at h ⊢
  cases hres : resolveAll env s impl.GetReferencedCells with
  | returned cs =>
    rw [hres] at h
    simp only at h ⊢
    unfold readBySearch
    cases hrun : VisitCell s.heap cs s.heap.length this [] with
    | none =>
      rw [hrun] at h
      cases h
    | some r =>
      obtain ⟨b, v⟩ := r
      rw [hrun] at h
      simp only [Run.returned.injEq] at h
      subst h
      simp only [List.mem_filter, decide_eq_true_eq]
      obtain ⟨hthis1, hcl⟩ := VisitCell_clean s.heap cs _ _ _ _ hrun
      refine ⟨?_, VisitCell_false_sound hrun x hx⟩
      induction hx with
      | refl => exact hthis1
      | tail _ hbc ih => exact (hcl.2 _ ih (by simp)).2 _ hbc
  | threw e l =>
    rw [hres] at h
    cases h
  | fault f =>
    rw [hres] at h
    cases h

/-- A returning `Cell::Set` on a formula text: the search of the cycle check
read no destroyed object. -/
theorem Cell_Set_formula_live {env : Env} {s0 : Sheet} {this : Nat} {text : String}
    {s4 : Sheet} (h : Cell.Set env s0 this text = .returned s4) (hne : text.data ≠ [])
    (hf : IsFormula text = true) :
    ∃ f, env.ParseFormula (substr1 text) = some f ∧
      ¬ ∃ x ∈ searched env s0 this (.FormulaImpl f none), x ∈ s0.freed := by
  unfold Cell.Set at h
  rw [if_neg hne, if_pos hf] at h
  unfold CreateFormulaImpl at h
  cases hp : env.ParseFormula (substr1 text) with
  | none =>
    rw [hp] at h
    cases h
  | some f =>
    rw [hp] at h
    simp only at h
    refine ⟨f, rfl, ?_⟩
    intro hg
    rw [if_pos hg] at h
    cases h

/-- A returning `UpdateDependencies` wrote no destroyed child and reset the
cache of no destroyed object. -/
theorem UpdateDependencies_live {env : Env} {s : Sheet} {this : Nat} {s4 : Sheet}
    (h : UpdateDependencies env s this = .returned s4) :
    (¬ ∃ outgoing ∈ childsOf s.heap this, outgoing ∈ s.freed) ∧
      ∀ s3, attach env this { s with heap := detachAll s.heap this }
          (implOf s.heap this).GetReferencedCells = .returned s3 →
        ¬ ∃ in_ref ∈ invalidated s3.heap this, in_ref ∈ s3.freed := by
  unfold UpdateDependencies at h
  rw [implOf_detachAll] at h
  by_cases hg : ∃ outgoing ∈ childsOf s.heap this, outgoing ∈ s.freed
  · rw [if_pos hg] at h
    cases h
  · rw [if_neg hg] at h
    refine ⟨hg, ?_⟩
    intro s3 hatt hg3
    rw [hatt] at h
    simp only at h
    rw [if_pos hg3] at h
    cases h

/-- A formula edit that returns on a reachable sheet touched live objects
only.  With `A` the cell at the position: no former child of `A` was destroyed
(the `for_each` of `UpdateDependencies` writes each of them); when the formula
references something, no cell reached from `A` along `parents_` was destroyed
(the cycle check reads each of them); and in the sheet the call leaves no cell
reached from `A` along `parents_` is destroyed (`InvalidateCache()` runs on
each of them). -/
theorem SetCell_returned_read_live (env : Env) (s : Sheet) (pos : Position) (text : String)
    (f : FormulaInterface) (s4 : Sheet) (hs : Reachable env s)
    (hform : IsFormula text = true) (hparse : env.ParseFormula (substr1 text) = some f)
    (hset : SetCell env s pos text = .returned s4) :
    ∃ A, cellAt s4 pos = some A ∧
      (∀ b, b ∈ childsOf s.heap A → b ∉ s.freed) ∧
      (f.referenced ≠ [] →
        ∀ x, Relation.ReflTransGen (parentEdge s.heap) A x → x ∉ s.freed) ∧
      (∀ x, Relation.ReflTransGen (parentEdge s4.heap) A x → x ∉ s4.freed) := by
  unfold SetCell at hset
  split at hset
  · next hv =>
    obtain ⟨hinv0, hthis⟩ := Inv_locate hs.inv pos hv.1 hv.2.1
    obtain ⟨g1, g2⟩ := locate_edges s pos hv.1 hv.2.1
    have hfr0 := locate_freed s pos
    have hne := IsFormula_data_ne_nil hform
    obtain ⟨f0, hp0, hlive⟩ := Cell_Set_formula_live hset hne hform
    rw [hparse] at hp0
    simp only [Option.some.injEq] at hp0
    subst hp0
    obtain ⟨f1, s2, hp, hcyc, hcr, hupd⟩ := Cell_Set_formula_returned hset hne hform
    rw [hparse] at hp
    simp only [Option.some.injEq] at hp
    subst hp
    obtain ⟨hvalid, _⟩ := IsCyclic_false hcyc
    simp only [Impl.GetReferencedCells] at hvalid
    obtain ⟨t, k, e1, e2, e3, e4, e5, e6, e7, e8⟩ :=
      createReferenced_spec env f.referenced (setImpl (locate s pos).1 (locate s pos).2
        (.FormulaImpl f none)) hvalid
    rw [hcr] at e1
    simp only [Run.returned.injEq] at e1
    subst e1
    obtain ⟨b1, b2, b3, b4, b5, b6⟩ := before_rewiring hinv0 hvalid hcr
    have hfr2 : s2.freed = s.freed := by
      rw [createReferenced_freed env _ _ _ hcr]
      exact hfr0
    obtain ⟨hl1, hl3⟩ := UpdateDependencies_live hupd
    obtain ⟨s3, heap4, hatt, hinvc, hs4⟩ := UpdateDependencies_returned hupd
    subst hs4
    obtain ⟨r1, r2, r3, r4, r5, r6⟩ := rewire_spec env s2 (locate s pos).2 s3 hatt
      (by omega) b4 (Mirror_congr b1 b2 hinv0.mirror)
    obtain ⟨c1, c2⟩ := InvalidateCache_cacheOnly _ _ _ _ hinvc
    have hfr3 : s3.freed = s.freed := by
      rw [attach_freed env _ _ { s2 with heap := detachAll s2.heap (locate s pos).2 } s3 hatt]
      exact hfr2
    refine ⟨(locate s pos).2, ?_, ?_, ?_, ?_⟩
    · have hcell3 : cellAt { s3 with heap := heap4 } pos = cellAt s2 pos :=
        cellAt_congr (fun r c => by show slot s3.cells_ r c = _; rw [r1]) pos
      rw [hcell3, cellAt_eq_slot _ _ hv.1 hv.2.1]
      apply e3
      have h0 := cellAt_locate_self s pos hv.1 hv.2.1
      rw [cellAt_eq_slot _ _ hv.1 hv.2.1] at h0
      exact h0
    · intro b hb hfreed
      apply hl1
      refine ⟨b, ?_, ?_⟩
      · rw [b1, g1]
        exact hb
      · rw [hfr2]
        exact hfreed
    · intro hrefs x hx hfreed
      apply hlive
      refine ⟨x, @mem_searched_of_false env _ _ (.FormulaImpl f none) hrefs hcyc x ?_, ?_⟩
      · rw [parentEdge_congr g2]
        exact hx
      · rw [hfr0]
        exact hfreed
    · intro x hx hfreed
      apply hl3 s3 hatt
      refine ⟨x, ?_, ?_⟩
      · rw [mem_invalidated_iff (fun _ _ hb => r6.parents_lt hb) (by rw [r3]; omega)]
        have hpe : parentEdge heap4 = parentEdge s3.heap :=
          parentEdge_congr (fun y => (c2 y).2.1)
        rw [← hpe]
        exact hx
      · exact hfreed
  · cases hset

end Spreadsheet
